import Mathlib

/-!
Verification of the Ignea front-end core (lexical.py, syntactic.py,
semantic/common.py) against its natural-language specification.

The Python code is shallowly embedded: classes whose instances carry data
become structures, terminal-tag / nonterminal-type class objects become
elements of abstract types `τ` / `ν` together with descriptor records,
Python sets become `Finset`, Python dicts become association lists (their
insertion order is the list order), and in-place mutation becomes explicit
state passing.  Python string indices are modelled by taking the input as a
`List Char`.  Positions are modelled by value; the source uses identity-based
positions, but every claim below is about the field values.
-/

set_option maxRecDepth 8192

namespace Ignea

/-- `IgneaPosition` from common.py: a position in a text file. -/
structure IgneaPosition where
  filename : String
  index_ : Nat
  line : Nat
  column : Nat
deriving DecidableEq, Repr

/-- `IgneaTerminal` from lexical.py: a terminal symbol (token).  The linked
`next` field is modelled separately (see the arena-based lexer state below).
The extra `offside` field is a ghost marker recording the creation site: it is
`none` for terminals created in `IgneaLexer._get_terminal` and `some b` for
terminals created in `_IgneaOffside._get_offside_terminal` with indent flag
`b`; the source distinguishes the two kinds only by call site. -/
structure IgneaTerminal (τ : Type) where
  tags : Finset τ
  value : List Char
  start_position : IgneaPosition
  end_position : IgneaPosition
  offside : Option Bool
deriving DecidableEq

/-- Outcome of the completion step of `IgneaParser.parse`: either a silent
return (bsr.start left as `None`), a raised `IgneaNoDerivationError` at a
position, or setting `bsr.start` to the completion key. -/
inductive IgneaParseOutcome (ν : Type) where
  | silent
  | noDerivation (position : IgneaPosition)
  | success (key : ν × IgneaPosition × IgneaPosition)
deriving DecidableEq

/-- The completion step of `IgneaParser.parse` (syntactic.py, after the
top-level `derive` attempt): `eoi` is the parser's `_eoi` (furthest terminal
consulted), `epnKeys` lists the nonterminal-keyed keys present in `bsr.epns`,
and `nextAfterEoi` is the result of `lexer.next_terminal(_eoi)`.  The code
returns silently when `_eoi` is `None`; otherwise raises at
`_eoi.start_position` when the key is absent; otherwise raises at the next
terminal's start when the lexer yields one beyond `_eoi`; otherwise sets
`bsr.start` to the key. -/
def igneaParseCompletion {ν τ : Type} [DecidableEq ν] [DecidableEq τ]
    (startNT : ν) (lexerStart : IgneaPosition)
    (eoi : Option (IgneaTerminal τ))
    (epnKeys : List (ν × IgneaPosition × IgneaPosition))
    (nextAfterEoi : Option (IgneaTerminal τ)) : IgneaParseOutcome ν :=
  match eoi with
  | none => .silent
  | some e =>
    let key := (startNT, lexerStart, e.end_position)
    if key ∈ epnKeys then
      match nextAfterEoi with
      | some t => .noDerivation t.start_position
      | none => .success key
    else
      .noDerivation e.start_position

/-- The `ascend` argument of `IgneaParser.derive`: a boolean, the caller's
nonterminal type, or `None`. -/
inductive IgneaAscendArg (ν : Type) where
  | explicit (b : Bool)
  | callerType (nt : ν)
  | unspecified
deriving DecidableEq

/-- The ascend decision in `IgneaParser.derive` (syntactic.py): when the
`ascend` argument is not a boolean, it is recomputed as
`(ascend is None or ascend not in first_tbl or cls not in first_tbl[ascend])
and cls in first_tbl`, where `first_tbl` is `_nonterminal_types_first`
(`none` models an absent key). -/
def igneaResolveAscend {ν : Type} [DecidableEq ν]
    (first_tbl : ν → Option (Finset ν)) (cls : ν) :
    IgneaAscendArg ν → Bool
  | .explicit b => b
  | .unspecified => (first_tbl cls).isSome
  | .callerType a =>
    (match first_tbl a with
     | none => true
     | some s => decide (cls ∉ s)) && (first_tbl cls).isSome

/-- C1: after the top-level derivation attempt, `parse()` returns silently
(leaving `bsr.start = None`) when `_eoi` is still `None`; raises the
no-derivation error at `_eoi.start_position` when the completion key is absent
from `bsr.epns`; raises it at the start of the terminal the lexer yields
beyond `_eoi` when there is one; and otherwise sets `bsr.start` to the key. -/
theorem c1_parse_completion {ν τ : Type} [DecidableEq ν] [DecidableEq τ]
    (startNT : ν) (lexerStart : IgneaPosition)
    (eoi : Option (IgneaTerminal τ))
    (epnKeys : List (ν × IgneaPosition × IgneaPosition))
    (nextAfterEoi : Option (IgneaTerminal τ)) :
    (eoi = none →
      igneaParseCompletion startNT lexerStart eoi epnKeys nextAfterEoi
        = .silent) ∧
    (∀ e : IgneaTerminal τ, eoi = some e →
      ((startNT, lexerStart, e.end_position) ∉ epnKeys →
        igneaParseCompletion startNT lexerStart eoi epnKeys nextAfterEoi
          = .noDerivation e.start_position) ∧
      ((startNT, lexerStart, e.end_position) ∈ epnKeys →
        (∀ t, nextAfterEoi = some t →
          igneaParseCompletion startNT lexerStart eoi epnKeys nextAfterEoi
            = .noDerivation t.start_position) ∧
        (nextAfterEoi = none →
          igneaParseCompletion startNT lexerStart eoi epnKeys nextAfterEoi
            = .success (startNT, lexerStart, e.end_position)))) := by
  refine ⟨fun h => by subst h; rfl, fun e he => ?_⟩
  subst he
  constructor
  · intro hk
    simp [igneaParseCompletion, hk]
  · intro hk
    constructor
    · intro t ht
      subst ht
      simp [igneaParseCompletion, hk]
    · intro hn
      subst hn
      simp [igneaParseCompletion, hk]

/-- Witness for `c1_parse_completion` at concrete inputs: with `_eoi` present,
its key in `bsr.epns` and no terminal beyond it, the outcome is success. -/
theorem c1_parse_completion_witness :
    igneaParseCompletion (ν := Nat) (τ := Nat) 0
      (IgneaPosition.mk "" 0 1 1)
      (some ⟨∅, [], IgneaPosition.mk "" 0 1 1, IgneaPosition.mk "" 3 1 4, none⟩)
      [(0, IgneaPosition.mk "" 0 1 1, IgneaPosition.mk "" 3 1 4)]
      none
      = .success (0, IgneaPosition.mk "" 0 1 1, IgneaPosition.mk "" 3 1 4) := by
  have h := (c1_parse_completion (ν := Nat) (τ := Nat) 0
    (IgneaPosition.mk "" 0 1 1)
    (some ⟨∅, [], IgneaPosition.mk "" 0 1 1, IgneaPosition.mk "" 3 1 4, none⟩)
    [(0, IgneaPosition.mk "" 0 1 1, IgneaPosition.mk "" 3 1 4)]
    none).2
  exact ((h _ rfl).2 (by decide)).2 rfl

/-- C4: when the caller did not pass a boolean `ascend` flag, the parser
ascends iff the callee is in the left-recursion table (i.e. belongs to a
left-recursive SCC) and, moreover, the caller is unspecified, or the caller is
absent from the table, or the callee is not in the caller's first-in-SCC
set. -/
theorem c4_ascend_decision {ν : Type} [DecidableEq ν]
    (first_tbl : ν → Option (Finset ν)) (cls : ν) (arg : IgneaAscendArg ν)
    (hnb : ∀ b, arg ≠ .explicit b) :
    igneaResolveAscend first_tbl cls arg = true ↔
      ((first_tbl cls).isSome ∧
        (arg = .unspecified ∨
          ∃ a, arg = .callerType a ∧
            (first_tbl a = none ∨ ∃ s, first_tbl a = some s ∧ cls ∉ s))) := by
  cases arg with
  | explicit b => exact absurd rfl (hnb b)
  | unspecified => simp [igneaResolveAscend]
  | callerType a =>
    cases h : first_tbl a with
    | none => simp [igneaResolveAscend, h]
    | some s =>
      simp only [igneaResolveAscend, h]
      constructor
      · intro hand
        rcases Bool.and_eq_true .. |>.mp hand with ⟨h1, h2⟩
        exact ⟨h2, .inr ⟨a, rfl, .inr ⟨s, h, of_decide_eq_true h1⟩⟩⟩
      · rintro ⟨hsome, h2⟩
        rcases h2 with h2 | ⟨a', ha', h3⟩
        · exact absurd h2 (by simp)
        · cases ha'
          rcases h3 with h3 | ⟨s', hs', hmem⟩
          · rw [h] at h3; cases h3
          · rw [h] at hs'; cases hs'
            exact Bool.and_eq_true .. |>.mpr ⟨decide_eq_true hmem, hsome⟩

/-- Witness for `c4_ascend_decision`: caller `0` has first-in-SCC set `{2}`,
callee `1` is in the table but not in that set, so `derive(1, states, 0)`
ascends. -/
theorem c4_ascend_decision_witness :
    igneaResolveAscend (ν := Nat)
      (fun n => if n = 0 then some {2} else if n = 1 then some {0} else none)
      1 (.callerType 0) = true := by
  have h := c4_ascend_decision (ν := Nat)
    (fun n => if n = 0 then some {2} else if n = 1 then some {0} else none)
    1 (.callerType 0) (by intro b h; cases h)
  exact h.mpr ⟨by decide, .inr ⟨0, rfl, .inr ⟨{2}, by decide, by decide⟩⟩⟩

/-! ### Trees and the position fixer / unfixer (semantic/common.py) -/

/-- `IgneaTreeNode` with its two subclasses `IgneaTerminalTreeNode` and
`IgneaNonterminalTreeNode` from semantic/common.py. -/
inductive IgneaTreeNode (τ ν : Type) where
  | terminal (type_ : τ) (start_position : IgneaPosition)
      (end_terminal : IgneaTerminal τ)
  | nonterminal (type_ : ν) (start_position : IgneaPosition)
      (end_terminal : IgneaTerminal τ)
      (children : List (IgneaTreeNode τ ν))

/-- The `start_position` attribute of a tree node. -/
def IgneaTreeNode.startPos {τ ν : Type} : IgneaTreeNode τ ν → IgneaPosition
  | .terminal _ s _ => s
  | .nonterminal _ s _ _ => s

/-- The `end_terminal` attribute of a tree node. -/
def IgneaTreeNode.endTerm {τ ν : Type} : IgneaTreeNode τ ν → IgneaTerminal τ
  | .terminal _ _ et => et
  | .nonterminal _ _ et _ => et

/-- Start position of the leftmost descendant of a tree node. -/
def igneaLeftmostStart {τ ν : Type} : IgneaTreeNode τ ν → IgneaPosition
  | .terminal _ s _ => s
  | .nonterminal _ s _ [] => s
  | .nonterminal _ _ _ (c :: _) => igneaLeftmostStart c

mutual

/-- Well-formedness of a tree, as used by the position fix/unfix claim: every
nonterminal node has at least one child and its start position is the start
position of its leftmost descendant; every terminal node's start position is
its end terminal's start position. -/
def igneaWellFormed {τ ν : Type} : IgneaTreeNode τ ν → Bool
  | .terminal _ s et => decide (s = et.start_position)
  | .nonterminal _ _ _ [] => false
  | .nonterminal _ s _ (c :: cs) =>
      decide (s = igneaLeftmostStart c) &&
        (igneaWellFormed c && igneaChildrenWellFormed cs)

/-- Well-formedness of a list of children. -/
def igneaChildrenWellFormed {τ ν : Type} : List (IgneaTreeNode τ ν) → Bool
  | [] => true
  | c :: cs => igneaWellFormed c && igneaChildrenWellFormed cs

end

mutual

/-- `IgneaTreePositionFixer` from semantic/common.py as a bottom-up tree
transform: in post order, a terminal node's start position becomes its end
terminal's start position and a nonterminal node's start position becomes its
first child's start position.  The source visitor mutates nodes in place
during the ascent (reverse-BFS) phase, which processes every child before its
parent, so the recursive transform computes the same final tree.  `none`
models the `IndexError` the source raises on a childless nonterminal node. -/
def igneaTreeFix {τ ν : Type} : IgneaTreeNode τ ν → Option (IgneaTreeNode τ ν)
  | .terminal ty _ et => some (.terminal ty et.start_position et)
  | .nonterminal _ _ _ [] => none
  | .nonterminal ty _ et (c :: cs) => do
      let cs' ← igneaTreeFixChildren (c :: cs)
      match cs' with
      | [] => none
      | c0 :: rest => some (.nonterminal ty c0.startPos et (c0 :: rest))

/-- Applies `igneaTreeFix` to each node of a list of children. -/
def igneaTreeFixChildren {τ ν : Type} :
    List (IgneaTreeNode τ ν) → Option (List (IgneaTreeNode τ ν))
  | [] => some []
  | c :: cs => do
      let c' ← igneaTreeFix c
      let cs' ← igneaTreeFixChildren cs
      some (c' :: cs')

end

mutual

/-- `IgneaTreePositionUnfixer` from semantic/common.py as a top-down tree
transform: in pre order, the first child's start position becomes the parent's
start position and each subsequent child's start position becomes the previous
child's end terminal's end position.  The parameter `p` is the start position
this node was assigned by its parent (for the root, its own start position).
`none` models the `IndexError` the source raises on a childless nonterminal
node. -/
def igneaTreeUnfixAt {τ ν : Type} (p : IgneaPosition) :
    IgneaTreeNode τ ν → Option (IgneaTreeNode τ ν)
  | .terminal ty _ et => some (.terminal ty p et)
  | .nonterminal _ _ _ [] => none
  | .nonterminal ty _ et (c :: cs) => do
      let cs' ← igneaTreeUnfixChildren p (c :: cs)
      some (.nonterminal ty p et cs')

/-- Reassigns and recursively unfixes a list of children, the first child
getting start position `p` and each later child the previous child's end
terminal's end position. -/
def igneaTreeUnfixChildren {τ ν : Type} (p : IgneaPosition) :
    List (IgneaTreeNode τ ν) → Option (List (IgneaTreeNode τ ν))
  | [] => some []
  | c :: cs => do
      let c' ← igneaTreeUnfixAt p c
      let cs' ← igneaTreeUnfixChildren c.endTerm.end_position cs
      some (c' :: cs')

end

/-- `IgneaTreePositionUnfixer` applied to a whole tree: the root keeps its own
start position. -/
def igneaTreeUnfix {τ ν : Type} (t : IgneaTreeNode τ ν) :
    Option (IgneaTreeNode τ ν) :=
  igneaTreeUnfixAt t.startPos t

mutual

/-- The position fixer erases whatever start positions the unfixer wrote: the
fixed tree only depends on the skeleton (types, end terminals, child lists),
which the unfixer does not touch. -/
theorem igneaTreeFix_unfixAt {τ ν : Type} (p : IgneaPosition)
    (t u : IgneaTreeNode τ ν) (h : igneaTreeUnfixAt p t = some u) :
    igneaTreeFix u = igneaTreeFix t := by
  cases t with
  | terminal ty s et =>
    simp only [igneaTreeUnfixAt] at h
    cases h
    rfl
  | nonterminal ty s et cs =>
    cases cs with
    | nil => simp [igneaTreeUnfixAt] at h
    | cons c cs =>
      simp only [igneaTreeUnfixAt, Option.bind_eq_bind, Option.bind_eq_some] at h
      obtain ⟨cs', hcs', hu⟩ := h
      cases hu
      have hc := igneaTreeFixChildren_unfixChildren p (c :: cs) cs' hcs'
      cases cs' with
      | nil =>
        simp only [igneaTreeUnfixChildren, Option.bind_eq_bind,
          Option.bind_eq_some] at hcs'
        obtain ⟨_, _, _, _, h3⟩ := hcs'
        cases h3
      | cons c0 rest =>
        simp only [igneaTreeFix, Option.bind_eq_bind]
        rw [hc]

/-- List version of `igneaTreeFix_unfixAt`. -/
theorem igneaTreeFixChildren_unfixChildren {τ ν : Type} (p : IgneaPosition)
    (cs cs' : List (IgneaTreeNode τ ν))
    (h : igneaTreeUnfixChildren p cs = some cs') :
    igneaTreeFixChildren cs' = igneaTreeFixChildren cs := by
  cases cs with
  | nil =>
    simp only [igneaTreeUnfixChildren] at h
    cases h
    rfl
  | cons c cstl =>
    simp only [igneaTreeUnfixChildren, Option.bind_eq_bind,
      Option.bind_eq_some] at h
    obtain ⟨c', hc', cs'', hcs'', heq⟩ := h
    cases heq
    have h1 := igneaTreeFix_unfixAt p c c' hc'
    have h2 := igneaTreeFixChildren_unfixChildren c.endTerm.end_position
      cstl cs'' hcs''
    simp only [igneaTreeFixChildren, Option.bind_eq_bind, h1, h2]

end

/-- A well-formed tree's start position is its leftmost descendant's. -/
theorem igneaWellFormed_startPos {τ ν : Type} (t : IgneaTreeNode τ ν)
    (h : igneaWellFormed t = true) : t.startPos = igneaLeftmostStart t := by
  cases t with
  | terminal ty s et => rfl
  | nonterminal ty s et cs =>
    cases cs with
    | nil => simp [igneaWellFormed] at h
    | cons c cstl =>
      simp only [igneaWellFormed, Bool.and_eq_true, decide_eq_true_eq] at h
      exact h.1

mutual

/-- On a well-formed tree the position fixer is the identity. -/
theorem igneaTreeFix_wf {τ ν : Type} (t : IgneaTreeNode τ ν)
    (h : igneaWellFormed t = true) : igneaTreeFix t = some t := by
  cases t with
  | terminal ty s et =>
    simp only [igneaWellFormed, decide_eq_true_eq] at h
    simp [igneaTreeFix, h]
  | nonterminal ty s et cs =>
    cases cs with
    | nil => simp [igneaWellFormed] at h
    | cons c cstl =>
      simp only [igneaWellFormed, Bool.and_eq_true, decide_eq_true_eq] at h
      obtain ⟨hs, hc, hcs⟩ := h
      have h1 := igneaTreeFix_wf c hc
      have h2 := igneaTreeFixChildren_wf cstl hcs
      simp only [igneaTreeFix, Option.bind_eq_bind, igneaTreeFixChildren,
        h1, h2, Option.some_bind]
      have hstart : c.startPos = igneaLeftmostStart c :=
        igneaWellFormed_startPos c hc
      rw [hs, ← hstart]

/-- On well-formed children the position fixer is the identity. -/
theorem igneaTreeFixChildren_wf {τ ν : Type} (cs : List (IgneaTreeNode τ ν))
    (h : igneaChildrenWellFormed cs = true) :
    igneaTreeFixChildren cs = some cs := by
  cases cs with
  | nil => rfl
  | cons c cstl =>
    simp only [igneaChildrenWellFormed, Bool.and_eq_true] at h
    have h1 := igneaTreeFix_wf c h.1
    have h2 := igneaTreeFixChildren_wf cstl h.2
    simp [igneaTreeFixChildren, h1, h2]

end

mutual

/-- On a well-formed tree the position unfixer succeeds. -/
theorem igneaTreeUnfixAt_wf {τ ν : Type} (p : IgneaPosition)
    (t : IgneaTreeNode τ ν) (h : igneaWellFormed t = true) :
    ∃ u, igneaTreeUnfixAt p t = some u := by
  cases t with
  | terminal ty s et => exact ⟨_, rfl⟩
  | nonterminal ty s et cs =>
    cases cs with
    | nil => simp [igneaWellFormed] at h
    | cons c cstl =>
      simp only [igneaWellFormed, Bool.and_eq_true, decide_eq_true_eq] at h
      obtain ⟨hs, hc, hcs⟩ := h
      obtain ⟨cs', hcs'⟩ := igneaTreeUnfixChildren_wf p c cstl hc hcs
      refine ⟨.nonterminal ty p et cs', ?_⟩
      simp [igneaTreeUnfixAt, hcs']
termination_by sizeOf t

/-- On well-formed children the position unfixer succeeds. -/
theorem igneaTreeUnfixChildren_wf {τ ν : Type} (p : IgneaPosition)
    (c : IgneaTreeNode τ ν) (cstl : List (IgneaTreeNode τ ν))
    (hc : igneaWellFormed c = true)
    (hcs : igneaChildrenWellFormed cstl = true) :
    ∃ cs', igneaTreeUnfixChildren p (c :: cstl) = some cs' := by
  obtain ⟨c', hc'⟩ := igneaTreeUnfixAt_wf p c hc
  cases cstl with
  | nil => exact ⟨[c'], by simp [igneaTreeUnfixChildren, hc']⟩
  | cons d ds =>
    simp only [igneaChildrenWellFormed, Bool.and_eq_true] at hcs
    obtain ⟨cs'', hcs''⟩ := igneaTreeUnfixChildren_wf
      c.endTerm.end_position d ds hcs.1 hcs.2
    refine ⟨c' :: cs'', ?_⟩
    simp only [igneaTreeUnfixChildren, Option.bind_eq_bind, hc',
      Option.some_bind] at hcs'' ⊢
    rw [hcs'']
    rfl
termination_by 1 + sizeOf c + sizeOf cstl

end

/-- C9: on every well-formed tree (each nonterminal's start position is its
leftmost descendant's start position, each terminal's start position is its
end terminal's start position), running the position unfixer and then the
position fixer restores the tree exactly: all start positions, types,
children and end terminals are as before. -/
theorem c9_fix_unfix_roundtrip {τ ν : Type} (t : IgneaTreeNode τ ν)
    (h : igneaWellFormed t = true) :
    (igneaTreeUnfix t).bind igneaTreeFix = some t := by
  obtain ⟨u, hu⟩ := igneaTreeUnfixAt_wf t.startPos t h
  unfold igneaTreeUnfix
  rw [hu, Option.some_bind]
  rw [igneaTreeFix_unfixAt t.startPos t u hu]
  exact igneaTreeFix_wf t h

/-- Witness for `c9_fix_unfix_roundtrip`: a concrete two-level tree. -/
theorem c9_fix_unfix_roundtrip_witness :
    (igneaTreeUnfix (τ := Nat) (ν := Nat)
        (.nonterminal 7 (IgneaPosition.mk "f" 0 1 1)
          ⟨∅, ['b'], IgneaPosition.mk "f" 1 1 2, IgneaPosition.mk "f" 2 1 3,
            none⟩
          [.terminal 1 (IgneaPosition.mk "f" 0 1 1)
            ⟨∅, ['a'], IgneaPosition.mk "f" 0 1 1, IgneaPosition.mk "f" 1 1 2,
              none⟩,
           .terminal 2 (IgneaPosition.mk "f" 1 1 2)
            ⟨∅, ['b'], IgneaPosition.mk "f" 1 1 2, IgneaPosition.mk "f" 2 1 3,
              none⟩])).bind igneaTreeFix
      = some
        (.nonterminal 7 (IgneaPosition.mk "f" 0 1 1)
          ⟨∅, ['b'], IgneaPosition.mk "f" 1 1 2, IgneaPosition.mk "f" 2 1 3,
            none⟩
          [.terminal 1 (IgneaPosition.mk "f" 0 1 1)
            ⟨∅, ['a'], IgneaPosition.mk "f" 0 1 1, IgneaPosition.mk "f" 1 1 2,
              none⟩,
           .terminal 2 (IgneaPosition.mk "f" 1 1 2)
            ⟨∅, ['b'], IgneaPosition.mk "f" 1 1 2, IgneaPosition.mk "f" 2 1 3,
              none⟩]) :=
  c9_fix_unfix_roundtrip _ (by decide)

/-! ### The lexer (lexical.py)

Terminal tags are elements of an abstract type `τ`; a descriptor assignment
`descr : τ → IgneaTerminalTagDescr τ` gives each tag the classmethods of
`IgneaTerminalTag`.  The runtime condition flags are fixed for the life of a
lexer, so each predicate appears with the conditions already applied;
quantifying over descriptor assignments quantifies over all conditions.
The `nfas` memoization cache of `_IgneaLexerCache` is omitted: it memoizes the
pure function `(tag, states, char) ↦ tag.nfa(states, char)` and is
observationally transparent. -/

/-- Descriptor of one terminal tag: `STATES_START` and the classmethods of
`IgneaTerminalTag` from lexical.py, with the runtime conditions applied. -/
structure IgneaTerminalTagDescr (τ : Type) where
  STATES_START : Nat
  start : Bool
  ignore : Bool
  indent : Bool
  dedent : Bool
  positives : Finset τ
  negatives : Finset τ
  nfa : Nat → Char → Bool × Nat

/-- Errors raised by the lexer.  `stackUnderflow` models the `IndexError`
Python would raise when indexing an empty indentation stack, and `outOfFuel`
is the fuel-exhaustion marker of this embedding (not a source behaviour; all
claims about lexer runs are conditioned on a non-`outOfFuel` result). -/
inductive IgneaLexError (τ : Type) where
  | multipleIndents (tag : τ)
  | multipleDedents (tag : τ)
  | missingOffside (tag : τ)
  | noTerminalTag (position : IgneaPosition) (last_terminal_tags : List τ)
  | indentationMismatch (position : IgneaPosition)
  | stackUnderflow
  | outOfFuel
deriving DecidableEq

/-- The condition-dependent part of `_IgneaLexerCache` as computed by
`IgneaLexer.__post_init__`: dicts become association lists in
`TERMINAL_TAGS` order (the dict insertion order). -/
structure IgneaLexerCache (τ : Type) where
  states_start : List (τ × Nat)
  terminal_tags_ignore : Finset τ
  terminal_tags_offside : Option (τ × τ)
  terminal_tags_positives : List (τ × Finset τ)
  terminal_tags_negatives : List (τ × Finset τ)
deriving DecidableEq

/-- Whether a tag participates in lexical analysis as a non-off-side tag:
`start(conditions) and not indent(conditions) and not dedent(conditions)`,
the filter `__post_init__` applies to positives and negatives. -/
def igneaActiveNonOffside {τ : Type} (descr : τ → IgneaTerminalTagDescr τ)
    (t : τ) : Bool :=
  (descr t).start && !(descr t).indent && !(descr t).dedent

/-- The tag-partitioning loop of `IgneaLexer.__post_init__`: walks
`TERMINAL_TAGS`, records the indent and dedent tags (raising on duplicates),
and fills `states_start`, the ignore set and the filtered positives and
negatives for every other starting tag. -/
def igneaPostInitLoop {τ : Type} [DecidableEq τ]
    (descr : τ → IgneaTerminalTagDescr τ) :
    List τ → Option τ → Option τ → IgneaLexerCache τ →
    Except (IgneaLexError τ) (Option τ × Option τ × IgneaLexerCache τ)
  | [], ind, ded, cache => .ok (ind, ded, cache)
  | tag :: rest, ind, ded, cache =>
    if (descr tag).start then
      if (descr tag).indent then
        match ind with
        | some _ => .error (.multipleIndents tag)
        | none => igneaPostInitLoop descr rest (some tag) ded cache
      else if (descr tag).dedent then
        match ded with
        | some _ => .error (.multipleDedents tag)
        | none => igneaPostInitLoop descr rest ind (some tag) cache
      else
        igneaPostInitLoop descr rest ind ded
          { cache with
            states_start := cache.states_start ++ [(tag, (descr tag).STATES_START)],
            terminal_tags_ignore :=
              if (descr tag).ignore then insert tag cache.terminal_tags_ignore
              else cache.terminal_tags_ignore,
            terminal_tags_positives := cache.terminal_tags_positives ++
              [(tag, (descr tag).positives.filter
                (fun t => igneaActiveNonOffside descr t = true))],
            terminal_tags_negatives := cache.terminal_tags_negatives ++
              [(tag, (descr tag).negatives.filter
                (fun t => igneaActiveNonOffside descr t = true))] }
    else
      igneaPostInitLoop descr rest ind ded cache

/-- `IgneaLexer.__post_init__`: partitions the tags, then enforces the
both-or-neither rule for the indent and dedent tags and stores the off-side
pair. -/
def igneaLexerPostInit {τ : Type} [DecidableEq τ] (TERMINAL_TAGS : List τ)
    (descr : τ → IgneaTerminalTagDescr τ) :
    Except (IgneaLexError τ) (IgneaLexerCache τ) :=
  match igneaPostInitLoop descr TERMINAL_TAGS none none ⟨[], ∅, none, [], []⟩ with
  | .error e => .error e
  | .ok (some i, some d, cache) =>
    .ok { cache with terminal_tags_offside := some (i, d) }
  | .ok (none, none, cache) => .ok cache
  | .ok (some i, none, _) => .error (.missingOffside i)
  | .ok (none, some d, _) => .error (.missingOffside d)

/-- `_IgneaOffside`: the off-side rule driver.  The Python indentation
stack grows at the end; here the head of `_stack` is the Python `stack[-1]`
(the top). -/
structure IgneaOffside (τ : Type) where
  terminal_tags : Option (τ × τ)
  _stack : List Nat
  _state : Nat
deriving DecidableEq

/-- `_IgneaOffside.__post_init__`: stack `[1]` and the starting NFA states
`1 <<< 0 ||| 1 <<< 1 ||| 1 <<< 2`. -/
def IgneaOffside.init {τ : Type} (tt : Option (τ × τ)) : IgneaOffside τ :=
  ⟨tt, [1], 1 <<< 0 ||| 1 <<< 1 ||| 1 <<< 2⟩

/-- `_IgneaOffside.nfa`: one step of the off-side NFA recognizing
`(\n* [\t ]* ([^\t\n ] [^\n]* \n)?)*`; returns whether `char` is the first
non-whitespace character of its line, together with the next state mask. -/
def igneaOffsideNfa (state : Nat) (char : Char) : Bool × Nat :=
  let state_accept := (1 <<< 2 &&& state) ≠ 0 ∧ ¬(char = '\t' ∨ char = '\n' ∨ char = ' ')
  let next1 := if (1 <<< 0 &&& state) ≠ 0 ∧ char = '\n'
    then 1 <<< 0 ||| 1 <<< 1 ||| 1 <<< 2 else 0
  let next2 := if (1 <<< 1 &&& state) ≠ 0 ∧ (char = '\t' ∨ char = ' ')
    then 1 <<< 0 ||| 1 <<< 1 ||| 1 <<< 2 else 0
  let next3 := if state_accept then 1 <<< 0 ||| 1 <<< 3 else 0
  let next4 := if (1 <<< 3 &&& state) ≠ 0 ∧ char ≠ '\n'
    then 1 <<< 0 ||| 1 <<< 3 else 0
  (decide state_accept, next1 ||| next2 ||| next3 ||| next4)

/-- `_IgneaOffside._get_offside_terminal`: a synthetic indent or dedent
terminal with empty value at (a copy of) the provided start position. -/
def igneaGetOffsideTerminal {τ : Type} (tt : τ × τ)
    (start_position : IgneaPosition) (indent : Bool) : IgneaTerminal τ :=
  { tags := {if indent then tt.1 else tt.2},
    value := [],
    start_position := start_position,
    end_position := start_position,
    offside := some indent }

/-- The dedent-emitting loop of `prepend_offside_terminals`: pops while the
top of the stack exceeds the column, prepending one dedent terminal per
pop. -/
def igneaPopDedents {τ : Type} (tt : τ × τ) (sp : IgneaPosition) :
    List Nat → List (IgneaTerminal τ) →
    Except (IgneaLexError τ) (List Nat × List (IgneaTerminal τ))
  | [], _ => .error .stackUnderflow
  | top :: rest, chain =>
    if sp.column < top then
      igneaPopDedents tt sp rest (igneaGetOffsideTerminal tt sp false :: chain)
    else
      .ok (top :: rest, chain)

/-- `_IgneaOffside.prepend_offside_terminals`: detects indentation level
changes and prepends off-side terminals; `chain = []` models
`current_terminal = None` (end of file). -/
def igneaPrependOffsideTerminals {τ : Type} (o : IgneaOffside τ)
    (start_position : IgneaPosition) (chain : List (IgneaTerminal τ)) :
    Except (IgneaLexError τ) (IgneaOffside τ × List (IgneaTerminal τ)) :=
  match o.terminal_tags with
  | none => .ok (o, chain)
  | some tt =>
    match chain with
    | [] =>
      .ok ({ o with _stack := o._stack.drop (o._stack.length - 1) },
        List.replicate (o._stack.length - 1)
          (igneaGetOffsideTerminal tt start_position false))
    | t :: ts =>
      match o._stack with
      | [] => .error .stackUnderflow
      | top :: rest =>
        if start_position.column < top then
          match igneaPopDedents tt start_position (top :: rest) (t :: ts) with
          | .error e => .error e
          | .ok (stack', chain') =>
            match stack' with
            | [] => .error .stackUnderflow
            | top' :: _ =>
              if start_position.column > top' then
                .error (.indentationMismatch start_position)
              else
                .ok ({ o with _stack := stack' }, chain')
        else if start_position.column > top then
          .ok ({ o with _stack := start_position.column :: top :: rest },
            igneaGetOffsideTerminal tt start_position true :: t :: ts)
        else
          .ok (o, chain)

/-- `IgneaLexer._process_nfas`: one step of every live NFA; returns the tags
accepting at this character and the next states map (in iteration order). -/
def igneaProcessNfas {τ : Type} [DecidableEq τ]
    (descr : τ → IgneaTerminalTagDescr τ) (current_states : List (τ × Nat))
    (char : Char) : Finset τ × List (τ × Nat) :=
  current_states.foldl
    (fun acc ts =>
      let r := (descr ts.1).nfa ts.2 char
      (if r.1 then insert ts.1 acc.1 else acc.1,
       if r.2 ≠ 0 then acc.2 ++ [(ts.1, r.2)] else acc.2))
    (∅, [])

/-- Association-list lookup for the positives/negatives dicts; absent keys
yield `∅` (in the source a lookup of an absent key would be a `KeyError`,
which is unreachable because the closures stay inside the filtered
domain). -/
def igneaLookupTags {τ : Type} [DecidableEq τ] :
    List (τ × Finset τ) → τ → Finset τ
  | [], _ => ∅
  | (a, s) :: rest, tag => if tag = a then s else igneaLookupTags rest tag

/-- One of the two fixed-point loops of
`IgneaLexer._process_positives_negatives`: repeatedly unions `m`-images of
the newly added tags into `acc` until nothing new appears.  The fuel only
bounds the iteration count; `acc` grows strictly inside the finite key set,
so any fuel larger than the number of tags reaches the fixed point. -/
def igneaClosureLoop {τ : Type} [DecidableEq τ] (m : List (τ × Finset τ)) :
    Nat → Finset τ → Finset τ → Finset τ
  | 0, acc, _ => acc
  | fuel + 1, acc, current =>
    let next := (current.biUnion (igneaLookupTags m)) \ acc
    if next = ∅ then acc
    else igneaClosureLoop m fuel (acc ∪ next) next

/-- `IgneaLexer._process_positives_negatives`: transitive positive closure
of the accepted set, then subtraction of the transitive negative closure of
the closed set. -/
def igneaProcessPositivesNegatives {τ : Type} [DecidableEq τ]
    (cache : IgneaLexerCache τ) (positive_terminal_tags : Finset τ) :
    Finset τ :=
  let fuel := cache.states_start.length + 1
  let closed := igneaClosureLoop cache.terminal_tags_positives fuel
    positive_terminal_tags positive_terminal_tags
  let negative0 := closed.biUnion (igneaLookupTags cache.terminal_tags_negatives)
  let negative := igneaClosureLoop cache.terminal_tags_negatives fuel
    negative0 negative0
  closed \ negative

/-- Position advance in the scan loop of `_get_terminal`: the index always
advances; a newline starts a new line at column 1, any other character
advances the column. -/
def igneaAdvancePosition (p : IgneaPosition) (char : Char) : IgneaPosition :=
  if char ≠ '\n' then
    { p with index_ := p.index_ + 1, column := p.column + 1 }
  else
    { p with index_ := p.index_ + 1, line := p.line + 1, column := 1 }

theorem igneaAdvancePosition_index (p : IgneaPosition) (char : Char) :
    (igneaAdvancePosition p char).index_ = p.index_ + 1 := by
  unfold igneaAdvancePosition
  split <;> rfl

/-- The `for index_ in range(accepted_position.index_,
current_position.index_)` loop of `_get_terminal`: advances the off-side NFA
over the characters of the committed span (passed as the list `chars`, with
`lo` the input index of its first character) and records whether an accepted
(first non-whitespace) character sits at the terminal's start index. -/
def igneaOffsideSpan {τ : Type} (startIdx : Nat) :
    Nat → List Char → IgneaOffside τ × Bool → IgneaOffside τ × Bool
  | _, [], ob => ob
  | lo, c :: cs, (o, flag) =>
    let r := igneaOffsideNfa o._state c
    igneaOffsideSpan startIdx (lo + 1) cs
      ({ o with _state := r.2 }, flag || (r.1 && decide (lo = startIdx)))

/-- The transient state of one `_get_terminal` scan (`_IgneaLexerStore`
fields plus the local variables of `_get_terminal`). -/
structure IgneaScanState (τ : Type) where
  current_position : IgneaPosition
  current_states : List (τ × Nat)
  last_terminal_tags : List τ
  is_offside : Bool
  accepted_position : IgneaPosition
  accepted_terminal_tags : Finset τ
  offside : IgneaOffside τ

/-- The body of one iteration of the scan loop of `_get_terminal`: steps all
NFAs on the current character, commits the pending accepted set (running the
off-side NFA over the newly committed span) and tracks the
furthest-surviving tags for diagnostics. -/
def igneaScanStep {τ : Type} [DecidableEq τ]
    (descr : τ → IgneaTerminalTagDescr τ) (cache : IgneaLexerCache τ)
    (input : List Char) (startIdx : Nat) (st : IgneaScanState τ) :
    IgneaScanState τ :=
  let char := input.getD st.current_position.index_ ' '
  let r := igneaProcessNfas descr st.current_states char
  let pos' := igneaAdvancePosition st.current_position char
  let stc : IgneaScanState τ :=
    if r.1 ≠ ∅ then
      let ofr := igneaOffsideSpan startIdx st.accepted_position.index_
        ((input.drop st.accepted_position.index_).take
          (pos'.index_ - st.accepted_position.index_))
        (st.offside, st.is_offside)
      { st with
        accepted_terminal_tags := r.1,
        offside := ofr.1,
        is_offside := ofr.2,
        accepted_position := pos' }
    else st
  let last' := if r.2 = [] ∧ st.current_states.length < cache.states_start.length
    then st.current_states.map Prod.fst
    else st.last_terminal_tags
  { stc with
    current_position := pos',
    current_states := r.2,
    last_terminal_tags := last' }

/-- The inner character loop of `IgneaLexer._get_terminal` (`while
len(current_states) > 0 and current_position.index_ < len(input)`): iterates
`igneaScanStep`.  One fuel unit is one loop iteration; the index advances
every iteration, so `input.length + 1` units always suffice, and exhaustion
(`none`) is mapped to the `outOfFuel` error by the caller. -/
def igneaScanLoop {τ : Type} [DecidableEq τ]
    (descr : τ → IgneaTerminalTagDescr τ) (cache : IgneaLexerCache τ)
    (input : List Char) (startIdx : Nat) :
    Nat → IgneaScanState τ → Option (IgneaScanState τ)
  | 0, _ => none
  | fuel + 1, st =>
    if st.current_states ≠ [] ∧ st.current_position.index_ < input.length then
      igneaScanLoop descr cache input startIdx fuel
        (igneaScanStep descr cache input startIdx st)
    else
      some st

/-- The data the lexer carries across `_get_terminal` calls: the off-side
driver state and the `accepted_terminal_tags` memoization cache (keyed by the
frozen initial accepted set). -/
structure IgneaLexerPersistent (τ : Type) where
  offside : IgneaOffside τ
  accepted_terminal_tags : List (Finset τ × Finset τ)
deriving DecidableEq

/-- Lookup in the accepted-tag-set memoization cache. -/
def igneaLookupMemo {τ : Type} [DecidableEq τ] :
    List (Finset τ × Finset τ) → Finset τ → Option (Finset τ)
  | [], _ => none
  | (k, v) :: rest, key => if key = k then some v else igneaLookupMemo rest key

/-- The memoized refinement step of `_get_terminal`: on a cache miss for the
frozen initial accepted set, run `_process_positives_negatives`, subtract the
ignored tags and record the result; on a hit, serve the recorded set.
Returns the refined set together with the updated cache. -/
def igneaRefineMemo {τ : Type} [DecidableEq τ] (cache : IgneaLexerCache τ)
    (memo : List (Finset τ × Finset τ)) (initial : Finset τ) :
    Finset τ × List (Finset τ × Finset τ) :=
  match igneaLookupMemo memo initial with
  | none =>
    let r := igneaProcessPositivesNegatives cache initial \
      cache.terminal_tags_ignore
    (r, memo ++ [(initial, r)])
  | some r => (r, memo)

/-- The body of `IgneaLexer._get_terminal` after the end-of-file check: the
`while True` loop that scans for the next longest match, refines the accepted
tag set (through the memoization cache), and either returns a terminal
(prepending off-side terminals when the match starts a line), returns the
end-of-file off-side drain, or skips an ignored match and restarts.  One fuel
unit is one `while True` iteration; each restart strictly advances the start
index, so `input.length + 1` units suffice. -/
def igneaGetTerminalLoop {τ : Type} [DecidableEq τ]
    (descr : τ → IgneaTerminalTagDescr τ) (cache : IgneaLexerCache τ)
    (input : List Char) :
    Nat → IgneaLexerPersistent τ → IgneaPosition →
    Except (IgneaLexError τ) (IgneaLexerPersistent τ × List (IgneaTerminal τ))
  | 0, _, _ => .error .outOfFuel
  | fuel + 1, p, start_position =>
    match igneaScanLoop descr cache input start_position.index_ (input.length + 1)
      { current_position := start_position,
        current_states := cache.states_start,
        last_terminal_tags := [],
        is_offside := false,
        accepted_position := start_position,
        accepted_terminal_tags := ∅,
        offside := p.offside } with
    | none => .error .outOfFuel
    | some st =>
    if st.accepted_terminal_tags = ∅ then
      .error (.noTerminalTag start_position st.last_terminal_tags)
    else
      let rm := igneaRefineMemo cache p.accepted_terminal_tags
        st.accepted_terminal_tags
      let p' : IgneaLexerPersistent τ :=
        { offside := st.offside, accepted_terminal_tags := rm.2 }
      if rm.1 ≠ ∅ then
        let next_terminal : IgneaTerminal τ :=
          { tags := rm.1,
            value := (input.drop start_position.index_).take
              (st.accepted_position.index_ - start_position.index_),
            start_position := start_position,
            end_position := st.accepted_position,
            offside := none }
        if st.is_offside then
          match igneaPrependOffsideTerminals p'.offside start_position
            [next_terminal] with
          | .error e => .error e
          | .ok (o', chain) => .ok ({ p' with offside := o' }, chain)
        else
          .ok (p', [next_terminal])
      else if st.current_position.index_ = input.length then
        match igneaPrependOffsideTerminals p'.offside start_position [] with
        | .error e => .error e
        | .ok (o', chain) => .ok ({ p' with offside := o' }, chain)
      else
        igneaGetTerminalLoop descr cache input fuel p' st.accepted_position

/-- `IgneaLexer._get_terminal`: at end of input, the off-side drain;
otherwise the scan loop. -/
def igneaGetTerminal {τ : Type} [DecidableEq τ]
    (descr : τ → IgneaTerminalTagDescr τ) (cache : IgneaLexerCache τ)
    (input : List Char) (p : IgneaLexerPersistent τ)
    (start_position : IgneaPosition) :
    Except (IgneaLexError τ) (IgneaLexerPersistent τ × List (IgneaTerminal τ)) :=
  if start_position.index_ = input.length then
    match igneaPrependOffsideTerminals p.offside start_position [] with
    | .error e => .error e
    | .ok (o', chain) => .ok ({ p with offside := o' }, chain)
  else
    igneaGetTerminalLoop descr cache input (input.length + 1) p start_position

/-- The terminal stream as the parser sees it by driving
`IgneaLexer.next_terminal` from `None` to exhaustion: each `_get_terminal`
call returns a chain of linked terminals (off-side terminals prepended to the
real one), and the next call starts at the last chain terminal's end
position.  The result is the concatenation of all chains; an empty chain is
the `None` that ends the stream. -/
def igneaLexStream {τ : Type} [DecidableEq τ]
    (descr : τ → IgneaTerminalTagDescr τ) (cache : IgneaLexerCache τ)
    (input : List Char) :
    Nat → IgneaLexerPersistent τ → IgneaPosition →
    Except (IgneaLexError τ) (List (IgneaTerminal τ))
  | 0, _, _ => .error .outOfFuel
  | fuel + 1, p, pos =>
    match igneaGetTerminal descr cache input p pos with
    | .error e => .error e
    | .ok (p', chain) =>
      match chain.getLast? with
      | none => .ok []
      | some t =>
        match igneaLexStream descr cache input fuel p' t.end_position with
        | .error e => .error e
        | .ok rest => .ok (chain ++ rest)

/-- A whole lexer run: `__post_init__` followed by the full terminal
stream starting from `IgneaPosition(filename, 0, 1, 1)`. -/
def igneaLexAll {τ : Type} [DecidableEq τ] (TERMINAL_TAGS : List τ)
    (descr : τ → IgneaTerminalTagDescr τ) (filename : String)
    (input : List Char) :
    Except (IgneaLexError τ) (List (IgneaTerminal τ)) :=
  match igneaLexerPostInit TERMINAL_TAGS descr with
  | .error e => .error e
  | .ok cache =>
    igneaLexStream descr cache input (input.length + 3)
      { offside := IgneaOffside.init cache.terminal_tags_offside,
        accepted_terminal_tags := [] }
      (IgneaPosition.mk filename 0 1 1)

instance {ε α : Type} [DecidableEq ε] [DecidableEq α] :
    DecidableEq (Except ε α) := fun
  | .ok x, .ok y =>
    if h : x = y then .isTrue (by rw [h])
    else .isFalse (fun hc => h (by cases hc; rfl))
  | .ok _, .error _ => .isFalse (fun hc => by cases hc)
  | .error _, .ok _ => .isFalse (fun hc => by cases hc)
  | .error x, .error y =>
    if h : x = y then .isTrue (by rw [h])
    else .isFalse (fun hc => h (by cases hc; rfl))

/-! ### Concrete lexing scenarios

`C2Tag` realizes the keyword-vs-identifier scenario: `IDENT` recognizes
`[a-z]+`, `IF` recognizes exactly `"if"`, `WS` recognizes `[ ]+` and is
ignored; `IF.positives = IDENT` and `IDENT.negatives = IF`.
`OffTag` realizes an off-side scenario: `LETTER` recognizes one `[a-z]`
character, `WS` recognizes runs of blanks, tabs and newlines and is ignored,
and `IND`/`DED` are the indent and dedent tags. -/

/-- Tags of the keyword-vs-identifier scenario. -/
inductive C2Tag where
  | IF
  | IDENT
  | WS
deriving DecidableEq

/-- Descriptors of the keyword-vs-identifier scenario. -/
def c2Descr : C2Tag → IgneaTerminalTagDescr C2Tag
  | .IF =>
    { STATES_START := 1, start := true, ignore := false, indent := false,
      dedent := false, positives := {C2Tag.IDENT}, negatives := ∅,
      nfa := fun s c =>
        if s = 1 ∧ c = 'i' then (false, 2)
        else if s = 2 ∧ c = 'f' then (true, 0)
        else (false, 0) }
  | .IDENT =>
    { STATES_START := 1, start := true, ignore := false, indent := false,
      dedent := false, positives := ∅, negatives := {C2Tag.IF},
      nfa := fun s c =>
        if s = 1 ∧ 'a' ≤ c ∧ c ≤ 'z' then (true, 1) else (false, 0) }
  | .WS =>
    { STATES_START := 1, start := true, ignore := true, indent := false,
      dedent := false, positives := ∅, negatives := ∅,
      nfa := fun s c =>
        if s = 1 ∧ c = ' ' then (true, 1) else (false, 0) }

/-- Tags of the off-side scenario. -/
inductive OffTag where
  | LETTER
  | WS
  | IND
  | DED
deriving DecidableEq

/-- Descriptors of the off-side scenario. -/
def offDescr : OffTag → IgneaTerminalTagDescr OffTag
  | .LETTER =>
    { STATES_START := 1, start := true, ignore := false, indent := false,
      dedent := false, positives := ∅, negatives := ∅,
      nfa := fun s c =>
        if s = 1 ∧ 'a' ≤ c ∧ c ≤ 'z' then (true, 0) else (false, 0) }
  | .WS =>
    { STATES_START := 1, start := true, ignore := true, indent := false,
      dedent := false, positives := ∅, negatives := ∅,
      nfa := fun s c =>
        if s = 1 ∧ (c = ' ' ∨ c = '\n' ∨ c = '\t') then (true, 1)
        else (false, 0) }
  | .IND =>
    { STATES_START := 1, start := true, ignore := false, indent := true,
      dedent := false, positives := ∅, negatives := ∅,
      nfa := fun _ _ => (false, 0) }
  | .DED =>
    { STATES_START := 1, start := true, ignore := false, indent := false,
      dedent := true, positives := ∅, negatives := ∅,
      nfa := fun _ _ => (false, 0) }

/-- C2 counterexample: in the keyword-vs-identifier scenario the input
`"if ifx"` lexes to two terminals whose tag sets are both `{IDENT}` — the
first terminal's tag set is not `{IF}` as the claim states.  The accepted set
for `"if"` is `{IDENT, IF}`; its positive closure is itself, and the negative
closure collects `IDENT.negatives = {IF}`, so the subtraction removes `IF`
and leaves `{IDENT}`. -/
theorem c2_keyword_counterexample :
    igneaLexAll [C2Tag.IF, C2Tag.IDENT, C2Tag.WS] c2Descr "f" "if ifx".toList
      = .ok [⟨{C2Tag.IDENT}, ['i', 'f'],
              ⟨"f", 0, 1, 1⟩, ⟨"f", 2, 1, 3⟩, none⟩,
             ⟨{C2Tag.IDENT}, ['i', 'f', 'x'],
              ⟨"f", 3, 1, 4⟩, ⟨"f", 6, 1, 7⟩, none⟩] ∧
    ({C2Tag.IDENT} : Finset C2Tag) ≠ {C2Tag.IF} := by
  decide

/-- C2 amended: with `IF.positives = {IDENT}` and `IDENT.negatives = {IF}`,
lexing `"if ifx"` produces exactly two terminals, the first with tag set
`{IDENT}` and value `"if"`, the second with tag set `{IDENT}` and value
`"ifx"`: the code's refinement subtracts the negative closure `{IF}` of the
closed set from it, so `IF` never survives alongside `IDENT`. -/
theorem c2_keyword_amended :
    igneaLexAll [C2Tag.IF, C2Tag.IDENT, C2Tag.WS] c2Descr "f" "if ifx".toList
      = .ok [⟨{C2Tag.IDENT}, ['i', 'f'],
              ⟨"f", 0, 1, 1⟩, ⟨"f", 2, 1, 3⟩, none⟩,
             ⟨{C2Tag.IDENT}, ['i', 'f', 'x'],
              ⟨"f", 3, 1, 4⟩, ⟨"f", 6, 1, 7⟩, none⟩] := by
  decide

/-- C7: evaluating the lexer at the claim's example input.  On
`"a\n    b\n  c"` the run returns `[a, indent, b, dedent]` with **no**
indentation-mismatch error: scanning the ignored span `"\n  "` dies on the
final `c` with the cursor at end of input, so `_get_terminal` takes the
end-of-file branch (which tests `current_position`, the dead lookahead
cursor, instead of `accepted_position`) and drains the stack, silently
dropping `c`.  With a trailing newline the restart does happen and the
mismatch error is raised at the position of `c` (index 10, line 3, column 3),
as the claim describes. -/
theorem c7_indentation_mismatch_eval :
    (igneaLexAll [OffTag.LETTER, OffTag.WS, OffTag.IND, OffTag.DED] offDescr
        "f" "a\n    b\n  c".toList
      = .ok [⟨{OffTag.LETTER}, ['a'], ⟨"f", 0, 1, 1⟩, ⟨"f", 1, 1, 2⟩, none⟩,
             ⟨{OffTag.IND}, [], ⟨"f", 6, 2, 5⟩, ⟨"f", 6, 2, 5⟩, some true⟩,
             ⟨{OffTag.LETTER}, ['b'], ⟨"f", 6, 2, 5⟩, ⟨"f", 7, 2, 6⟩, none⟩,
             ⟨{OffTag.DED}, [], ⟨"f", 7, 2, 6⟩, ⟨"f", 7, 2, 6⟩, some false⟩]) ∧
    (igneaLexAll [OffTag.LETTER, OffTag.WS, OffTag.IND, OffTag.DED] offDescr
        "f" "a\n    b\n  c\n".toList
      = .error (.indentationMismatch ⟨"f", 10, 3, 3⟩)) := by
  decide

/-! ### Invariants of the lexer: off-side balance, ignore correctness,
value slices -/

/-- Number of indent terminals (creation-site marker `some true`) in a
list. -/
def igneaIndentCount {τ : Type} (ts : List (IgneaTerminal τ)) : Nat :=
  (ts.filter (fun t => decide (t.offside = some true))).length

/-- Number of dedent terminals (creation-site marker `some false`) in a
list. -/
def igneaDedentCount {τ : Type} (ts : List (IgneaTerminal τ)) : Nat :=
  (ts.filter (fun t => decide (t.offside = some false))).length

theorem igneaIndentCount_cons {τ : Type} (t : IgneaTerminal τ)
    (ts : List (IgneaTerminal τ)) :
    igneaIndentCount (t :: ts) =
      (if t.offside = some true then 1 else 0) + igneaIndentCount ts := by
  simp only [igneaIndentCount, List.filter]
  split <;> rename_i h
  · simp only [List.length_cons]
    rw [if_pos (of_decide_eq_true h)]
    omega
  · rw [if_neg (of_decide_eq_false h)]
    omega

theorem igneaDedentCount_cons {τ : Type} (t : IgneaTerminal τ)
    (ts : List (IgneaTerminal τ)) :
    igneaDedentCount (t :: ts) =
      (if t.offside = some false then 1 else 0) + igneaDedentCount ts := by
  simp only [igneaDedentCount, List.filter]
  split <;> rename_i h
  · simp only [List.length_cons]
    rw [if_pos (of_decide_eq_true h)]
    omega
  · rw [if_neg (of_decide_eq_false h)]
    omega

theorem igneaIndentCount_nil {τ : Type} :
    igneaIndentCount ([] : List (IgneaTerminal τ)) = 0 := rfl

theorem igneaDedentCount_nil {τ : Type} :
    igneaDedentCount ([] : List (IgneaTerminal τ)) = 0 := rfl

theorem igneaIndentCount_singleton_none {τ : Type} (t : IgneaTerminal τ)
    (h : t.offside = none) : igneaIndentCount [t] = 0 := by
  rw [igneaIndentCount_cons, h]
  simp [igneaIndentCount_nil]

theorem igneaDedentCount_singleton_none {τ : Type} (t : IgneaTerminal τ)
    (h : t.offside = none) : igneaDedentCount [t] = 0 := by
  rw [igneaDedentCount_cons, h]
  simp [igneaDedentCount_nil]

theorem igneaIndentCount_append {τ : Type} (l₁ l₂ : List (IgneaTerminal τ)) :
    igneaIndentCount (l₁ ++ l₂) = igneaIndentCount l₁ + igneaIndentCount l₂ := by
  simp [igneaIndentCount, List.filter_append]

theorem igneaDedentCount_append {τ : Type} (l₁ l₂ : List (IgneaTerminal τ)) :
    igneaDedentCount (l₁ ++ l₂) = igneaDedentCount l₁ + igneaDedentCount l₂ := by
  simp [igneaDedentCount, List.filter_append]

theorem igneaIndentCount_replicate_dedent {τ : Type} (n : Nat) (tt : τ × τ)
    (sp : IgneaPosition) :
    igneaIndentCount (List.replicate n (igneaGetOffsideTerminal tt sp false))
      = 0 := by
  induction n with
  | zero => rfl
  | succ n ih =>
    rw [List.replicate_succ, igneaIndentCount_cons, ih]
    simp [igneaGetOffsideTerminal]

theorem igneaDedentCount_replicate_dedent {τ : Type} (n : Nat) (tt : τ × τ)
    (sp : IgneaPosition) :
    igneaDedentCount (List.replicate n (igneaGetOffsideTerminal tt sp false))
      = n := by
  induction n with
  | zero => rfl
  | succ n ih =>
    rw [List.replicate_succ, igneaDedentCount_cons, ih]
    have hoff : (igneaGetOffsideTerminal tt sp false : IgneaTerminal τ).offside
        = some false := rfl
    rw [hoff, if_pos rfl]
    omega

/-- All values in the accepted-tag-set memoization cache avoid the ignore
set. -/
def igneaMemoInv {τ : Type} (cache : IgneaLexerCache τ)
    (p : IgneaLexerPersistent τ) : Prop :=
  ∀ kv ∈ p.accepted_terminal_tags, ∀ g ∈ cache.terminal_tags_ignore, g ∉ kv.2

/-- The per-terminal invariant: a terminal created by `_get_terminal` has no
ignored tag and its value is the input slice between its start and end byte
indices; an off-side terminal has empty value, equal start and end indices,
and carries exactly the indent or dedent tag of the off-side pair `ot`. -/
def igneaTerminalOk {τ : Type} (ot : Option (τ × τ))
    (cache : IgneaLexerCache τ) (input : List Char)
    (t : IgneaTerminal τ) : Prop :=
  (t.offside = none →
    (∀ g ∈ cache.terminal_tags_ignore, g ∉ t.tags) ∧
    t.value = (input.drop t.start_position.index_).take
      (t.end_position.index_ - t.start_position.index_)) ∧
  (∀ b, t.offside = some b →
    t.value = [] ∧ t.start_position.index_ = t.end_position.index_ ∧
    ∃ tt, ot = some tt ∧ t.tags = {if b then tt.1 else tt.2})

theorem igneaOffsideSpan_stack {τ : Type} (startIdx : Nat) :
    ∀ (lo : Nat) (cs : List Char) (ob : IgneaOffside τ × Bool),
    (igneaOffsideSpan startIdx lo cs ob).1._stack = ob.1._stack ∧
    (igneaOffsideSpan startIdx lo cs ob).1.terminal_tags
      = ob.1.terminal_tags := by
  intro lo cs
  induction cs generalizing lo with
  | nil => intro ob; exact ⟨rfl, rfl⟩
  | cons c cs ih =>
    intro ob
    cases ob with
    | mk o flag =>
      simpa only [igneaOffsideSpan] using ih (lo + 1) _

/-- One scan step leaves the indentation stack and the off-side tag pair
unchanged (it only advances the off-side NFA state). -/
theorem igneaScanStep_offside {τ : Type} [DecidableEq τ]
    (descr : τ → IgneaTerminalTagDescr τ) (cache : IgneaLexerCache τ)
    (input : List Char) (startIdx : Nat) (st : IgneaScanState τ) :
    (igneaScanStep descr cache input startIdx st).offside._stack
      = st.offside._stack ∧
    (igneaScanStep descr cache input startIdx st).offside.terminal_tags
      = st.offside.terminal_tags := by
  unfold igneaScanStep
  dsimp only
  split
  · exact ⟨(igneaOffsideSpan_stack _ _ _ _).1,
      (igneaOffsideSpan_stack _ _ _ _).2⟩
  · exact ⟨rfl, rfl⟩

/-- The scan loop leaves the indentation stack and the off-side tag pair
unchanged. -/
theorem igneaScanLoop_offside {τ : Type} [DecidableEq τ]
    (descr : τ → IgneaTerminalTagDescr τ) (cache : IgneaLexerCache τ)
    (input : List Char) (startIdx : Nat) :
    ∀ (fuel : Nat) (st st' : IgneaScanState τ),
    igneaScanLoop descr cache input startIdx fuel st = some st' →
    st'.offside._stack = st.offside._stack ∧
    st'.offside.terminal_tags = st.offside.terminal_tags := by
  intro fuel
  induction fuel with
  | zero => intro st st' h; cases h
  | succ fuel ih =>
    intro st st' h
    rw [igneaScanLoop] at h
    split at h
    · have h1 := ih _ _ h
      have h2 := igneaScanStep_offside descr cache input startIdx st
      exact ⟨h1.1.trans h2.1, h1.2.trans h2.2⟩
    · cases h
      exact ⟨rfl, rfl⟩

theorem igneaPopDedents_props {τ : Type} (tt : τ × τ) (sp : IgneaPosition) :
    ∀ (stack : List Nat) (chain : List (IgneaTerminal τ))
      (stack' : List Nat) (chain' : List (IgneaTerminal τ)),
    igneaPopDedents tt sp stack chain = .ok (stack', chain') →
    stack' ≠ [] ∧
    igneaIndentCount chain' = igneaIndentCount chain ∧
    igneaDedentCount chain' + stack'.length
      = igneaDedentCount chain + stack.length ∧
    (∀ t ∈ chain', t ∈ chain ∨ t = igneaGetOffsideTerminal tt sp false) ∧
    (∃ ds, chain' = ds ++ chain) := by
  intro stack
  induction stack with
  | nil => intro chain stack' chain' h; cases h
  | cons top rest ih =>
    intro chain stack' chain' h
    rw [igneaPopDedents] at h
    split at h
    · obtain ⟨hne, hic, hdc, hmem, ds, hds⟩ := ih _ _ _ h
      refine ⟨hne, ?_, ?_, ?_, ?_⟩
      · rw [hic, igneaIndentCount_cons]
        simp [igneaGetOffsideTerminal]
      · rw [hdc, igneaDedentCount_cons]
        have hoff : (igneaGetOffsideTerminal tt sp false : IgneaTerminal τ).offside
            = some false := rfl
        rw [hoff, if_pos rfl]
        simp only [List.length_cons]
        omega
      · intro t ht
        rcases hmem t ht with h1 | h1
        · rcases List.mem_cons.mp h1 with h2 | h2
          · exact .inr h2
          · exact .inl h2
        · exact .inr h1
      · exact ⟨ds ++ [igneaGetOffsideTerminal tt sp false], by
          rw [hds]; simp⟩
    · cases h
      exact ⟨by simp, rfl, rfl, fun t ht => .inl ht, [], rfl⟩

/-- Master lemma about `prepend_offside_terminals`: it preserves the tag
pair and stack non-emptiness, keeps indents minus dedents in step with the
stack height, returns an empty chain only for an empty input chain (with the
stack drained to one level unless the off-side rule is off), is the identity
when the off-side rule is off, and only ever adds indent/dedent terminals
created by `_get_offside_terminal` at the given start position. -/
theorem igneaPrependOffside_props {τ : Type} (o : IgneaOffside τ)
    (sp : IgneaPosition) (chain : List (IgneaTerminal τ))
    (o' : IgneaOffside τ) (chain' : List (IgneaTerminal τ))
    (h : igneaPrependOffsideTerminals o sp chain = .ok (o', chain')) :
    o'.terminal_tags = o.terminal_tags ∧
    (o._stack ≠ [] → o'._stack ≠ []) ∧
    (igneaIndentCount chain' + igneaDedentCount chain + o._stack.length
      = igneaIndentCount chain + igneaDedentCount chain' + o'._stack.length) ∧
    (chain' = [] → chain = []) ∧
    (chain' = [] → o.terminal_tags = none ∨ o._stack = [] ∨
      o'._stack.length = 1) ∧
    (o.terminal_tags = none → o' = o ∧ chain' = chain) ∧
    (∀ t ∈ chain', t ∈ chain ∨
      ∃ b tt, o.terminal_tags = some tt ∧
        t = igneaGetOffsideTerminal tt sp b) := by
  obtain ⟨otags, ostack, ostate⟩ := o
  rw [igneaPrependOffsideTerminals] at h
  dsimp only at h ⊢
  cases otags with
  | none =>
    cases h
    exact ⟨rfl, id, by dsimp only, fun hc => hc, fun _ => .inl rfl,
      fun _ => ⟨rfl, rfl⟩, fun t ht => .inl ht⟩
  | some tt =>
    cases chain with
    | nil =>
      cases h
      refine ⟨rfl, ?_, ?_, fun _ => rfl, ?_, ?_, ?_⟩
      · intro hne
        have h0 : ostack.length ≠ 0 :=
          fun hc => hne (List.length_eq_zero.mp hc)
        refine List.length_pos.mp ?_
        simp only [List.length_drop]
        omega
      · rw [igneaIndentCount_replicate_dedent,
          igneaDedentCount_replicate_dedent]
        simp only [igneaIndentCount, igneaDedentCount, List.filter_nil,
          List.length_nil, List.length_drop]
        omega
      · intro hrep
        have hlen := congrArg List.length hrep
        simp only [List.length_replicate, List.length_nil] at hlen
        rcases Nat.eq_zero_or_pos ostack.length with h0 | h0
        · exact .inr (.inl (List.length_eq_zero.mp h0))
        · refine .inr (.inr ?_)
          simp only [List.length_drop]
          omega
      · intro hc
        cases hc
      · intro t ht
        exact .inr ⟨false, tt, rfl, List.eq_of_mem_replicate ht⟩
    | cons t0 ts =>
      cases ostack with
      | nil => cases h
      | cons top rest =>
        dsimp only at h
        split at h
        · -- column < top : dedent loop
          rename_i hlt
          split at h
          · cases h
          · rename_i stack' chain'' hpop
            obtain ⟨hne, hic, hdc, hmem, ds, hds⟩ :=
              igneaPopDedents_props tt sp _ _ _ _ hpop
            split at h
            · cases h
            · split at h
              · cases h
              · cases h
                refine ⟨rfl, fun _ => by simp, ?_, ?_, ?_, ?_, ?_⟩
                · rw [hic]
                  dsimp only
                  simp only [List.length_cons] at hdc ⊢
                  omega
                · intro hc
                  rw [hds] at hc
                  rcases List.append_eq_nil.mp hc with ⟨_, hc2⟩
                  cases hc2
                · intro hc
                  rw [hds] at hc
                  rcases List.append_eq_nil.mp hc with ⟨_, hc2⟩
                  cases hc2
                · intro hc
                  cases hc
                · intro t ht
                  rcases hmem t ht with h1 | h1
                  · exact .inl h1
                  · exact .inr ⟨false, tt, rfl, h1⟩
        · split at h
          · -- column > top : indent push
            cases h
            refine ⟨rfl, fun _ => by simp, ?_, ?_, ?_, ?_, ?_⟩
            · have hoffi : (igneaGetOffsideTerminal tt sp true :
                  IgneaTerminal τ).offside = some true := rfl
              simp only [igneaIndentCount_cons, igneaDedentCount_cons, hoffi,
                List.length_cons]
              rw [if_pos trivial,
                if_neg (show ¬(some true = some false) by simp)]
              omega
            · intro hc
              cases hc
            · intro hc
              cases hc
            · intro hc
              cases hc
            · intro t ht
              rcases List.mem_cons.mp ht with h1 | h1
              · exact .inr ⟨true, tt, rfl, h1⟩
              · exact .inl h1
          · -- equal column
            cases h
            refine ⟨rfl, id, rfl, fun hc => hc, ?_, ?_, ?_⟩
            · intro hc
              exact absurd hc (List.cons_ne_nil _ _)
            · intro hc
              exact Option.noConfusion hc
            · intro t ht
              exact .inl ht


/-- `igneaLookupMemo` only returns values stored in the cache. -/
theorem igneaLookupMemo_mem {τ : Type} [DecidableEq τ] :
    ∀ (memo : List (Finset τ × Finset τ)) (k v : Finset τ),
    igneaLookupMemo memo k = some v → ∃ k', (k', v) ∈ memo := by
  intro memo
  induction memo with
  | nil => intro k v h; cases h
  | cons kv rest ih =>
    intro k v h
    rw [igneaLookupMemo] at h
    split at h
    · cases h
      exact ⟨kv.1, by left⟩
    · obtain ⟨k', hk'⟩ := ih _ _ h
      exact ⟨k', by right; exact hk'⟩

/-- The refinement step yields a set avoiding the ignored tags and preserves
the memo invariant. -/
theorem igneaRefineMemo_props {τ : Type} [DecidableEq τ]
    (cache : IgneaLexerCache τ) (memo : List (Finset τ × Finset τ))
    (initial : Finset τ)
    (hinv : ∀ kv ∈ memo, ∀ g ∈ cache.terminal_tags_ignore, g ∉ kv.2) :
    (∀ g ∈ cache.terminal_tags_ignore,
      g ∉ (igneaRefineMemo cache memo initial).1) ∧
    (∀ kv ∈ (igneaRefineMemo cache memo initial).2,
      ∀ g ∈ cache.terminal_tags_ignore, g ∉ kv.2) := by
  rw [igneaRefineMemo]
  split
  · refine ⟨?_, ?_⟩
    · intro g hg hmem
      exact (Finset.mem_sdiff.mp hmem).2 hg
    · intro kv hkv g hg
      rcases List.mem_append.mp hkv with h1 | h1
      · exact hinv kv h1 g hg
      · rcases List.mem_singleton.mp h1 with rfl
        intro hmem
        exact (Finset.mem_sdiff.mp hmem).2 hg
  · rename_i r hr
    refine ⟨?_, hinv⟩
    obtain ⟨k', hk'⟩ := igneaLookupMemo_mem memo initial r hr
    exact fun g hg => hinv (k', r) hk' g hg

/-- Master lemma about `_get_terminal`'s scan-refine-return loop: a
successful call preserves the off-side tag pair and stack non-emptiness,
keeps indents minus dedents in step with the stack height, returns an empty
chain only with the stack drained to one level (or the off-side rule off, or
an impossible empty stack), leaves the stack alone when the off-side rule is
off, preserves the memo invariant, and every returned terminal satisfies
`igneaTerminalOk`. -/
theorem igneaGetTerminalLoop_props {τ : Type} [DecidableEq τ]
    (descr : τ → IgneaTerminalTagDescr τ) (cache : IgneaLexerCache τ)
    (input : List Char) :
    ∀ (fuel : Nat) (p : IgneaLexerPersistent τ) (pos : IgneaPosition)
      (p' : IgneaLexerPersistent τ) (chain : List (IgneaTerminal τ)),
    igneaGetTerminalLoop descr cache input fuel p pos = .ok (p', chain) →
    p'.offside.terminal_tags = p.offside.terminal_tags ∧
    (p.offside._stack ≠ [] → p'.offside._stack ≠ []) ∧
    (igneaIndentCount chain + p.offside._stack.length
      = igneaDedentCount chain + p'.offside._stack.length) ∧
    (chain = [] → p.offside.terminal_tags = none ∨ p.offside._stack = [] ∨
      p'.offside._stack.length = 1) ∧
    (p.offside.terminal_tags = none → p'.offside._stack = p.offside._stack) ∧
    (igneaMemoInv cache p →
      igneaMemoInv cache p' ∧
      ∀ t ∈ chain, igneaTerminalOk p.offside.terminal_tags cache input t) := by
  intro fuel
  induction fuel with
  | zero => intro p pos p' chain h; cases h
  | succ fuel ih =>
    intro p pos p' chain h
    rw [igneaGetTerminalLoop] at h
    split at h
    · cases h
    · rename_i st hscan
      have hsc := igneaScanLoop_offside descr cache input pos.index_ _ _ _ hscan
      have hstk : st.offside._stack = p.offside._stack := hsc.1
      have htags : st.offside.terminal_tags = p.offside.terminal_tags := hsc.2
      clear hsc hscan
      split at h
      · cases h
      · rename_i hne
        dsimp only at h
        have hrm := igneaRefineMemo_props cache p.accepted_terminal_tags
          st.accepted_terminal_tags
        split at h
        · -- refined set non-empty : a real terminal is returned
          rename_i hrne
          split at h
          · -- is_offside : prepend off-side terminals
            split at h
            · cases h
            · rename_i o2 chain2 hprep
              cases h
              obtain ⟨ptags, pne, pbal, pnil, pnil2, pid, pmem⟩ :=
                igneaPrependOffside_props _ _ _ _ _ hprep
              dsimp only at ptags pne pbal pnil pnil2 pid pmem ⊢
              refine ⟨ptags.trans htags, ?_, ?_, ?_, ?_, ?_⟩
              · intro hp
                exact pne (hstk ▸ hp)
              · rw [igneaIndentCount_singleton_none _ rfl,
                  igneaDedentCount_singleton_none _ rfl, hstk] at pbal
                omega
              · intro hc
                rcases pnil2 hc with h1 | h1 | h1
                · exact .inl (htags.symm.trans h1)
                · exact .inr (.inl (hstk ▸ h1))
                · exact .inr (.inr h1)
              · intro hnone
                rw [(pid (htags.trans hnone)).1]
                exact hstk
              · intro hminv
                refine ⟨fun kv hkv => (hrm hminv).2 kv hkv, ?_⟩
                intro t ht
                rcases pmem t ht with h1 | h1
                · rcases List.mem_singleton.mp h1 with rfl
                  constructor
                  · intro _
                    exact ⟨fun g hg => (hrm hminv).1 g hg, rfl⟩
                  · intro b hb
                    exact absurd hb (by simp)
                · obtain ⟨b, tt, httags, rfl⟩ := h1
                  constructor
                  · intro hcontra
                    exact absurd hcontra (by simp [igneaGetOffsideTerminal])
                  · intro b' hb'
                    have hb'' : b' = b := by
                      simpa [igneaGetOffsideTerminal] using hb'.symm
                    subst hb''
                    exact ⟨rfl, rfl, tt, htags.symm.trans httags, rfl⟩
          · -- not off-side : the terminal alone
            cases h
            dsimp only
            refine ⟨htags, fun hp => hstk ▸ hp, ?_, ?_, ?_, ?_⟩
            · rw [igneaIndentCount_singleton_none _ rfl,
                igneaDedentCount_singleton_none _ rfl, hstk]
            · intro hc
              cases hc
            · intro _
              exact hstk
            · intro hminv
              refine ⟨fun kv hkv => (hrm hminv).2 kv hkv, ?_⟩
              intro t ht
              rcases List.mem_singleton.mp ht with rfl
              constructor
              · intro _
                exact ⟨fun g hg => (hrm hminv).1 g hg, rfl⟩
              · intro b hb
                exact absurd hb (by simp)
        · -- refined set empty
          split at h
          · -- cursor at end of input : off-side drain
            split at h
            · cases h
            · rename_i o2 chain2 hprep
              cases h
              obtain ⟨ptags, pne, pbal, pnil, pnil2, pid, pmem⟩ :=
                igneaPrependOffside_props _ _ _ _ _ hprep
              dsimp only at ptags pne pbal pnil pnil2 pid pmem ⊢
              refine ⟨ptags.trans htags, ?_, ?_, ?_, ?_, ?_⟩
              · intro hp
                exact pne (hstk ▸ hp)
              · simp only [igneaIndentCount_nil, igneaDedentCount_nil] at pbal
                rw [hstk] at pbal
                omega
              · intro hc
                rcases pnil2 hc with h1 | h1 | h1
                · exact .inl (htags.symm.trans h1)
                · exact .inr (.inl (hstk ▸ h1))
                · exact .inr (.inr h1)
              · intro hnone
                rw [(pid (htags.trans hnone)).1]
                exact hstk
              · intro hminv
                refine ⟨fun kv hkv => (hrm hminv).2 kv hkv, ?_⟩
                intro t ht
                rcases pmem t ht with h1 | h1
                · cases h1
                · obtain ⟨b, tt, httags, rfl⟩ := h1
                  constructor
                  · intro hcontra
                    exact absurd hcontra (by simp [igneaGetOffsideTerminal])
                  · intro b' hb'
                    have hb'' : b' = b := by
                      simpa [igneaGetOffsideTerminal] using hb'.symm
                    subst hb''
                    exact ⟨rfl, rfl, tt, htags.symm.trans httags, rfl⟩
          · -- skip the ignored match and restart
            have hrec := ih _ _ _ _ h
            dsimp only at hrec
            obtain ⟨rtags, rne, rbal, rnil, rid, rmem⟩ := hrec
            refine ⟨rtags.trans htags, ?_, ?_, ?_, ?_, ?_⟩
            · intro hp
              exact rne (hstk ▸ hp)
            · rw [hstk] at rbal
              omega
            · intro hc
              rcases rnil hc with h1 | h1 | h1
              · exact .inl (htags.symm.trans h1)
              · exact .inr (.inl (hstk ▸ h1))
              · exact .inr (.inr h1)
            · intro hnone
              rw [rid (htags.trans hnone)]
              exact hstk
            · intro hminv
              have hres := rmem (fun kv hkv => (hrm hminv).2 kv hkv)
              refine ⟨hres.1, ?_⟩
              intro t ht
              have := hres.2 t ht
              rwa [htags] at this

/-- The properties of `igneaGetTerminalLoop_props` lifted to
`IgneaLexer._get_terminal` (which adds the end-of-file branch). -/
theorem igneaGetTerminal_props {τ : Type} [DecidableEq τ]
    (descr : τ → IgneaTerminalTagDescr τ) (cache : IgneaLexerCache τ)
    (input : List Char) (p : IgneaLexerPersistent τ) (pos : IgneaPosition)
    (p' : IgneaLexerPersistent τ) (chain : List (IgneaTerminal τ))
    (h : igneaGetTerminal descr cache input p pos = .ok (p', chain)) :
    p'.offside.terminal_tags = p.offside.terminal_tags ∧
    (p.offside._stack ≠ [] → p'.offside._stack ≠ []) ∧
    (igneaIndentCount chain + p.offside._stack.length
      = igneaDedentCount chain + p'.offside._stack.length) ∧
    (chain = [] → p.offside.terminal_tags = none ∨ p.offside._stack = [] ∨
      p'.offside._stack.length = 1) ∧
    (p.offside.terminal_tags = none → p'.offside._stack = p.offside._stack) ∧
    (igneaMemoInv cache p →
      igneaMemoInv cache p' ∧
      ∀ t ∈ chain, igneaTerminalOk p.offside.terminal_tags cache input t) := by
  rw [igneaGetTerminal] at h
  split at h
  · split at h
    · cases h
    · rename_i o2 chain2 hprep
      cases h
      obtain ⟨ptags, pne, pbal, pnil, pnil2, pid, pmem⟩ :=
        igneaPrependOffside_props _ _ _ _ _ hprep
      dsimp only at ptags pne pbal pnil pnil2 pid pmem ⊢
      refine ⟨ptags, pne, ?_, pnil2, ?_, ?_⟩
      · rw [igneaIndentCount_nil, igneaDedentCount_nil] at pbal
        omega
      · intro hnone
        rw [(pid hnone).1]
      · intro hminv
        refine ⟨hminv, ?_⟩
        intro t ht
        rcases pmem t ht with h1 | h1
        · cases h1
        · obtain ⟨b, tt, httags, rfl⟩ := h1
          constructor
          · intro hcontra
            exact absurd hcontra (by simp [igneaGetOffsideTerminal])
          · intro b' hb'
            have hb'' : b' = b := by
              simpa [igneaGetOffsideTerminal] using hb'.symm
            subst hb''
            exact ⟨rfl, rfl, tt, httags, rfl⟩
  · exact igneaGetTerminalLoop_props descr cache input _ _ _ _ _ h

/-- Facts established by the `__post_init__` partitioning loop: the ignore
set only grows with active non-off-side tags, every active non-off-side tag
of the processed list with the ignore flag lands in the ignore set, the
off-side candidates keep their indent/dedent flags, and the off-side pair
field of the accumulator is never written. -/
theorem igneaPostInitLoop_facts {τ : Type} [DecidableEq τ]
    (descr : τ → IgneaTerminalTagDescr τ) :
    ∀ (tags : List τ) (ind ded : Option τ) (acc : IgneaLexerCache τ)
      (ind' ded' : Option τ) (cache : IgneaLexerCache τ),
    igneaPostInitLoop descr tags ind ded acc = .ok (ind', ded', cache) →
    (∀ g ∈ cache.terminal_tags_ignore,
      g ∈ acc.terminal_tags_ignore ∨ igneaActiveNonOffside descr g = true) ∧
    (∀ g ∈ acc.terminal_tags_ignore, g ∈ cache.terminal_tags_ignore) ∧
    (∀ g ∈ tags, igneaActiveNonOffside descr g = true →
      (descr g).ignore = true → g ∈ cache.terminal_tags_ignore) ∧
    (∀ i, ind' = some i → ind = some i ∨ (descr i).indent = true) ∧
    (∀ d, ded' = some d → ded = some d ∨ (descr d).dedent = true) ∧
    cache.terminal_tags_offside = acc.terminal_tags_offside := by
  intro tags
  induction tags with
  | nil =>
    intro ind ded acc ind' ded' cache h
    cases h
    exact ⟨fun g hg => .inl hg, fun g hg => hg, fun g hg => absurd hg (by simp),
      fun i hi => .inl hi, fun d hd => .inl hd, rfl⟩
  | cons tag rest ih =>
    intro ind ded acc ind' ded' cache h
    rw [igneaPostInitLoop.eq_def] at h
    dsimp only at h
    split at h
    · rename_i hstart
      split at h
      · rename_i hindent
        split at h
        · cases h
        · obtain ⟨f1, f2, f3, f4, f5, f6⟩ := ih _ _ _ _ _ _ h
          refine ⟨f1, f2, ?_, ?_, ?_, f6⟩
          · intro g hg hact hig
            rcases List.mem_cons.mp hg with rfl | hg2
            · exfalso
              simp only [igneaActiveNonOffside, hindent] at hact
              simp at hact
            · exact f3 g hg2 hact hig
          · intro i' hi'
            rcases f4 i' hi' with h1 | h1
            · cases h1
              exact .inr hindent
            · exact .inr h1
          · exact f5
      · rename_i hnotindent
        split at h
        · rename_i hdedent
          split at h
          · cases h
          · obtain ⟨f1, f2, f3, f4, f5, f6⟩ := ih _ _ _ _ _ _ h
            refine ⟨f1, f2, ?_, f4, ?_, f6⟩
            · intro g hg hact hig
              rcases List.mem_cons.mp hg with rfl | hg2
              · exfalso
                simp only [igneaActiveNonOffside, hdedent] at hact
                simp at hact
              · exact f3 g hg2 hact hig
            · intro d' hd'
              rcases f5 d' hd' with h1 | h1
              · cases h1
                exact .inr hdedent
              · exact .inr h1
        · rename_i hnotdedent
          obtain ⟨f1, f2, f3, f4, f5, f6⟩ := ih _ _ _ _ _ _ h
          have hact : igneaActiveNonOffside descr tag = true := by
            simp only [igneaActiveNonOffside, hstart, Bool.true_and,
              Bool.and_eq_true, Bool.not_eq_true']
            rw [Bool.not_eq_true] at hnotindent hnotdedent
            exact ⟨hnotindent, hnotdedent⟩
          refine ⟨?_, ?_, ?_, f4, f5, f6⟩
          · intro g hg
            rcases f1 g hg with h1 | h1
            · dsimp only at h1
              split at h1
              · rcases Finset.mem_insert.mp h1 with rfl | h2
                · exact .inr hact
                · exact .inl h2
              · exact .inl h1
            · exact .inr h1
          · intro g hg
            refine f2 g ?_
            dsimp only
            split
            · exact Finset.mem_insert_of_mem hg
            · exact hg
          · intro g hg hactg higg
            rcases List.mem_cons.mp hg with rfl | hg2
            · refine f2 g ?_
              dsimp only
              rw [if_pos higg]
              exact Finset.mem_insert_self g _
            · exact f3 g hg2 hactg higg
    · rename_i hnotstart
      obtain ⟨f1, f2, f3, f4, f5, f6⟩ := ih _ _ _ _ _ _ h
      refine ⟨f1, f2, ?_, f4, f5, f6⟩
      intro g hg hact hig
      rcases List.mem_cons.mp hg with rfl | hg2
      · exfalso
        simp only [igneaActiveNonOffside, Bool.not_eq_true] at hact hnotstart
        rw [hnotstart] at hact
        simp at hact
      · exact f3 g hg2 hact hig

/-- Facts established by `IgneaLexer.__post_init__`: every tag in the
ignore set is an active non-off-side tag, every active non-off-side tag of
`TERMINAL_TAGS` whose `ignore` predicate holds is in the ignore set, and the
indent and dedent tags of the off-side pair are not active non-off-side
tags. -/
theorem igneaLexerPostInit_facts {τ : Type} [DecidableEq τ]
    (TERMINAL_TAGS : List τ) (descr : τ → IgneaTerminalTagDescr τ)
    (cache : IgneaLexerCache τ)
    (h : igneaLexerPostInit TERMINAL_TAGS descr = .ok cache) :
    (∀ g ∈ cache.terminal_tags_ignore,
      igneaActiveNonOffside descr g = true) ∧
    (∀ g ∈ TERMINAL_TAGS, igneaActiveNonOffside descr g = true →
      (descr g).ignore = true → g ∈ cache.terminal_tags_ignore) ∧
    (∀ i d, cache.terminal_tags_offside = some (i, d) →
      igneaActiveNonOffside descr i = false ∧
      igneaActiveNonOffside descr d = false) := by
  rw [igneaLexerPostInit] at h
  split at h
  · cases h
  · rename_i i d c0 hloop
    cases h
    obtain ⟨f1, _, f3, f4, f5, f6⟩ := igneaPostInitLoop_facts descr _ _ _ _ _ _ _ hloop
    refine ⟨?_, f3, ?_⟩
    · intro g hg
      rcases f1 g hg with h1 | h1
      · simp at h1
      · exact h1
    · intro i' d' hoff
      dsimp only at hoff
      cases hoff
      constructor
      · rcases f4 i rfl with h1 | h1
        · cases h1
        · simp [igneaActiveNonOffside, h1]
      · rcases f5 d rfl with h1 | h1
        · cases h1
        · simp [igneaActiveNonOffside, h1]
  · rename_i c0 hloop
    cases h
    obtain ⟨f1, _, f3, _, _, f6⟩ := igneaPostInitLoop_facts descr _ _ _ _ _ _ _ hloop
    refine ⟨?_, f3, ?_⟩
    · intro g hg
      rcases f1 g hg with h1 | h1
      · simp at h1
      · exact h1
    · intro i' d' hoff
      rw [f6] at hoff
      cases hoff
  · cases h
  · cases h

/-- Invariants along the whole terminal stream: starting from a non-empty
indentation stack (equal to `[1]` when the off-side rule is off) and a clean
memo cache, a successfully exhausted stream has indents minus dedents equal
to the initial stack height minus one, and every streamed terminal satisfies
`igneaTerminalOk`. -/
theorem igneaLexStream_props {τ : Type} [DecidableEq τ]
    (descr : τ → IgneaTerminalTagDescr τ) (cache : IgneaLexerCache τ)
    (input : List Char) :
    ∀ (fuel : Nat) (p : IgneaLexerPersistent τ) (pos : IgneaPosition)
      (ts : List (IgneaTerminal τ)),
    igneaLexStream descr cache input fuel p pos = .ok ts →
    p.offside._stack ≠ [] →
    (p.offside.terminal_tags = none → p.offside._stack = [1]) →
    igneaMemoInv cache p →
    (igneaIndentCount ts + p.offside._stack.length
      = igneaDedentCount ts + 1) ∧
    (∀ t ∈ ts, igneaTerminalOk p.offside.terminal_tags cache input t) := by
  intro fuel
  induction fuel with
  | zero => intro p pos ts h; cases h
  | succ fuel ih =>
    intro p pos ts h hne hnone hminv
    rw [igneaLexStream] at h
    split at h
    · cases h
    · rename_i p1 chain hget
      obtain ⟨gtags, gne, gbal, gnil, gid, gmem⟩ :=
        igneaGetTerminal_props descr cache input p pos p1 chain hget
      split at h
      · rename_i hlast
        cases h
        have hchain : chain = [] := by
          cases chain with
          | nil => rfl
          | cons c cs => simp [List.getLast?] at hlast
        subst hchain
        refine ⟨?_, fun t ht => absurd ht (by simp)⟩
        rw [igneaIndentCount_nil, igneaDedentCount_nil]
        rcases gnil rfl with h1 | h1 | h1
        · rw [hnone h1]
          rfl
        · exact absurd h1 hne
        · rw [igneaIndentCount_nil, igneaDedentCount_nil] at gbal
          omega
      · rename_i t hlast
        split at h
        · cases h
        · rename_i rest hrest
          cases h
          have hp1ne : p1.offside._stack ≠ [] := gne hne
          have hp1none : p1.offside.terminal_tags = none →
              p1.offside._stack = [1] := by
            intro hn
            rw [gid (gtags.symm.trans hn)]
            exact hnone (gtags.symm.trans hn)
          obtain ⟨ibal, imem⟩ := ih p1 t.end_position rest hrest hp1ne hp1none
            (gmem hminv).1
          constructor
          · rw [igneaIndentCount_append, igneaDedentCount_append]
            omega
          · intro t' ht'
            rcases List.mem_append.mp ht' with h1 | h1
            · exact (gmem hminv).2 t' h1
            · have := imem t' h1
              rwa [gtags] at this

/-- C6: whenever a whole lexer run succeeds (the terminal stream is consumed
to its end without an error), the number of indent terminals emitted equals
the number of dedent terminals: the indentation stack starts at `[1]`, every
push emits one indent, every pop emits one dedent, and the stream only ends
after the end-of-file drain has popped the stack back to a single level. -/
theorem c6_offside_balance {τ : Type} [DecidableEq τ]
    (TERMINAL_TAGS : List τ) (descr : τ → IgneaTerminalTagDescr τ)
    (filename : String) (input : List Char) (ts : List (IgneaTerminal τ))
    (h : igneaLexAll TERMINAL_TAGS descr filename input = .ok ts) :
    igneaIndentCount ts = igneaDedentCount ts := by
  rw [igneaLexAll] at h
  split at h
  · cases h
  · rename_i cache hpi
    have hs := igneaLexStream_props descr cache input _ _ _ _ h
      (by simp [IgneaOffside.init]) (fun _ => rfl)
      (fun kv hkv => absurd hkv (by simp))
    have := hs.1
    simp only [IgneaOffside.init, List.length_singleton] at this
    omega

/-- Witness for `c6_offside_balance`: the off-side scenario on
`"a\n  b\n  c\nd\n"` emits one indent and one dedent. -/
theorem c6_offside_balance_witness :
    igneaIndentCount
        [(⟨{OffTag.LETTER}, ['a'], ⟨"f", 0, 1, 1⟩, ⟨"f", 1, 1, 2⟩, none⟩ :
            IgneaTerminal OffTag),
         ⟨{OffTag.IND}, [], ⟨"f", 4, 2, 3⟩, ⟨"f", 4, 2, 3⟩, some true⟩,
         ⟨{OffTag.LETTER}, ['b'], ⟨"f", 4, 2, 3⟩, ⟨"f", 5, 2, 4⟩, none⟩,
         ⟨{OffTag.LETTER}, ['c'], ⟨"f", 8, 3, 3⟩, ⟨"f", 9, 3, 4⟩, none⟩,
         ⟨{OffTag.DED}, [], ⟨"f", 10, 4, 1⟩, ⟨"f", 10, 4, 1⟩, some false⟩,
         ⟨{OffTag.LETTER}, ['d'], ⟨"f", 10, 4, 1⟩, ⟨"f", 11, 4, 2⟩, none⟩]
      = igneaDedentCount
        [⟨{OffTag.LETTER}, ['a'], ⟨"f", 0, 1, 1⟩, ⟨"f", 1, 1, 2⟩, none⟩,
         ⟨{OffTag.IND}, [], ⟨"f", 4, 2, 3⟩, ⟨"f", 4, 2, 3⟩, some true⟩,
         ⟨{OffTag.LETTER}, ['b'], ⟨"f", 4, 2, 3⟩, ⟨"f", 5, 2, 4⟩, none⟩,
         ⟨{OffTag.LETTER}, ['c'], ⟨"f", 8, 3, 3⟩, ⟨"f", 9, 3, 4⟩, none⟩,
         ⟨{OffTag.DED}, [], ⟨"f", 10, 4, 1⟩, ⟨"f", 10, 4, 1⟩, some false⟩,
         ⟨{OffTag.LETTER}, ['d'], ⟨"f", 10, 4, 1⟩, ⟨"f", 11, 4, 2⟩, none⟩] :=
  c6_offside_balance [OffTag.LETTER, OffTag.WS, OffTag.IND, OffTag.DED]
    offDescr "f" "a\n  b\n  c\nd\n".toList _ (by decide)

/-- C8: no terminal a lexer run ever emits carries a tag that is active,
non-off-side and ignored under the conditions.  This holds both when the
refined tag set is computed fresh (the code subtracts the ignore set) and
when it is served from the accepted-tag-set memoization cache (the cache
only stores already-subtracted sets). -/
theorem c8_ignore_correctness {τ : Type} [DecidableEq τ]
    (TERMINAL_TAGS : List τ) (descr : τ → IgneaTerminalTagDescr τ)
    (filename : String) (input : List Char) (ts : List (IgneaTerminal τ))
    (h : igneaLexAll TERMINAL_TAGS descr filename input = .ok ts)
    (t : IgneaTerminal τ) (ht : t ∈ ts) (g : τ) (hg : g ∈ TERMINAL_TAGS)
    (hact : igneaActiveNonOffside descr g = true)
    (hig : (descr g).ignore = true) :
    g ∉ t.tags := by
  rw [igneaLexAll] at h
  split at h
  · cases h
  · rename_i cache hpi
    obtain ⟨pf1, pf2, pf3⟩ :=
      igneaLexerPostInit_facts TERMINAL_TAGS descr cache hpi
    have hgmem : g ∈ cache.terminal_tags_ignore := pf2 g hg hact hig
    have hs := igneaLexStream_props descr cache input _ _ _ _ h
      (by simp [IgneaOffside.init]) (fun _ => rfl)
      (fun kv hkv => absurd hkv (by simp))
    have hok := hs.2 t ht
    simp only [IgneaOffside.init] at hok
    cases hoff : t.offside with
    | none => exact (hok.1 hoff).1 g hgmem
    | some b =>
      obtain ⟨_, _, tt, htt, htags⟩ := hok.2 b hoff
      obtain ⟨hi, hd⟩ := pf3 tt.1 tt.2 htt
      rw [htags]
      intro hmem
      cases b with
      | true =>
        have hgeq : g = tt.1 := by simpa using Finset.mem_singleton.mp hmem
        rw [hgeq] at hact
        rw [hact] at hi
        cases hi
      | false =>
        have hgeq : g = tt.2 := by simpa using Finset.mem_singleton.mp hmem
        rw [hgeq] at hact
        rw [hact] at hd
        cases hd

/-- Witness for `c8_ignore_correctness`: in the keyword scenario, the
ignored whitespace tag is absent from the first emitted terminal's tags. -/
theorem c8_ignore_correctness_witness :
    C2Tag.WS ∉ ({C2Tag.IDENT} : Finset C2Tag) :=
  c8_ignore_correctness [C2Tag.IF, C2Tag.IDENT, C2Tag.WS] c2Descr "f"
    "if ifx".toList
    [⟨{C2Tag.IDENT}, ['i', 'f'], ⟨"f", 0, 1, 1⟩, ⟨"f", 2, 1, 3⟩, none⟩,
     ⟨{C2Tag.IDENT}, ['i', 'f', 'x'], ⟨"f", 3, 1, 4⟩, ⟨"f", 6, 1, 7⟩, none⟩]
    (by decide)
    ⟨{C2Tag.IDENT}, ['i', 'f'], ⟨"f", 0, 1, 1⟩, ⟨"f", 2, 1, 3⟩, none⟩
    (by decide) C2Tag.WS (by decide) (by decide) (by decide)

/-- C10: every terminal a lexer run emits that is not an off-side terminal
has value equal to the input slice between its start and end byte indices,
and every off-side terminal has the empty value and equal start and end byte
indices. -/
theorem c10_terminal_values {τ : Type} [DecidableEq τ]
    (TERMINAL_TAGS : List τ) (descr : τ → IgneaTerminalTagDescr τ)
    (filename : String) (input : List Char) (ts : List (IgneaTerminal τ))
    (h : igneaLexAll TERMINAL_TAGS descr filename input = .ok ts)
    (t : IgneaTerminal τ) (ht : t ∈ ts) :
    (t.offside = none →
      t.value = (input.drop t.start_position.index_).take
        (t.end_position.index_ - t.start_position.index_)) ∧
    (∀ b, t.offside = some b →
      t.value = [] ∧ t.start_position.index_ = t.end_position.index_) := by
  rw [igneaLexAll] at h
  split at h
  · cases h
  · rename_i cache hpi
    have hs := igneaLexStream_props descr cache input _ _ _ _ h
      (by simp [IgneaOffside.init]) (fun _ => rfl)
      (fun kv hkv => absurd hkv (by simp))
    have hok := hs.2 t ht
    exact ⟨fun hoff => (hok.1 hoff).2,
      fun b hb => ⟨(hok.2 b hb).1, (hok.2 b hb).2.1⟩⟩

/-- Witness for `c10_terminal_values`: the second terminal of the keyword
scenario has value `"ifx"`, the slice of `"if ifx"` between indices 3 and
6. -/
theorem c10_terminal_values_witness :
    (['i', 'f', 'x'] : List Char)
      = (("if ifx".toList.drop 3).take (6 - 3)) :=
  ((c10_terminal_values [C2Tag.IF, C2Tag.IDENT, C2Tag.WS] c2Descr "f"
      "if ifx".toList
      [⟨{C2Tag.IDENT}, ['i', 'f'], ⟨"f", 0, 1, 1⟩, ⟨"f", 2, 1, 3⟩, none⟩,
       ⟨{C2Tag.IDENT}, ['i', 'f', 'x'], ⟨"f", 3, 1, 4⟩, ⟨"f", 6, 1, 7⟩, none⟩]
      (by decide)
      ⟨{C2Tag.IDENT}, ['i', 'f', 'x'], ⟨"f", 3, 1, 4⟩, ⟨"f", 6, 1, 7⟩, none⟩
      (by decide)).1 rfl)

/-! ### `next_terminal` and its memoization (lexical.py)

Python terminals are identity-based objects linked through their `next`
fields.  Here they live in an arena (a list indexed by allocation order), so
object identity becomes index equality and the mutation of a `next` field
becomes a `List.set`.  Python's `None` in `next` (and in `_start`) means
both "not yet computed" and "computed end of file" — the source cannot tell
the two apart, which the model preserves. -/

/-- A terminal in the lexer's arena: its data plus the `next` link. -/
structure IgneaArenaTerminal (τ : Type) where
  data : IgneaTerminal τ
  next : Option Nat
deriving DecidableEq

/-- The mutable state of an `IgneaLexer`: `start_position`, `_start`, the
materialized terminals, and the persistent off-side/memoization state. -/
structure IgneaLexerState (τ : Type) where
  start_position : IgneaPosition
  _start : Option Nat
  arena : List (IgneaArenaTerminal τ)
  persistent : IgneaLexerPersistent τ
deriving DecidableEq

/-- Appends a `_get_terminal` chain to the arena, linking the `next` fields
inside the chain as `_get_offside_terminal` does (the last chain terminal
keeps `next = none`).  Returns the new arena and the id of the chain head
(`none` for the empty chain). -/
def igneaAllocChain {τ : Type} (arena : List (IgneaArenaTerminal τ))
    (chain : List (IgneaTerminal τ)) :
    List (IgneaArenaTerminal τ) × Option Nat :=
  match chain with
  | [] => (arena, none)
  | _ :: _ =>
    let n := arena.length
    (arena ++ chain.mapIdx (fun i t =>
      ⟨t, if i + 1 < chain.length then some (n + i + 1) else none⟩),
     some n)

/-- `IgneaLexer.next_terminal` over the explicit lexer state: serves the
memoized `_start` / `next` field when it is set, and otherwise invokes
`_get_terminal` and stores the result (including the reanchoring of
`start_position` to the first terminal's start position).  The returned
boolean is true exactly when `_get_terminal` was invoked, i.e. when lexing
work was done instead of serving a memoized link. -/
def igneaNextTerminal {τ : Type} [DecidableEq τ]
    (descr : τ → IgneaTerminalTagDescr τ) (cache : IgneaLexerCache τ)
    (input : List Char) (s : IgneaLexerState τ)
    (current_terminal : Option Nat) :
    Except (IgneaLexError τ) (Option Nat × IgneaLexerState τ × Bool) :=
  match current_terminal with
  | none =>
    match s._start with
    | some id => .ok (some id, s, false)
    | none =>
      match igneaGetTerminal descr cache input s.persistent s.start_position with
      | .error e => .error e
      | .ok (p', chain) =>
        match chain with
        | [] => .ok (none, { s with persistent := p' }, true)
        | t :: rest =>
          .ok (some s.arena.length,
            { start_position := t.start_position,
              _start := some s.arena.length,
              arena := (igneaAllocChain s.arena (t :: rest)).1,
              persistent := p' }, true)
  | some cid =>
    match s.arena.get? cid with
    | none => .ok (none, s, false)
    | some at_ =>
      match at_.next with
      | some nid => .ok (some nid, s, false)
      | none =>
        match igneaGetTerminal descr cache input s.persistent
          at_.data.end_position with
        | .error e => .error e
        | .ok (p', chain) =>
          match chain with
          | [] => .ok (none, { s with persistent := p' }, true)
          | t :: rest =>
            .ok (some s.arena.length,
              { s with
                arena := (igneaAllocChain s.arena (t :: rest)).1.set cid
                  ⟨at_.data, some s.arena.length⟩,
                persistent := p' }, true)

theorem igneaAllocChain_length {τ : Type}
    (arena : List (IgneaArenaTerminal τ)) (chain : List (IgneaTerminal τ)) :
    (igneaAllocChain arena chain).1.length = arena.length + chain.length := by
  cases chain with
  | nil => simp [igneaAllocChain]
  | cons t rest => simp [igneaAllocChain]

theorem igneaGet?_set_self {α : Type} :
    ∀ (l : List α) (i : Nat) (x : α),
    i < l.length → (l.set i x).get? i = some x := by
  intro l
  induction l with
  | nil => intro i x h; cases h
  | cons a as ih =>
    intro i x h
    cases i with
    | zero => rfl
    | succ n => exact ih n x (by simpa using h)

/-- C3 (amended): `next_terminal` is referentially stable whenever its
result is a terminal: if a call returns terminal `tid`, the immediately
repeated call with the same argument returns the same `tid`, leaves the
lexer state untouched, and performs no re-lexing (the result was memoized in
the terminal's `next` field, or in the lexer's `_start` field when the
argument is `None`). -/
theorem c3_next_terminal_stability {τ : Type} [DecidableEq τ]
    (descr : τ → IgneaTerminalTagDescr τ) (cache : IgneaLexerCache τ)
    (input : List Char) (s : IgneaLexerState τ) (cur : Option Nat)
    (tid : Nat) (s1 : IgneaLexerState τ) (b : Bool)
    (h : igneaNextTerminal descr cache input s cur = .ok (some tid, s1, b)) :
    igneaNextTerminal descr cache input s1 cur = .ok (some tid, s1, false) := by
  cases cur with
  | none =>
    rw [igneaNextTerminal] at h
    cases hst : s._start with
    | some id =>
      rw [hst] at h
      dsimp only at h
      cases h
      rw [igneaNextTerminal]
      all_goals rw [hst]
    | none =>
      rw [hst] at h
      dsimp only at h
      cases hget : igneaGetTerminal descr cache input s.persistent
          s.start_position with
      | error e =>
        rw [hget] at h
        cases h
      | ok pc =>
        rw [hget] at h
        obtain ⟨p', chain⟩ := pc
        dsimp only at h
        cases chain with
        | nil => simp at h
        | cons t rest =>
          dsimp only at h
          cases h
          rw [igneaNextTerminal]
  | some cid =>
    rw [igneaNextTerminal] at h
    cases hat : s.arena.get? cid with
    | none =>
      rw [hat] at h
      simp at h
    | some at_ =>
      rw [hat] at h
      dsimp only at h
      cases hnx : at_.next with
      | some nid =>
        rw [hnx] at h
        dsimp only at h
        cases h
        rw [igneaNextTerminal]
        simp only [hat]
        all_goals simp only [hnx]
      | none =>
        rw [hnx] at h
        dsimp only at h
        cases hget : igneaGetTerminal descr cache input s.persistent
            at_.data.end_position with
        | error e =>
          rw [hget] at h
          cases h
        | ok pc =>
          rw [hget] at h
          obtain ⟨p', chain⟩ := pc
          dsimp only at h
          cases chain with
          | nil => simp at h
          | cons t rest =>
            dsimp only at h
            cases h
            have hcid : cid < s.arena.length := by
              rcases List.get?_eq_some.mp hat with ⟨hlt, _⟩
              exact hlt
            have hcid2 : cid <
                (igneaAllocChain s.arena (t :: rest)).1.length := by
              rw [igneaAllocChain_length]
              omega
            rw [igneaNextTerminal]
            dsimp only
            rw [igneaGet?_set_self _ _ _ hcid2]

/-- Tags of the memoization scenario: `A` recognizes the single character
`a`; `WS` recognizes runs of blanks and is ignored. -/
inductive ATag where
  | A
  | WS
deriving DecidableEq

/-- Descriptors of the memoization scenario. -/
def aTagDescr : ATag → IgneaTerminalTagDescr ATag
  | .A =>
    ⟨1, true, false, false, false, ∅, ∅,
      fun s c => if s = 1 ∧ c = 'a' then (true, 0) else (false, 0)⟩
  | .WS =>
    ⟨1, true, true, false, false, ∅, ∅,
      fun s c => if s = 1 ∧ c = ' ' then (true, 1) else (false, 0)⟩

/-- The lexer cache of the memoization scenario (the `__post_init__` result
for tags `[A, WS]`). -/
def aCache : IgneaLexerCache ATag :=
  ⟨[(ATag.A, 1), (ATag.WS, 1)], {ATag.WS}, none,
   [(ATag.A, ∅), (ATag.WS, ∅)], [(ATag.A, ∅), (ATag.WS, ∅)]⟩

/-- The fresh lexer state of the memoization scenario. -/
def aState0 : IgneaLexerState ATag :=
  ⟨⟨"f", 0, 1, 1⟩, none, [], ⟨⟨none, [1], 7⟩, []⟩⟩

/-- The lexer state of the memoization scenario after the first terminal of
`"a "` has been materialized. -/
def aState1 : IgneaLexerState ATag :=
  ⟨⟨"f", 0, 1, 1⟩, some 0,
   [⟨⟨{ATag.A}, ['a'], ⟨"f", 0, 1, 1⟩, ⟨"f", 1, 1, 2⟩, none⟩, none⟩],
   ⟨⟨none, [1], 9⟩, [({ATag.A}, {ATag.A})]⟩⟩

/-- Closed probe for the `None` case of `next_terminal`'s memoization: on
input `"a "` (trailing ignored blank), after the only terminal `t0` has
been materialized, two successive calls `next_terminal(t0)` both return
`None` — but the second call still invokes `_get_terminal` (its re-lex flag
is true), because a computed `None` is stored in the `next` field where it
is indistinguishable from "not yet computed". -/
def igneaC3Probe : Bool :=
  let input := "a ".toList
  match igneaNextTerminal aTagDescr aCache input aState0 none with
  | .ok (some t0, s1, _) =>
    match igneaNextTerminal aTagDescr aCache input s1 (some t0) with
    | .ok (r1, s2, _) =>
      match igneaNextTerminal aTagDescr aCache input s2 (some t0) with
      | .ok (r2, _, relexed2) =>
        decide (r1 = none) && decide (r2 = none) && relexed2
      | _ => false
    | _ => false
  | _ => false

/-- C3 counterexample: the claim is false for arguments whose result is
`None`: with lexer `(aTagDescr, aCache)` on input `"a "` and `T` the first
terminal, two successive calls `next_terminal(T)` both return `None`, yet
the second call re-invokes `_get_terminal` (re-lex flag true) instead of
"performing no re-lexing because the result is memoized in the terminal's
next field": `None` in `next` cannot record a computed end-of-file. -/
theorem c3_next_terminal_counterexample : igneaC3Probe = true := by
  decide

/-- Witness for `c3_next_terminal_stability`: in the memoization scenario,
the first call `next_terminal(None)` materializes terminal 0 and yields
state `aState1`; the repeated call returns the identical terminal with no
re-lexing and the state untouched. -/
theorem c3_next_terminal_stability_witness :
    igneaNextTerminal aTagDescr aCache "a ".toList aState1 none
      = .ok (some 0, aState1, false) :=
  c3_next_terminal_stability aTagDescr aCache "a ".toList aState0 none 0
    aState1 true (by decide)

/-! ### Tarjan's SCC algorithm (`ignea_compute_sccs`, syntactic.py) and the
left-recursion tables of `IgneaParser.__post_init__`

The graph is the FIRST graph: nodes are the nonterminal types (elements of
an abstract type `ν`), and `first v` lists the successors of `v` (the Python
dict value is a set; the list fixes one iteration order, and all theorems
hold for every order).  The recursion of `compute_scc` is encoded as one
fuel-indexed function over tasks: task `.inl v` is a `compute_scc(v)` call,
task `.inr (v, ws)` is the remainder of its `for w in graph[v]` loop.  Fuel
decreases on every call, so the function is structurally recursive and
computable by the kernel; exhaustion yields `none` (not a source
behaviour). -/

/-- The mutable state of `ignea_compute_sccs`: `visited_index`, `min_index`
(association lists in dict insertion order), the node stack (head = top,
i.e. the end of the Python list) and the accumulated components (each the
popped set, as a list). -/
structure IgneaTarjanSt (ν : Type) where
  visited_index : List (ν × Nat)
  min_index : List (ν × Nat)
  stack : List ν
  sccs : List (List ν)
deriving DecidableEq

/-- Association-list lookup (a Python dict read; `none` = key absent). -/
def igneaALookup {ν α : Type} [DecidableEq ν] :
    List (ν × α) → ν → Option α
  | [], _ => none
  | (a, b) :: rest, k => if k = a then some b else igneaALookup rest k

/-- Association-list write (a Python dict assignment: overwrite in place,
or append preserving insertion order). -/
def igneaASet {ν α : Type} [DecidableEq ν] :
    List (ν × α) → ν → α → List (ν × α)
  | [], k, x => [(k, x)]
  | (a, b) :: rest, k, x =>
    if k = a then (k, x) :: rest else (a, b) :: igneaASet rest k x

/-- The pop loop at the end of `compute_scc`: pops until (and including)
`v`, collecting the popped nodes; `none` models popping an empty stack
(unreachable: `v` is always on the stack there). -/
def igneaPopScc {ν : Type} [DecidableEq ν] (v : ν) :
    List ν → List ν → Option (List ν × List ν)
  | [], _ => none
  | w :: rest, acc =>
    if w = v then some (w :: acc, rest)
    else igneaPopScc v rest (w :: acc)

/-- One `compute_scc` call (task `.inl v`) or the remainder of its
`for w in graph[v]` loop (task `.inr (v, ws)`), exactly following
`ignea_compute_sccs`:

* `.inl v`: record `min_index[v] = visited_index[v] = len(visited_index)`,
  push `v`, run the loop over `graph[v]`, and if afterwards
  `min_index[v]` still equals `v`'s index, pop the component.
* `.inr (v, w :: ws)`: if `w` is unvisited, recurse into `w` and set
  `min_index[v] = min(min_index[v], min_index[w])`; else if `w` is on the
  stack, set `min_index[v] = min(min_index[v], visited_index[w])`; else
  `(v, w)` points to an already-found component and is skipped. -/
def igneaSccGo {ν : Type} [DecidableEq ν] (first : ν → List ν) :
    Nat → ν ⊕ (ν × List ν) → IgneaTarjanSt ν → Option (IgneaTarjanSt ν)
  | 0, _, _ => none
  | fuel + 1, .inl v, st =>
    let index := st.visited_index.length
    let st1 : IgneaTarjanSt ν :=
      { st with
        min_index := igneaASet st.min_index v index,
        visited_index := st.visited_index ++ [(v, index)],
        stack := v :: st.stack }
    match igneaSccGo first fuel (.inr (v, first v)) st1 with
    | none => none
    | some st2 =>
      if igneaALookup st2.min_index v = some index then
        match igneaPopScc v st2.stack [] with
        | none => none
        | some (scc, stack') =>
          some { st2 with stack := stack', sccs := st2.sccs ++ [scc] }
      else
        some st2
  | _ + 1, .inr (_, []), st => some st
  | fuel + 1, .inr (v, w :: ws), st =>
    if igneaALookup st.visited_index w = none then
      match igneaSccGo first fuel (.inl w) st with
      | none => none
      | some st' =>
        let mv := (igneaALookup st'.min_index v).getD 0
        let mw := (igneaALookup st'.min_index w).getD 0
        igneaSccGo first fuel (.inr (v, ws))
          { st' with min_index := igneaASet st'.min_index v (min mv mw) }
    else if w ∈ st.stack then
      let mv := (igneaALookup st.min_index v).getD 0
      let iw := (igneaALookup st.visited_index w).getD 0
      igneaSccGo first fuel (.inr (v, ws))
        { st with min_index := igneaASet st.min_index v (min mv iw) }
    else
      igneaSccGo first fuel (.inr (v, ws)) st

/-- The driver loop of `ignea_compute_sccs`:
`for v in graph: if v not in visited_index: compute_scc(v)`. -/
def igneaSccsLoop {ν : Type} [DecidableEq ν] (first : ν → List ν)
    (fuel : Nat) : List ν → IgneaTarjanSt ν → Option (IgneaTarjanSt ν)
  | [], st => some st
  | v :: vs, st =>
    if igneaALookup st.visited_index v = none then
      match igneaSccGo first fuel (.inl v) st with
      | none => none
      | some st' => igneaSccsLoop first fuel vs st'
    else
      igneaSccsLoop first fuel vs st

/-- A fuel bound for one `compute_scc` call tree: every node is visited at
most once and its loop runs once per successor. -/
def igneaSccFuel {ν : Type} (first : ν → List ν) (nodes : List ν) : Nat :=
  (nodes.map (fun v => (first v).length + 2)).sum + 1

/-- `ignea_compute_sccs`: Tarjan's strongly connected components over the
FIRST graph with keys `nodes`, components in completion order. -/
def igneaComputeSccs {ν : Type} [DecidableEq ν] (first : ν → List ν)
    (nodes : List ν) : Option (List (List ν)) :=
  match igneaSccsLoop first (igneaSccFuel first nodes) nodes ⟨[], [], [], []⟩ with
  | none => none
  | some st => some st.sccs

/-- The SCC-processing part of `IgneaParser.__post_init__`: skips each
component of size 1 without a self-loop, and for the others records, per
member `v`, the first-in-SCC set `scc ∩ first(v)` in
`_nonterminal_types_first` and the ascend parents
`[w ∈ scc | v ∈ first(w)]` in `nonterminal_types_ascend_parents`.  The
component is a modelled set: `size` is the number of distinct elements. -/
def igneaSccTablesLoop {ν : Type} [DecidableEq ν] (first : ν → List ν) :
    List (List ν) → List (ν × List ν) × List (ν × List ν) →
    List (ν × List ν) × List (ν × List ν)
  | [], tables => tables
  | scc :: rest, tables =>
    if scc.dedup.length = 1 ∧ ∀ v ∈ scc, v ∉ first v then
      igneaSccTablesLoop first rest tables
    else
      igneaSccTablesLoop first rest
        (scc.dedup.foldl
          (fun tb v =>
            (igneaASet tb.1 v ((first v).filter (fun w => w ∈ scc)),
             igneaASet tb.2 v (scc.dedup.filter (fun w => v ∈ first w))))
          tables)

/-- The left-recursion tables computed by `IgneaParser.__post_init__` from
the FIRST graph: `none` only on fuel exhaustion of the SCC computation. -/
def igneaParserInitTables {ν : Type} [DecidableEq ν] (first : ν → List ν)
    (nodes : List ν) :
    Option (List (ν × List ν) × List (ν × List ν)) :=
  match igneaComputeSccs first nodes with
  | none => none
  | some sccs => some (igneaSccTablesLoop first sccs ([], []))

/-! #### Association-list groundwork -/

theorem igneaALookup_eq_none {ν α : Type} [DecidableEq ν]
    (l : List (ν × α)) (k : ν) :
    igneaALookup l k = none ↔ k ∉ l.map Prod.fst := by
  induction l with
  | nil => simp [igneaALookup]
  | cons p rest ih =>
    obtain ⟨a, b⟩ := p
    by_cases hk : k = a
    · subst hk; simp [igneaALookup]
    · simp [igneaALookup, hk, ih]

theorem igneaALookup_isSome {ν α : Type} [DecidableEq ν]
    (l : List (ν × α)) (k : ν) :
    (igneaALookup l k).isSome ↔ k ∈ l.map Prod.fst := by
  rcases h : igneaALookup l k with _ | x
  · simp [(igneaALookup_eq_none l k).mp h]
  · simp only [Option.isSome_some, true_iff]
    by_contra hk
    rw [(igneaALookup_eq_none l k).mpr hk] at h
    cases h

theorem igneaALookup_mem {ν α : Type} [DecidableEq ν]
    {l : List (ν × α)} {k : ν} {x : α}
    (h : igneaALookup l k = some x) : (k, x) ∈ l := by
  induction l with
  | nil => cases h
  | cons p rest ih =>
    obtain ⟨a, b⟩ := p
    by_cases hk : k = a
    · subst hk
      simp only [igneaALookup, if_pos rfl] at h
      cases h
      exact List.mem_cons_self _ _
    · simp only [igneaALookup, if_neg hk] at h
      exact List.mem_cons_of_mem _ (ih h)

theorem igneaALookup_append {ν α : Type} [DecidableEq ν]
    (l₁ l₂ : List (ν × α)) (k : ν) :
    igneaALookup (l₁ ++ l₂) k =
      match igneaALookup l₁ k with
      | some x => some x
      | none => igneaALookup l₂ k := by
  induction l₁ with
  | nil => simp [igneaALookup]
  | cons p rest ih =>
    obtain ⟨a, b⟩ := p
    by_cases hk : k = a
    · subst hk; simp [igneaALookup]
    · simp [igneaALookup, hk, ih]

theorem igneaALookup_aset_self {ν α : Type} [DecidableEq ν]
    (l : List (ν × α)) (k : ν) (x : α) :
    igneaALookup (igneaASet l k x) k = some x := by
  induction l with
  | nil => simp [igneaASet, igneaALookup]
  | cons p rest ih =>
    obtain ⟨a, b⟩ := p
    by_cases hk : k = a
    · subst hk; simp [igneaASet, igneaALookup]
    · simp [igneaASet, hk, igneaALookup, ih]

theorem igneaALookup_aset_ne {ν α : Type} [DecidableEq ν]
    (l : List (ν × α)) (k k' : ν) (x : α) (hne : k' ≠ k) :
    igneaALookup (igneaASet l k x) k' = igneaALookup l k' := by
  induction l with
  | nil => simp [igneaASet, igneaALookup, hne]
  | cons p rest ih =>
    obtain ⟨a, b⟩ := p
    by_cases hk : k = a
    · subst hk; simp [igneaASet, igneaALookup, hne]
    · by_cases hk' : k' = a
      · subst hk'; simp [igneaASet, if_neg hk, igneaALookup]
      · simp [igneaASet, if_neg hk, igneaALookup, hk', ih]

theorem igneaALookup_snd_inj {ν : Type} [DecidableEq ν]
    {l : List (ν × Nat)} (hsnd : (l.map Prod.snd).Nodup)
    {a b : ν} {i : Nat} (ha : igneaALookup l a = some i)
    (hb : igneaALookup l b = some i) : a = b := by
  induction l with
  | nil => cases ha
  | cons p rest ih =>
    obtain ⟨c, j⟩ := p
    simp only [List.map_cons, List.nodup_cons] at hsnd
    by_cases hac : a = c <;> by_cases hbc : b = c
    · rw [hac, hbc]
    · exfalso
      rw [hac] at ha
      simp only [igneaALookup, if_pos rfl] at ha
      simp only [igneaALookup, if_neg hbc] at hb
      injection ha with ha'
      subst ha'
      exact hsnd.1 (List.mem_map.mpr ⟨(b, j), igneaALookup_mem hb, rfl⟩)
    · exfalso
      rw [hbc] at hb
      simp only [igneaALookup, if_pos rfl] at hb
      simp only [igneaALookup, if_neg hac] at ha
      injection hb with hb'
      subst hb'
      exact hsnd.1 (List.mem_map.mpr ⟨(a, j), igneaALookup_mem ha, rfl⟩)
    · simp only [igneaALookup, if_neg hac] at ha
      simp only [igneaALookup, if_neg hbc] at hb
      exact ih hsnd.2 ha hb

/-! #### Reachability in the FIRST graph -/

/-- One edge of the FIRST graph. -/
def igneaStepRel {ν : Type} (first : ν → List ν) (a b : ν) : Prop :=
  b ∈ first a

/-- Reachability: zero or more FIRST-graph edges. -/
def igneaReach {ν : Type} (first : ν → List ν) : ν → ν → Prop :=
  Relation.ReflTransGen (igneaStepRel first)

/-- Mutual reachability; the strongly connected component of `a` is
`\x7b b | igneaMutual first a b \x7d`. -/
def igneaMutual {ν : Type} (first : ν → List ν) (a b : ν) : Prop :=
  igneaReach first a b ∧ igneaReach first b a

theorem igneaReach_refl {ν : Type} (first : ν → List ν) (a : ν) :
    igneaReach first a a := Relation.ReflTransGen.refl

theorem igneaReach_trans {ν : Type} {first : ν → List ν} {a b c : ν}
    (h₁ : igneaReach first a b) (h₂ : igneaReach first b c) :
    igneaReach first a c := Relation.ReflTransGen.trans h₁ h₂

theorem igneaReach_single {ν : Type} {first : ν → List ν} {a b : ν}
    (h : b ∈ first a) : igneaReach first a b :=
  Relation.ReflTransGen.single h

/-! #### The SCC certificate: a pairwise-disjoint family of strongly
connected classes whose edges never escape forward in emission order
consists of exactly the strongly connected components. -/

theorem igneaSccsClosed_reach {ν : Type} (first : ν → List ν)
    (cs : List (List ν))
    (hcl : ∀ i, (hi : i < cs.length) → ∀ x ∈ cs.get ⟨i, hi⟩, ∀ w ∈ first x,
        ∃ j, ∃ (hj : j < cs.length), j ≤ i ∧ w ∈ cs.get ⟨j, hj⟩)
    {i : Nat} (hi : i < cs.length) {x z : ν} (hx : x ∈ cs.get ⟨i, hi⟩)
    (hreach : igneaReach first x z) :
    ∃ j, ∃ (hj : j < cs.length), j ≤ i ∧ z ∈ cs.get ⟨j, hj⟩ := by
  induction hreach with
  | refl => exact ⟨i, hi, le_refl i, hx⟩
  | tail hab hbc ih =>
    obtain ⟨j, hj, hji, hbj⟩ := ih
    obtain ⟨k, hk, hkj, hck⟩ := hcl j hj _ hbj _ hbc
    exact ⟨k, hk, hkj.trans hji, hck⟩

theorem igneaSccCertificate {ν : Type} (first : ν → List ν)
    (cs : List (List ν))
    (hdisj : cs.Pairwise (fun S T => ∀ x ∈ S, x ∉ T))
    (hsc : ∀ S ∈ cs, ∀ x ∈ S, ∀ y ∈ S, igneaReach first x y)
    (hcl : ∀ i, (hi : i < cs.length) → ∀ x ∈ cs.get ⟨i, hi⟩, ∀ w ∈ first x,
        ∃ j, ∃ (hj : j < cs.length), j ≤ i ∧ w ∈ cs.get ⟨j, hj⟩)
    {S : List ν} (hS : S ∈ cs) {x : ν} (hx : x ∈ S) (y : ν) :
    y ∈ S ↔ igneaMutual first x y := by
  constructor
  · intro hy
    exact ⟨hsc S hS x hx y hy, hsc S hS y hy x hx⟩
  · rintro ⟨hxy, hyx⟩
    obtain ⟨i, hgi⟩ := List.get_of_mem hS
    rw [← hgi] at hx
    obtain ⟨j, hj, hji, hyj⟩ := igneaSccsClosed_reach first cs hcl i.2 hx hxy
    obtain ⟨k, hk, hkj, hxk⟩ := igneaSccsClosed_reach first cs hcl hj hyj hyx
    have hki : k = i.1 := by
      rcases Nat.lt_trichotomy k i.1 with hlt | heq | hgt
      · exfalso
        exact (List.pairwise_iff_get.mp hdisj ⟨k, hk⟩ i hlt) x hxk hx
      · exact heq
      · exact absurd (hgt.trans_le (hkj.trans hji)) (lt_irrefl _)
    have hji' : j = i.1 := le_antisymm hji (hki ▸ hkj)
    rw [← hgi]
    have : cs.get ⟨j, hj⟩ = cs.get i := by
      congr 1
      exact Fin.ext hji'
    exact this ▸ hyj

/-! #### State observers and the running invariant of `compute_scc` -/

/-- `visited_index[v]` (`none` = not yet visited). -/
def igneaIdx {ν : Type} [DecidableEq ν] (st : IgneaTarjanSt ν) (v : ν) :
    Option Nat :=
  igneaALookup st.visited_index v

/-- `min_index[v]`. -/
def igneaLow {ν : Type} [DecidableEq ν] (st : IgneaTarjanSt ν) (v : ν) :
    Option Nat :=
  igneaALookup st.min_index v

/-- Numeric view of `visited_index[v]` (0 when unvisited). -/
def igneaIdxN {ν : Type} [DecidableEq ν] (st : IgneaTarjanSt ν) (v : ν) :
    Nat :=
  (igneaIdx st v).getD 0

/-- Numeric view of `min_index[v]` (0 when absent). -/
def igneaLowN {ν : Type} [DecidableEq ν] (st : IgneaTarjanSt ν) (v : ν) :
    Nat :=
  (igneaLow st v).getD 0

/-- `v` already belongs to an emitted component. -/
def igneaAssigned {ν : Type} (st : IgneaTarjanSt ν) (v : ν) : Prop :=
  ∃ S ∈ st.sccs, v ∈ S

/-- A node whose `compute_scc` call has returned without being popped:
its `min_index` names the index of a strictly lower stack node that it
reaches. -/
def igneaCompletedOn {ν : Type} [DecidableEq ν] (first : ν → List ν)
    (st : IgneaTarjanSt ν) (u : ν) : Prop :=
  ∃ w ∈ st.stack, igneaLow st u = some (igneaIdxN st w) ∧
    igneaIdxN st w < igneaIdxN st u ∧ igneaReach first u w

/-- Every stack node is an active call (`act`) or completed. -/
def igneaStackSpec {ν : Type} [DecidableEq ν] (first : ν → List ν)
    (st : IgneaTarjanSt ν) (act : List ν) : Prop :=
  ∀ u ∈ st.stack, u ∈ act ∨ igneaCompletedOn first st u

/-- Every edge out of a non-active visited node has a visited target, and
a target still on the stack bounds the source's `min_index`. -/
def igneaEdgeLowSpec {ν : Type} [DecidableEq ν] (first : ν → List ν)
    (st : IgneaTarjanSt ν) (act : List ν) : Prop :=
  ∀ y, (igneaIdx st y).isSome → y ∉ act → ∀ w ∈ first y,
    (igneaIdx st w).isSome ∧
      (w ∈ st.stack → igneaLowN st y ≤ igneaIdxN st w)

/-- The data-structure invariant of Tarjan's algorithm, between calls. -/
structure IgneaTJInv {ν : Type} [DecidableEq ν] (first : ν → List ν)
    (st : IgneaTarjanSt ν) : Prop where
  idxKeys : st.visited_index.map Prod.snd =
    List.range st.visited_index.length
  lowKeys : ∀ v, (igneaLow st v).isSome ↔ (igneaIdx st v).isSome
  lowLe : ∀ v, igneaLowN st v ≤ igneaIdxN st v
  stackVis : ∀ v ∈ st.stack, (igneaIdx st v).isSome
  stackIdx : st.stack.Pairwise (fun a b => igneaIdxN st b < igneaIdxN st a)
  stackFree : ∀ v ∈ st.stack, ¬ igneaAssigned st v
  visSplit : ∀ v, (igneaIdx st v).isSome → v ∈ st.stack ∨ igneaAssigned st v
  sccVis : ∀ S ∈ st.sccs, ∀ v ∈ S, (igneaIdx st v).isSome
  sccNodup : ∀ S ∈ st.sccs, S.Nodup
  sccDisj : st.sccs.Pairwise (fun S T => ∀ x ∈ S, x ∉ T)
  sccSC : ∀ S ∈ st.sccs, ∀ x ∈ S, ∀ y ∈ S, igneaReach first x y
  sccClosed : ∀ i, (hi : i < st.sccs.length) →
    ∀ x ∈ st.sccs.get ⟨i, hi⟩, ∀ w ∈ first x,
      ∃ j, ∃ (hj : j < st.sccs.length), j ≤ i ∧ w ∈ st.sccs.get ⟨j, hj⟩

theorem igneaIdx_lt_len {ν : Type} [DecidableEq ν] {first : ν → List ν}
    {st : IgneaTarjanSt ν} (hinv : IgneaTJInv first st) {v : ν} {i : Nat}
    (h : igneaIdx st v = some i) : i < st.visited_index.length := by
  have hmem : (v, i) ∈ st.visited_index := igneaALookup_mem h
  have : i ∈ st.visited_index.map Prod.snd :=
    List.mem_map.mpr ⟨(v, i), hmem, rfl⟩
  rw [hinv.idxKeys] at this
  exact List.mem_range.mp this

theorem igneaIdx_inj {ν : Type} [DecidableEq ν] {first : ν → List ν}
    {st : IgneaTarjanSt ν} (hinv : IgneaTJInv first st) {a b : ν} {i : Nat}
    (ha : igneaIdx st a = some i) (hb : igneaIdx st b = some i) : a = b :=
  igneaALookup_snd_inj (hinv.idxKeys ▸ List.nodup_range _) ha hb

theorem igneaIdxN_eq {ν : Type} [DecidableEq ν]
    {st : IgneaTarjanSt ν} {v : ν} {i : Nat} (h : igneaIdx st v = some i) :
    igneaIdxN st v = i := by
  rw [igneaIdxN, h]
  rfl

theorem igneaLowN_eq {ν : Type} [DecidableEq ν]
    {st : IgneaTarjanSt ν} {v : ν} {i : Nat} (h : igneaLow st v = some i) :
    igneaLowN st v = i := by
  rw [igneaLowN, h]
  rfl

theorem igneaIdx_some_of_isSome {ν : Type} [DecidableEq ν]
    {st : IgneaTarjanSt ν} {v : ν} (h : (igneaIdx st v).isSome) :
    igneaIdx st v = some (igneaIdxN st v) := by
  rcases hx : igneaIdx st v with _ | i
  · rw [hx] at h
    cases h
  · rw [igneaIdxN_eq hx]

theorem igneaLow_some_of_isSome {ν : Type} [DecidableEq ν]
    {st : IgneaTarjanSt ν} {v : ν} (h : (igneaLow st v).isSome) :
    igneaLow st v = some (igneaLowN st v) := by
  rcases hx : igneaLow st v with _ | i
  · rw [hx] at h
    cases h
  · rw [igneaLowN_eq hx]

/-- The pop loop takes exactly the stack segment down to `v`. -/
theorem igneaPopScc_eq {ν : Type} [DecidableEq ν] (v : ν) :
    ∀ (Δ rest acc : List ν), v ∉ Δ →
      igneaPopScc v (Δ ++ v :: rest) acc =
        some (v :: (Δ.reverse ++ acc), rest)
  | [], rest, acc, _ => by simp [igneaPopScc]
  | d :: Δ, rest, acc, hv => by
    have hd : d ≠ v := fun h => hv (h ▸ List.mem_cons_self d Δ)
    have hv' : v ∉ Δ := fun h => hv (List.mem_cons_of_mem d h)
    simp only [List.cons_append, igneaPopScc, if_neg hd, List.append_eq]
    rw [igneaPopScc_eq v Δ rest (d :: acc) hv']
    simp

/-- Appending one class whose edges stay in itself or in earlier classes
preserves the emission-closure property. -/
theorem igneaSccClosed_append {ν : Type} (first : ν → List ν)
    (cs : List (List ν)) (P : List ν)
    (hold : ∀ i, (hi : i < cs.length) → ∀ x ∈ cs.get ⟨i, hi⟩,
      ∀ w ∈ first x,
        ∃ j, ∃ (hj : j < cs.length), j ≤ i ∧ w ∈ cs.get ⟨j, hj⟩)
    (hnew : ∀ x ∈ P, ∀ w ∈ first x, w ∈ P ∨ ∃ S ∈ cs, w ∈ S) :
    ∀ i, (hi : i < (cs ++ [P]).length) → ∀ x ∈ (cs ++ [P]).get ⟨i, hi⟩,
      ∀ w ∈ first x,
        ∃ j, ∃ (hj : j < (cs ++ [P]).length), j ≤ i ∧
          w ∈ (cs ++ [P]).get ⟨j, hj⟩ := by
  intro i hi x hx w hw
  rcases Nat.lt_or_ge i cs.length with hilt | hige
  · have hx' : x ∈ cs.get ⟨i, hilt⟩ := by
      have : (cs ++ [P]).get ⟨i, hi⟩ = cs.get ⟨i, hilt⟩ := by
        simp only [List.get_eq_getElem]
        exact List.getElem_append_left hilt
      rwa [this] at hx
    obtain ⟨j, hj, hji, hwj⟩ := hold i hilt x hx' w hw
    refine ⟨j, by simp; omega, hji, ?_⟩
    have : (cs ++ [P]).get ⟨j, by simp; omega⟩ = cs.get ⟨j, hj⟩ := by
      simp only [List.get_eq_getElem]
      exact List.getElem_append_left hj
    rw [this]
    exact hwj
  · have hieq : i = cs.length := by
      simp only [List.length_append, List.length_singleton] at hi
      omega
    have hx' : x ∈ P := by
      have : (cs ++ [P]).get ⟨i, hi⟩ = P := by
        subst hieq
        simp [List.get_eq_getElem]
      rwa [this] at hx
    rcases hnew x hx' w hw with hwP | ⟨S, hS, hwS⟩
    · refine ⟨i, hi, le_refl i, ?_⟩
      have : (cs ++ [P]).get ⟨i, hi⟩ = P := by
        subst hieq
        simp [List.get_eq_getElem]
      rw [this]
      exact hwP
    · obtain ⟨jf, hjg⟩ := List.get_of_mem hS
      have hjf : jf.1 < cs.length := jf.2
      refine ⟨jf.1, by simp; omega, by omega, ?_⟩
      have : (cs ++ [P]).get ⟨jf.1, by simp; omega⟩ = cs.get jf := by
        simp only [List.get_eq_getElem]
        exact List.getElem_append_left hjf
      rw [this, hjg]
      exact hwS

/-- Effect of the `min_index[v] = m` assignment (for a visited `v`, with
`m` at most `v`'s index): the invariant survives, all other keys keep
their values, and the stack, `visited_index` and components are
untouched. -/
theorem igneaTJ_minUpdate {ν : Type} [DecidableEq ν] {first : ν → List ν}
    {st : IgneaTarjanSt ν} (hinv : IgneaTJInv first st) (v : ν) (m : Nat)
    (hvis : (igneaIdx st v).isSome) (hm : m ≤ igneaIdxN st v) :
    IgneaTJInv first { st with min_index := igneaASet st.min_index v m } := by
  refine ⟨hinv.idxKeys, ?_, ?_, hinv.stackVis, hinv.stackIdx,
    hinv.stackFree, hinv.visSplit, hinv.sccVis, hinv.sccNodup,
    hinv.sccDisj, hinv.sccSC, hinv.sccClosed⟩
  · intro u
    by_cases hu : u = v
    · subst hu
      have : igneaLow { st with min_index := igneaASet st.min_index u m } u
          = some m := igneaALookup_aset_self st.min_index u m
      rw [this]
      simpa using hvis
    · have : igneaLow { st with min_index := igneaASet st.min_index v m } u
          = igneaLow st u := igneaALookup_aset_ne st.min_index v u m hu
      rw [this]
      exact hinv.lowKeys u
  · intro u
    by_cases hu : u = v
    · subst hu
      have : igneaLow { st with min_index := igneaASet st.min_index u m } u
          = some m := igneaALookup_aset_self st.min_index u m
      rw [igneaLowN, this]
      exact hm
    · have : igneaLow { st with min_index := igneaASet st.min_index v m } u
          = igneaLow st u := igneaALookup_aset_ne st.min_index v u m hu
      rw [igneaLowN, this]
      exact hinv.lowLe u

/-- Precondition of `compute_scc(v)`; `anc` is the chain of active
ancestor calls. -/
structure IgneaTJPreInl {ν : Type} [DecidableEq ν] (first : ν → List ν)
    (st : IgneaTarjanSt ν) (anc : List ν) (v : ν) : Prop where
  inv : IgneaTJInv first st
  fresh : igneaIdx st v = none
  ss : igneaStackSpec first st anc
  els : igneaEdgeLowSpec first st anc
  ancStack : ∀ a ∈ anc, a ∈ st.stack

/-- Postcondition of `compute_scc(v)`: the invariant survives, old
entries are untouched, newly visited nodes are reachable from `v`, and
`v` was either popped with its component (old stack restored) or left
completed on the stack above the old stack. -/
structure IgneaTJPostInl {ν : Type} [DecidableEq ν] (first : ν → List ν)
    (st st' : IgneaTarjanSt ν) (anc : List ν) (v : ν) : Prop where
  inv : IgneaTJInv first st'
  prevIdx : ∀ u, (igneaIdx st u).isSome → igneaIdx st' u = igneaIdx st u
  prevLow : ∀ u, (igneaIdx st u).isSome → igneaLow st' u = igneaLow st u
  vIdx : igneaIdx st' v = some st.visited_index.length
  newReach : ∀ u, igneaIdx st u = none → (igneaIdx st' u).isSome →
    igneaReach first v u
  sccsExt : ∃ new, st'.sccs = st.sccs ++ new
  ss : igneaStackSpec first st' anc
  els : igneaEdgeLowSpec first st' anc
  result :
    (st'.stack = st.stack ∧ igneaLow st' v = some (igneaIdxN st' v) ∧
      igneaAssigned st' v) ∨
    (∃ Δ, st'.stack = Δ ++ v :: st.stack ∧
      (∀ u ∈ Δ, igneaIdx st u = none) ∧
      igneaLowN st' v < igneaIdxN st' v ∧
      ∀ u ∈ Δ, igneaLowN st' v ≤ igneaLowN st' u)

/-- Precondition of the loop remainder `for w in ws` inside
`compute_scc(v)`: `base` is the stack below `v`, frozen for the whole
call. -/
structure IgneaTJPreInr {ν : Type} [DecidableEq ν] (first : ν → List ν)
    (st : IgneaTarjanSt ν) (anc : List ν) (v : ν) (ws : List ν)
    (base : List ν) : Prop where
  inv : IgneaTJInv first st
  ss : igneaStackSpec first st (v :: anc)
  els : igneaEdgeLowSpec first st (v :: anc)
  ancStack : ∀ a ∈ anc, a ∈ st.stack
  wsSub : ∀ w ∈ ws, w ∈ first v
  shape : ∃ Δ, st.stack = Δ ++ v :: base ∧
    ∀ u ∈ Δ, igneaLowN st v ≤ igneaLowN st u
  actLow : igneaLow st v = some (igneaIdxN st v) ∨
    igneaCompletedOn first st v

/-- Postcondition of the loop remainder: additionally, each processed
target is visited and, if still on the stack, bounds `min_index[v]`. -/
structure IgneaTJPostInr {ν : Type} [DecidableEq ν] (first : ν → List ν)
    (st st' : IgneaTarjanSt ν) (anc : List ν) (v : ν) (ws : List ν)
    (base : List ν) : Prop where
  inv : IgneaTJInv first st'
  prevIdx : ∀ u, (igneaIdx st u).isSome → igneaIdx st' u = igneaIdx st u
  prevLow : ∀ u, u ≠ v → (igneaIdx st u).isSome →
    igneaLow st' u = igneaLow st u
  newReach : ∀ u, igneaIdx st u = none → (igneaIdx st' u).isSome →
    igneaReach first v u
  sccsExt : ∃ new, st'.sccs = st.sccs ++ new
  ss : igneaStackSpec first st' (v :: anc)
  els : igneaEdgeLowSpec first st' (v :: anc)
  shape : ∃ Δ, st'.stack = Δ ++ v :: base ∧
    ∀ u ∈ Δ, igneaLowN st' v ≤ igneaLowN st' u
  lowMono : igneaLowN st' v ≤ igneaLowN st v
  actLow : igneaLow st' v = some (igneaIdxN st' v) ∨
    igneaCompletedOn first st' v
  edges : ∀ w ∈ ws, (igneaIdx st' w).isSome ∧
    (w ∈ st'.stack → igneaLowN st' v ≤ igneaIdxN st' w)

theorem igneaIdxN_congr {ν : Type} [DecidableEq ν]
    {st st' : IgneaTarjanSt ν} {u : ν}
    (h : igneaIdx st' u = igneaIdx st u) :
    igneaIdxN st' u = igneaIdxN st u := by
  rw [igneaIdxN, igneaIdxN, h]

theorem igneaLowN_congr {ν : Type} [DecidableEq ν]
    {st st' : IgneaTarjanSt ν} {u : ν}
    (h : igneaLow st' u = igneaLow st u) :
    igneaLowN st' u = igneaLowN st u := by
  rw [igneaLowN, igneaLowN, h]

theorem igneaALookup_snoc_self {ν α : Type} [DecidableEq ν]
    (l : List (ν × α)) (v : ν) (x : α) (h : igneaALookup l v = none) :
    igneaALookup (l ++ [(v, x)]) v = some x := by
  rw [igneaALookup_append, h]
  simp [igneaALookup]

theorem igneaALookup_snoc_ne {ν α : Type} [DecidableEq ν]
    (l : List (ν × α)) (v : ν) (x : α) (u : ν) (hu : u ≠ v) :
    igneaALookup (l ++ [(v, x)]) u = igneaALookup l u := by
  rw [igneaALookup_append]
  rcases h : igneaALookup l u with _ | y
  · simp only [igneaALookup, if_neg hu]
  · rfl

/-- The prologue of `compute_scc(v)` (index and push) establishes the
precondition of the successor loop, with `base` the old stack. -/
theorem igneaTJ_prologue {ν : Type} [DecidableEq ν] {first : ν → List ν}
    {st : IgneaTarjanSt ν} {anc : List ν} {v : ν}
    (pre : IgneaTJPreInl first st anc v) :
    IgneaTJPreInr first
      { st with
        min_index := igneaASet st.min_index v st.visited_index.length,
        visited_index :=
          st.visited_index ++ [(v, st.visited_index.length)],
        stack := v :: st.stack }
      anc v (first v) st.stack := by
  set len := st.visited_index.length with hlen
  set st1 : IgneaTarjanSt ν :=
    { st with
      min_index := igneaASet st.min_index v len,
      visited_index := st.visited_index ++ [(v, len)],
      stack := v :: st.stack } with hst1
  have hIdx1v : igneaIdx st1 v = some len := by
    show igneaALookup (st.visited_index ++ [(v, len)]) v = some len
    rw [igneaALookup_append]
    rw [show igneaALookup st.visited_index v = none from pre.fresh]
    simp [igneaALookup]
  have hIdx1u : ∀ u, u ≠ v → igneaIdx st1 u = igneaIdx st u := by
    intro u hu
    show igneaALookup (st.visited_index ++ [(v, len)]) u = _
    rw [igneaALookup_append]
    rcases h : igneaALookup st.visited_index u with _ | x
    · simp only [igneaALookup, if_neg hu]
      exact h.symm
    · exact h.symm
  have hLow1v : igneaLow st1 v = some len :=
    igneaALookup_aset_self st.min_index v len
  have hLow1u : ∀ u, u ≠ v → igneaLow st1 u = igneaLow st u := by
    intro u hu
    exact igneaALookup_aset_ne st.min_index v u len hu
  have hVisNe : ∀ u, (igneaIdx st u).isSome → u ≠ v := by
    intro u hvis he
    rw [he, pre.fresh] at hvis
    cases hvis
  have hStackNe : ∀ u ∈ st.stack, u ≠ v := by
    intro u hu
    exact hVisNe u (pre.inv.stackVis u hu)
  have hIdxStack : ∀ u ∈ st.stack, igneaIdx st1 u = igneaIdx st u := by
    intro u hu
    exact hIdx1u u (hStackNe u hu)
  have hIdx1vN : igneaIdxN st1 v = len := igneaIdxN_eq hIdx1v
  have hIdxLt : ∀ u ∈ st.stack, igneaIdxN st u < len := by
    intro u hu
    have hs := pre.inv.stackVis u hu
    have := igneaIdx_lt_len pre.inv (igneaIdx_some_of_isSome hs)
    exact this
  refine ⟨⟨?_, ?_, ?_, ?_, ?_, ?_, ?_, ?_, ?_, ?_, ?_, ?_⟩,
    ?_, ?_, ?_, ?_, ?_, ?_⟩
  · -- idxKeys
    show (st.visited_index ++ [(v, len)]).map Prod.snd =
      List.range (st.visited_index ++ [(v, len)]).length
    simp [pre.inv.idxKeys, List.range_succ]
  · -- lowKeys
    intro u
    by_cases hu : u = v
    · subst hu
      rw [hLow1v, hIdx1v]
    · rw [hLow1u u hu, hIdx1u u hu]
      exact pre.inv.lowKeys u
  · -- lowLe
    intro u
    by_cases hu : u = v
    · subst hu
      rw [igneaLowN_eq hLow1v, hIdx1vN]
    · rw [igneaLowN_congr (hLow1u u hu), igneaIdxN_congr (hIdx1u u hu)]
      exact pre.inv.lowLe u
  · -- stackVis
    intro u hu
    rcases List.mem_cons.mp hu with rfl | hu'
    · rw [hIdx1v]
      simp
    · rw [hIdxStack u hu']
      exact pre.inv.stackVis u hu'
  · -- stackIdx
    show (v :: st.stack).Pairwise (fun a b => igneaIdxN st1 b < igneaIdxN st1 a)
    rw [List.pairwise_cons]
    constructor
    · intro u hu
      rw [igneaIdxN_congr (hIdxStack u hu), hIdx1vN]
      exact hIdxLt u hu
    · refine pre.inv.stackIdx.imp_of_mem ?_
      intro a b ha hb h
      rw [igneaIdxN_congr (hIdxStack a ha), igneaIdxN_congr (hIdxStack b hb)]
      exact h
  · -- stackFree
    intro u hu hassigned
    obtain ⟨S, hS, huS⟩ := hassigned
    rcases List.mem_cons.mp hu with rfl | hu'
    · have := pre.inv.sccVis S hS u huS
      exact hVisNe u this rfl
    · exact pre.inv.stackFree u hu' ⟨S, hS, huS⟩
  · -- visSplit
    intro u hvis
    by_cases hu : u = v
    · subst hu
      exact Or.inl (List.mem_cons_self _ _)
    · rw [hIdx1u u hu] at hvis
      rcases pre.inv.visSplit u hvis with h | h
      · exact Or.inl (List.mem_cons_of_mem _ h)
      · exact Or.inr h
  · -- sccVis
    intro S hS u huS
    have hvis := pre.inv.sccVis S hS u huS
    rw [hIdx1u u (hVisNe u hvis)]
    exact hvis
  · exact pre.inv.sccNodup
  · exact pre.inv.sccDisj
  · exact pre.inv.sccSC
  · exact pre.inv.sccClosed
  · -- ss
    intro u hu
    rcases List.mem_cons.mp hu with rfl | hu'
    · exact Or.inl (List.mem_cons_self _ _)
    · rcases pre.ss u hu' with h | h
      · exact Or.inl (List.mem_cons_of_mem _ h)
      · obtain ⟨w, hw, hlow, hlt, hreach⟩ := h
        refine Or.inr ⟨w, List.mem_cons_of_mem _ hw, ?_, ?_, hreach⟩
        · rw [hLow1u u (hStackNe u hu'), igneaIdxN_congr (hIdxStack w hw)]
          exact hlow
        · rw [igneaIdxN_congr (hIdxStack w hw),
            igneaIdxN_congr (hIdxStack u hu')]
          exact hlt
  · -- els
    intro y hyvis hyact w hw
    have hyv : y ≠ v := fun h => hyact (h ▸ List.mem_cons_self _ _)
    have hyanc : y ∉ anc := fun h => hyact (List.mem_cons_of_mem _ h)
    rw [hIdx1u y hyv] at hyvis
    obtain ⟨hwvis, hwstack⟩ := pre.els y hyvis hyanc w hw
    have hwv : w ≠ v := hVisNe w hwvis
    constructor
    · rw [hIdx1u w hwv]
      exact hwvis
    · intro hwst
      rcases List.mem_cons.mp hwst with rfl | hwst'
      · exact absurd rfl hwv
      · rw [igneaLowN_congr (hLow1u y hyv), igneaIdxN_congr (hIdxStack w hwst')]
        exact hwstack hwst'
  · -- ancStack
    intro a ha
    exact List.mem_cons_of_mem _ (pre.ancStack a ha)
  · -- wsSub
    intro w hw
    exact hw
  · -- shape
    refine ⟨[], rfl, ?_⟩
    intro u hu
    cases hu
  · -- actLow
    left
    rw [hLow1v, hIdx1vN]

/-- Emission: when the loop over `graph[v]` is done and `min_index[v]`
still equals `v`'s index, the popped segment is strongly connected, its
edges stay inside it or in earlier components, and the caller's stack is
restored exactly. -/
theorem igneaTJ_emit {ν : Type} [DecidableEq ν] {first : ν → List ν}
    {st st2 : IgneaTarjanSt ν} {anc : List ν} {v : ν}
    {scc stack' : List ν}
    (pre : IgneaTJPreInl first st anc v)
    (post : IgneaTJPostInr first
      { st with
        min_index := igneaASet st.min_index v st.visited_index.length,
        visited_index :=
          st.visited_index ++ [(v, st.visited_index.length)],
        stack := v :: st.stack }
      st2 anc v (first v) st.stack)
    (hemit : igneaLow st2 v = some st.visited_index.length)
    (hpop : igneaPopScc v st2.stack [] = some (scc, stack')) :
    IgneaTJPostInl first st
      { st2 with stack := stack', sccs := st2.sccs ++ [scc] } anc v := by
  set len := st.visited_index.length with hlendef
  set st1 : IgneaTarjanSt ν :=
    { st with
      min_index := igneaASet st.min_index v len,
      visited_index := st.visited_index ++ [(v, len)],
      stack := v :: st.stack } with hst1
  have hIdx1v : igneaIdx st1 v = some len := by
    rw [hst1]
    exact igneaALookup_snoc_self st.visited_index v len pre.fresh
  have hIdx1u : ∀ u, u ≠ v → igneaIdx st1 u = igneaIdx st u := by
    intro u hu
    rw [hst1]
    exact igneaALookup_snoc_ne st.visited_index v len u hu
  have hLow1u : ∀ u, u ≠ v → igneaLow st1 u = igneaLow st u := by
    intro u hu
    rw [hst1]
    exact igneaALookup_aset_ne st.min_index v u len hu
  have hVisNe : ∀ u, (igneaIdx st u).isSome → u ≠ v := by
    intro u hvis he
    rw [he, pre.fresh] at hvis
    cases hvis
  have hIdx2v : igneaIdx st2 v = some len := by
    rw [post.prevIdx v (by rw [hIdx1v]; rfl)]
    exact hIdx1v
  have hIdx2vN : igneaIdxN st2 v = len := igneaIdxN_eq hIdx2v
  have hLow2vN : igneaLowN st2 v = len := igneaLowN_eq hemit
  have hIdx2old : ∀ u, (igneaIdx st u).isSome →
      igneaIdx st2 u = igneaIdx st u := by
    intro u hvis
    have hu := hVisNe u hvis
    rw [post.prevIdx u (by rw [hIdx1u u hu]; exact hvis), hIdx1u u hu]
  have hLow2old : ∀ u, (igneaIdx st u).isSome →
      igneaLow st2 u = igneaLow st u := by
    intro u hvis
    have hu := hVisNe u hvis
    rw [post.prevLow u hu (by rw [hIdx1u u hu]; exact hvis), hLow1u u hu]
  have hIdx2oldN : ∀ u, (igneaIdx st u).isSome →
      igneaIdxN st2 u = igneaIdxN st u := fun u h =>
    igneaIdxN_congr (hIdx2old u h)
  have hIdxOldLt : ∀ u ∈ st.stack, igneaIdxN st2 u < len := by
    intro u hu
    have hvis := pre.inv.stackVis u hu
    rw [hIdx2oldN u hvis]
    exact igneaIdx_lt_len pre.inv (igneaIdx_some_of_isSome hvis)
  obtain ⟨Δ, hshape, hroot⟩ := post.shape
  have hstack2 := post.inv.stackIdx
  rw [hshape] at hstack2
  obtain ⟨hpairΔ, hpairRest, hcross⟩ := List.pairwise_append.mp hstack2
  have hΔgt : ∀ u ∈ Δ, len < igneaIdxN st2 u := by
    intro u hu
    have := hcross u hu v (List.mem_cons_self _ _)
    rwa [hIdx2vN] at this
  have hΔne : ∀ u ∈ Δ, u ≠ v := by
    intro u hu he
    have := hΔgt u hu
    rw [he, hIdx2vN] at this
    exact lt_irrefl _ this
  have hvΔ : v ∉ Δ := fun h => hΔne v h rfl
  have hΔvis2 : ∀ u ∈ Δ, (igneaIdx st2 u).isSome := by
    intro u hu
    exact post.inv.stackVis u (by rw [hshape]; exact List.mem_append_left _ hu)
  have hΔfresh : ∀ u ∈ Δ, igneaIdx st u = none := by
    intro u hu
    rcases h : igneaIdx st u with _ | i
    · rfl
    · exfalso
      have hvis : (igneaIdx st u).isSome := by rw [h]; rfl
      have h2 : igneaIdxN st2 u < len := by
        rw [hIdx2oldN u hvis, igneaIdxN_eq h]
        exact igneaIdx_lt_len pre.inv h
      exact absurd (hΔgt u hu) (by omega)
  have hΔnotanc : ∀ u ∈ Δ, u ∉ anc := by
    intro u hu ha
    have := pre.inv.stackVis u (pre.ancStack u ha)
    rw [hΔfresh u hu] at this
    cases this
  have hΔroot : ∀ u ∈ Δ, len ≤ igneaLowN st2 u := by
    intro u hu
    have := hroot u hu
    rwa [hLow2vN] at this
  have hΔdone : ∀ u ∈ Δ, igneaCompletedOn first st2 u := by
    intro u hu
    rcases post.ss u (by rw [hshape]; exact List.mem_append_left _ hu)
      with hact | h
    · rcases List.mem_cons.mp hact with rfl | h2
      · exact absurd rfl (hΔne _ hu)
      · exact absurd h2 (hΔnotanc _ hu)
    · exact h
  have hdescend : ∀ n, ∀ u ∈ Δ, igneaIdxN st2 u ≤ n →
      igneaReach first u v := by
    intro n
    induction n with
    | zero =>
      intro u hu hle
      exact absurd hle (by have := hΔgt u hu; omega)
    | succ n ih =>
      intro u hu hle
      obtain ⟨w, hwst, hlowu, hwlt, hreach⟩ := hΔdone u hu
      have hlowuN : igneaLowN st2 u = igneaIdxN st2 w := igneaLowN_eq hlowu
      have hwge : len ≤ igneaIdxN st2 w := by
        rw [← hlowuN]
        exact hΔroot u hu
      rw [hshape] at hwst
      rcases List.mem_append.mp hwst with hwΔ | hwrest
      · have hn : igneaIdxN st2 w ≤ n := by omega
        exact igneaReach_trans hreach (ih w hwΔ hn)
      · rcases List.mem_cons.mp hwrest with rfl | hwold
        · exact hreach
        · exact absurd hwge (by have := hIdxOldLt w hwold; omega)
  have hΔreachV : ∀ u ∈ Δ, igneaReach first u v := fun u hu =>
    hdescend (igneaIdxN st2 u) u hu le_rfl
  have hVreachΔ : ∀ u ∈ Δ, igneaReach first v u := by
    intro u hu
    refine post.newReach u ?_ (hΔvis2 u hu)
    rw [hIdx1u u (hΔne u hu)]
    exact hΔfresh u hu
  rw [hshape, igneaPopScc_eq v Δ st.stack [] hvΔ] at hpop
  simp only [List.append_nil, Option.some.injEq, Prod.mk.injEq] at hpop
  obtain ⟨hscc, hstack'⟩ := hpop
  subst hscc
  subst hstack'
  have hmemP : ∀ u, u ∈ v :: Δ.reverse ↔ (u = v ∨ u ∈ Δ) := by
    intro u
    simp [List.mem_cons, List.mem_reverse]
  have hPvis2 : ∀ u ∈ v :: Δ.reverse, (igneaIdx st2 u).isSome := by
    intro u hu
    rcases (hmemP u).mp hu with rfl | h
    · rw [hIdx2v]; rfl
    · exact hΔvis2 u h
  have hPge : ∀ u ∈ v :: Δ.reverse, len ≤ igneaIdxN st2 u := by
    intro u hu
    rcases (hmemP u).mp hu with rfl | h
    · rw [hIdx2vN]
    · exact (hΔgt u h).le
  have hSC : ∀ x ∈ v :: Δ.reverse, ∀ y ∈ v :: Δ.reverse,
      igneaReach first x y := by
    intro x hx y hy
    rcases (hmemP x).mp hx with rfl | hxΔ <;>
      rcases (hmemP y).mp hy with h' | hyΔ
    · rw [h']
      exact igneaReach_refl first x
    · exact hVreachΔ y hyΔ
    · rw [h']
      exact hΔreachV x hxΔ
    · exact igneaReach_trans (hΔreachV x hxΔ) (hVreachΔ y hyΔ)
  have hstack2mem : ∀ w, w ∈ st2.stack ↔ (w ∈ Δ ∨ w = v ∨ w ∈ st.stack) := by
    intro w
    rw [hshape]
    simp [List.mem_append, List.mem_cons]
  have hclosure : ∀ x ∈ v :: Δ.reverse, ∀ w ∈ first x,
      w ∈ v :: Δ.reverse ∨ ∃ S ∈ st2.sccs, w ∈ S := by
    intro x hx w hw
    rcases (hmemP x).mp hx with rfl | hxΔ
    · obtain ⟨hwvis, hwstack⟩ := post.edges w hw
      by_cases hws : w ∈ st2.stack
      · have hge := hwstack hws
        rw [hLow2vN] at hge
        rcases (hstack2mem w).mp hws with h | h | h
        · exact Or.inl ((hmemP w).mpr (Or.inr h))
        · exact Or.inl ((hmemP w).mpr (Or.inl h))
        · exact absurd hge (by have := hIdxOldLt w h; omega)
      · rcases post.inv.visSplit w hwvis with h | h
        · exact absurd h hws
        · exact Or.inr h
    · have hxvis := hΔvis2 x hxΔ
      have hxnact : x ∉ v :: anc := by
        intro hmem
        rcases List.mem_cons.mp hmem with rfl | h
        · exact hΔne _ hxΔ rfl
        · exact hΔnotanc _ hxΔ h
      obtain ⟨hwvis, hwstack⟩ := post.els x hxvis hxnact w hw
      by_cases hws : w ∈ st2.stack
      · have hge := hwstack hws
        have hge2 : len ≤ igneaIdxN st2 w :=
          le_trans (hΔroot x hxΔ) hge
        rcases (hstack2mem w).mp hws with h | h | h
        · exact Or.inl ((hmemP w).mpr (Or.inr h))
        · exact Or.inl ((hmemP w).mpr (Or.inl h))
        · exact absurd hge2 (by have := hIdxOldLt w h; omega)
      · rcases post.inv.visSplit w hwvis with h | h
        · exact absurd h hws
        · exact Or.inr h
  have hstack2nodup : st2.stack.Nodup := by
    have : st2.stack.Pairwise (fun a b => a ≠ b) :=
      post.inv.stackIdx.imp (fun h he => by
        rw [he] at h
        exact lt_irrefl _ h)
    exact this
  have hΔnodup : Δ.Nodup := by
    have hsub : Δ.Sublist st2.stack := by
      rw [hshape]
      exact List.sublist_append_left Δ _
    exact hstack2nodup.sublist hsub
  have hPnodup : (v :: Δ.reverse).Nodup := by
    rw [List.nodup_cons]
    exact ⟨fun h => hvΔ (List.mem_reverse.mp h), List.nodup_reverse.mpr hΔnodup⟩
  have holdSub : ∀ u ∈ st.stack, u ∈ st2.stack := by
    intro u hu
    rw [hshape]
    exact List.mem_append_right _ (List.mem_cons_of_mem _ hu)
  have hPstack2 : ∀ u ∈ v :: Δ.reverse, u ∈ st2.stack := by
    intro u hu
    rcases (hmemP u).mp hu with rfl | h
    · rw [hshape]
      exact List.mem_append_right _ (List.mem_cons_self _ _)
    · rw [hshape]
      exact List.mem_append_left _ h
  refine ⟨⟨?_, ?_, ?_, ?_, ?_, ?_, ?_, ?_, ?_, ?_, ?_, ?_⟩,
    ?_, ?_, ?_, ?_, ?_, ?_, ?_, ?_⟩
  · exact post.inv.idxKeys
  · exact post.inv.lowKeys
  · exact post.inv.lowLe
  · intro u hu
    have hu' : u ∈ st.stack := hu
    exact post.inv.stackVis u (holdSub u hu')
  · exact (List.pairwise_cons.mp hpairRest).2
  · intro u hu ha
    have hu' : u ∈ st.stack := hu
    obtain ⟨S, hS, huS⟩ := ha
    have hS' : S ∈ st2.sccs ++ [v :: Δ.reverse] := hS
    rcases List.mem_append.mp hS' with hSo | hSn
    · exact post.inv.stackFree u (holdSub u hu') ⟨S, hSo, huS⟩
    · rw [List.mem_singleton.mp hSn] at huS
      have h1 := hPge u huS
      have h2 := hIdxOldLt u hu'
      omega
  · intro u hvis
    have hvis' : (igneaIdx st2 u).isSome := hvis
    rcases post.inv.visSplit u hvis' with h | h
    · rcases (hstack2mem u).mp h with hΔ | hv | hold
      · exact Or.inr ⟨v :: Δ.reverse,
          List.mem_append_right _ (List.mem_singleton.mpr rfl),
          (hmemP u).mpr (Or.inr hΔ)⟩
      · exact Or.inr ⟨v :: Δ.reverse,
          List.mem_append_right _ (List.mem_singleton.mpr rfl),
          (hmemP u).mpr (Or.inl hv)⟩
      · exact Or.inl hold
    · obtain ⟨S, hS, huS⟩ := h
      exact Or.inr ⟨S, List.mem_append_left _ hS, huS⟩
  · intro S hS u huS
    have hS' : S ∈ st2.sccs ++ [v :: Δ.reverse] := hS
    rcases List.mem_append.mp hS' with hSo | hSn
    · exact post.inv.sccVis S hSo u huS
    · rw [List.mem_singleton.mp hSn] at huS
      exact hPvis2 u huS
  · intro S hS
    have hS' : S ∈ st2.sccs ++ [v :: Δ.reverse] := hS
    rcases List.mem_append.mp hS' with hSo | hSn
    · exact post.inv.sccNodup S hSo
    · rw [List.mem_singleton.mp hSn]
      exact hPnodup
  · refine List.pairwise_append.mpr
      ⟨post.inv.sccDisj, List.pairwise_singleton _ _, ?_⟩
    intro S hS T hT x hxS hxT
    rw [List.mem_singleton.mp hT] at hxT
    exact post.inv.stackFree x (hPstack2 x hxT) ⟨S, hS, hxS⟩
  · intro S hS x hxS y hyS
    have hS' : S ∈ st2.sccs ++ [v :: Δ.reverse] := hS
    rcases List.mem_append.mp hS' with hSo | hSn
    · exact post.inv.sccSC S hSo x hxS y hyS
    · rw [List.mem_singleton.mp hSn] at hxS hyS
      exact hSC x hxS y hyS
  · exact igneaSccClosed_append first st2.sccs _ post.inv.sccClosed hclosure
  · intro u hvis
    exact hIdx2old u hvis
  · intro u hvis
    exact hLow2old u hvis
  · exact hIdx2v
  · intro u hfresh hvis
    by_cases hu : u = v
    · rw [hu]
      exact igneaReach_refl first v
    · refine post.newReach u ?_ hvis
      rw [hIdx1u u hu]
      exact hfresh
  · obtain ⟨new, hnew⟩ := post.sccsExt
    refine ⟨new ++ [v :: Δ.reverse], ?_⟩
    show st2.sccs ++ [v :: Δ.reverse] = st.sccs ++ (new ++ [v :: Δ.reverse])
    rw [hnew, hst1]
    simp
  · intro u hu
    have hu' : u ∈ st.stack := hu
    rcases pre.ss u hu' with h | h
    · exact Or.inl h
    · obtain ⟨w, hw, hlow, hlt, hr⟩ := h
      have huvis := pre.inv.stackVis u hu'
      have hwvis := pre.inv.stackVis w hw
      refine Or.inr ⟨w, hw, ?_, ?_, hr⟩
      · show igneaLow st2 u = some (igneaIdxN st2 w)
        rw [hLow2old u huvis, igneaIdxN_congr (hIdx2old w hwvis)]
        exact hlow
      · show igneaIdxN st2 w < igneaIdxN st2 u
        rw [igneaIdxN_congr (hIdx2old w hwvis),
          igneaIdxN_congr (hIdx2old u huvis)]
        exact hlt
  · intro y hyvis hyanc w hw
    by_cases hyv : y = v
    · subst hyv
      obtain ⟨hwvis, hwstack⟩ := post.edges w hw
      refine ⟨hwvis, ?_⟩
      intro hws
      have hws' : w ∈ st.stack := hws
      have h2 := hwstack (holdSub w hws')
      rw [hLow2vN] at h2
      exact absurd h2 (by have := hIdxOldLt w hws'; omega)
    · have hynact : y ∉ v :: anc := by
        intro hmem
        rcases List.mem_cons.mp hmem with h | h
        · exact hyv h
        · exact hyanc h
      have hyvis' : (igneaIdx st2 y).isSome := hyvis
      obtain ⟨hwvis, himp⟩ := post.els y hyvis' hynact w hw
      refine ⟨hwvis, ?_⟩
      intro hws
      have hws' : w ∈ st.stack := hws
      exact himp (holdSub w hws')
  · left
    refine ⟨rfl, ?_, ?_⟩
    · show igneaLow st2 v = some (igneaIdxN st2 v)
      rw [hemit, hIdx2vN]
    · exact ⟨v :: Δ.reverse,
        List.mem_append_right _ (List.mem_singleton.mpr rfl),
        List.mem_cons_self _ _⟩

/-- No emission: when the loop finishes with `min_index[v]` strictly
below `v`'s index, `v` stays on the stack as a completed node. -/
theorem igneaTJ_keep {ν : Type} [DecidableEq ν] {first : ν → List ν}
    {st st2 : IgneaTarjanSt ν} {anc : List ν} {v : ν}
    (pre : IgneaTJPreInl first st anc v)
    (post : IgneaTJPostInr first
      { st with
        min_index := igneaASet st.min_index v st.visited_index.length,
        visited_index :=
          st.visited_index ++ [(v, st.visited_index.length)],
        stack := v :: st.stack }
      st2 anc v (first v) st.stack)
    (hne : igneaLow st2 v ≠ some st.visited_index.length) :
    IgneaTJPostInl first st st2 anc v := by
  set len := st.visited_index.length with hlendef
  set st1 : IgneaTarjanSt ν :=
    { st with
      min_index := igneaASet st.min_index v len,
      visited_index := st.visited_index ++ [(v, len)],
      stack := v :: st.stack } with hst1
  have hIdx1v : igneaIdx st1 v = some len := by
    rw [hst1]
    exact igneaALookup_snoc_self st.visited_index v len pre.fresh
  have hIdx1u : ∀ u, u ≠ v → igneaIdx st1 u = igneaIdx st u := by
    intro u hu
    rw [hst1]
    exact igneaALookup_snoc_ne st.visited_index v len u hu
  have hLow1u : ∀ u, u ≠ v → igneaLow st1 u = igneaLow st u := by
    intro u hu
    rw [hst1]
    exact igneaALookup_aset_ne st.min_index v u len hu
  have hVisNe : ∀ u, (igneaIdx st u).isSome → u ≠ v := by
    intro u hvis he
    rw [he, pre.fresh] at hvis
    cases hvis
  have hIdx2v : igneaIdx st2 v = some len := by
    rw [post.prevIdx v (by rw [hIdx1v]; rfl)]
    exact hIdx1v
  have hIdx2vN : igneaIdxN st2 v = len := igneaIdxN_eq hIdx2v
  have hIdx2old : ∀ u, (igneaIdx st u).isSome →
      igneaIdx st2 u = igneaIdx st u := by
    intro u hvis
    have hu := hVisNe u hvis
    rw [post.prevIdx u (by rw [hIdx1u u hu]; exact hvis), hIdx1u u hu]
  have hLow2old : ∀ u, (igneaIdx st u).isSome →
      igneaLow st2 u = igneaLow st u := by
    intro u hvis
    have hu := hVisNe u hvis
    rw [post.prevLow u hu (by rw [hIdx1u u hu]; exact hvis), hLow1u u hu]
  have hLowLt : igneaLowN st2 v < igneaIdxN st2 v := by
    have hle := post.inv.lowLe v
    have hsome : (igneaLow st2 v).isSome := by
      rw [post.inv.lowKeys v, hIdx2v]
      rfl
    have heq := igneaLow_some_of_isSome hsome
    rcases Nat.lt_or_ge (igneaLowN st2 v) (igneaIdxN st2 v) with h | h
    · exact h
    · exfalso
      have : igneaLowN st2 v = len := by omega
      rw [this] at heq
      exact hne heq
  have hdone : igneaCompletedOn first st2 v := by
    rcases post.actLow with h | h
    · exfalso
      rw [hIdx2vN] at h
      exact hne h
    · exact h
  obtain ⟨Δ, hshape, hroot⟩ := post.shape
  have hstack2 := post.inv.stackIdx
  rw [hshape] at hstack2
  obtain ⟨hpairΔ, hpairRest, hcross⟩ := List.pairwise_append.mp hstack2
  have hΔgt : ∀ u ∈ Δ, len < igneaIdxN st2 u := by
    intro u hu
    have := hcross u hu v (List.mem_cons_self _ _)
    rwa [hIdx2vN] at this
  have hΔfresh : ∀ u ∈ Δ, igneaIdx st u = none := by
    intro u hu
    rcases h : igneaIdx st u with _ | i
    · rfl
    · exfalso
      have hvis : (igneaIdx st u).isSome := by rw [h]; rfl
      have h2 : igneaIdxN st2 u < len := by
        rw [igneaIdxN_congr (hIdx2old u hvis), igneaIdxN_eq h]
        exact igneaIdx_lt_len pre.inv h
      exact absurd (hΔgt u hu) (by omega)
  refine ⟨post.inv, hIdx2old, hLow2old, hIdx2v, ?_, ?_, ?_, ?_, ?_⟩
  · intro u hfresh hvis
    by_cases hu : u = v
    · rw [hu]
      exact igneaReach_refl first v
    · refine post.newReach u ?_ hvis
      rw [hIdx1u u hu]
      exact hfresh
  · obtain ⟨new, hnew⟩ := post.sccsExt
    refine ⟨new, ?_⟩
    rw [hnew, hst1]
  · intro u hu
    rcases post.ss u hu with hact | h
    · rcases List.mem_cons.mp hact with rfl | h2
      · exact Or.inr hdone
      · exact Or.inl h2
    · exact Or.inr h
  · intro y hyvis hyanc w hw
    by_cases hyv : y = v
    · subst hyv
      exact post.edges w hw
    · have hynact : y ∉ v :: anc := by
        intro hmem
        rcases List.mem_cons.mp hmem with h | h
        · exact hyv h
        · exact hyanc h
      exact post.els y hyvis hynact w hw
  · right
    exact ⟨Δ, hshape, hΔfresh, hLowLt, hroot⟩

theorem igneaTJ_vStack {ν : Type} [DecidableEq ν] {first : ν → List ν}
    {st : IgneaTarjanSt ν} {anc : List ν} {v : ν} {ws base : List ν}
    (pre : IgneaTJPreInr first st anc v ws base) :
    v ∈ st.stack ∧ (igneaIdx st v).isSome := by
  obtain ⟨Δ, hshape, _⟩ := pre.shape
  have hv : v ∈ st.stack := by
    rw [hshape]
    exact List.mem_append_right _ (List.mem_cons_self _ _)
  exact ⟨hv, pre.inv.stackVis v hv⟩

theorem igneaTJ_aboveV {ν : Type} [DecidableEq ν] {first : ν → List ν}
    {st : IgneaTarjanSt ν} {v : ν} {Δ base : List ν}
    (hinv : IgneaTJInv first st) (hshape : st.stack = Δ ++ v :: base) :
    ∀ u ∈ Δ, igneaIdxN st v < igneaIdxN st u ∧ u ≠ v := by
  have hpair := hinv.stackIdx
  rw [hshape] at hpair
  obtain ⟨_, _, hcross⟩ := List.pairwise_append.mp hpair
  intro u hu
  have hlt := hcross u hu v (List.mem_cons_self _ _)
  refine ⟨hlt, ?_⟩
  intro he
  rw [he] at hlt
  exact lt_irrefl _ hlt

/-- After a tree child `w` returns, the update
`min_index[v] = min(min_index[v], min_index[w])` re-establishes the loop
precondition for the remaining successors, and the processed edge
`(v, w)` satisfies the edge bound (its target bounds `min_index[v]`
unconditionally). -/
theorem igneaTJ_child {ν : Type} [DecidableEq ν] {first : ν → List ν}
    {st stA : IgneaTarjanSt ν} {anc : List ν} {v w : ν} {ws base : List ν}
    (pre : IgneaTJPreInr first st anc v (w :: ws) base)
    (hfresh : igneaIdx st w = none)
    (postA : IgneaTJPostInl first st stA (v :: anc) w) :
    IgneaTJPreInr first
      { stA with min_index := (igneaASet stA.min_index v (min ((igneaALookup stA.min_index v).getD 0) ((igneaALookup stA.min_index w).getD 0))) }
      anc v ws base ∧
    (igneaIdx
      { stA with min_index := (igneaASet stA.min_index v (min ((igneaALookup stA.min_index v).getD 0) ((igneaALookup stA.min_index w).getD 0))) } w).isSome ∧
    igneaLowN
      { stA with min_index := (igneaASet stA.min_index v (min ((igneaALookup stA.min_index v).getD 0) ((igneaALookup stA.min_index w).getD 0))) } v ≤
      igneaIdxN
        { stA with min_index := (igneaASet stA.min_index v (min ((igneaALookup stA.min_index v).getD 0) ((igneaALookup stA.min_index w).getD 0))) } w := by
  obtain ⟨hvst, hvvis⟩ := igneaTJ_vStack pre
  set mv := (igneaALookup stA.min_index v).getD 0 with hmvdef
  set mw := (igneaALookup stA.min_index w).getD 0 with hmwdef
  set stB : IgneaTarjanSt ν :=
    { stA with min_index := igneaASet stA.min_index v (min mv mw) }
    with hstB
  have hWne : w ≠ v := by
    intro he
    rw [he] at hfresh
    rw [hfresh] at hvvis
    cases hvvis
  have hmv : mv = igneaLowN stA v := rfl
  have hmw : mw = igneaLowN stA w := rfl
  have hAidxv : igneaIdx stA v = igneaIdx st v := postA.prevIdx v hvvis
  have hAlowv : igneaLow stA v = igneaLow st v := postA.prevLow v hvvis
  have hAvisv : (igneaIdx stA v).isSome := by rw [hAidxv]; exact hvvis
  have hmvst : mv = igneaLowN st v := by
    rw [hmv]
    exact igneaLowN_congr hAlowv
  have hidxAv : igneaIdxN stA v = igneaIdxN st v := igneaIdxN_congr hAidxv
  have hWvisA : (igneaIdx stA w).isSome := by
    rw [postA.vIdx]
    rfl
  have hinvB : IgneaTJInv first stB := by
    rw [hstB]
    refine igneaTJ_minUpdate postA.inv v (min mv mw) hAvisv ?_
    exact le_trans (Nat.min_le_left _ _)
      (by rw [hmv]; exact postA.inv.lowLe v)
  have hBidx : ∀ u, igneaIdx stB u = igneaIdx stA u := fun _ => rfl
  have hBidxN : ∀ u, igneaIdxN stB u = igneaIdxN stA u := fun _ => rfl
  have hBlowv : igneaLow stB v = some (min mv mw) := by
    rw [hstB]
    exact igneaALookup_aset_self _ _ _
  have hBlowu : ∀ u, u ≠ v → igneaLow stB u = igneaLow stA u := by
    intro u hu
    rw [hstB]
    exact igneaALookup_aset_ne _ _ _ _ hu
  have hBlowvN : igneaLowN stB v = min mv mw := igneaLowN_eq hBlowv
  have hBstack : stB.stack = stA.stack := rfl
  obtain ⟨Δ0, hshape0, hroot0⟩ := pre.shape
  have hΔ0 := igneaTJ_aboveV pre.inv hshape0
  have hΔ0vis : ∀ u ∈ Δ0, (igneaIdx st u).isSome := by
    intro u hu
    refine pre.inv.stackVis u ?_
    rw [hshape0]
    exact List.mem_append_left _ hu
  have hΔ0chain : ∀ u ∈ Δ0, igneaLowN stB v ≤ igneaLowN stB u := by
    intro u hu
    have hne := (hΔ0 u hu).2
    have hvis := hΔ0vis u hu
    rw [hBlowvN, igneaLowN_congr (hBlowu u hne),
      igneaLowN_congr (postA.prevLow u hvis)]
    calc min mv mw ≤ mv := Nat.min_le_left _ _
      _ = igneaLowN st v := hmvst
      _ ≤ igneaLowN st u := hroot0 u hu
  have hstSub : ∀ u ∈ st.stack, u ∈ stB.stack := by
    rcases postA.result with ⟨h1, _, _⟩ | ⟨Δw, h1, _, _, _⟩ <;>
      intro u hu <;> rw [hBstack, h1]
    · exact hu
    · exact List.mem_append_right _ (List.mem_cons_of_mem _ hu)
  have hactLeft : mv ≤ mw →
      (igneaLow stB v = some (igneaIdxN stB v) ∨
        igneaCompletedOn first stB v) := by
    intro hge
    rcases pre.actLow with hL | ⟨w', hw'st, hlow', hlt', hr'⟩
    · left
      rw [hBlowv, Nat.min_eq_left hge, hmvst, igneaLowN_eq hL,
        hBidxN v, igneaIdxN_congr hAidxv]
    · right
      have hw'vis := pre.inv.stackVis w' hw'st
      refine ⟨w', hstSub w' hw'st, ?_, ?_, hr'⟩
      · rw [hBlowv, Nat.min_eq_left hge, hmvst, igneaLowN_eq hlow',
          hBidxN w', igneaIdxN_congr (postA.prevIdx w' hw'vis)]
      · rw [hBidxN w', hBidxN v,
          igneaIdxN_congr (postA.prevIdx w' hw'vis),
          igneaIdxN_congr hAidxv]
        exact hlt'
  have hss : igneaStackSpec first stB (v :: anc) := by
    intro u hu
    have hu' : u ∈ stA.stack := hu
    rcases postA.ss u hu' with h | hC
    · exact Or.inl h
    · by_cases huv : u = v
      · exact Or.inl (huv ▸ List.mem_cons_self _ _)
      · obtain ⟨w', hw', hlow', hlt', hr'⟩ := hC
        refine Or.inr ⟨w', hw', ?_, hlt', hr'⟩
        rw [hBlowu u huv]
        exact hlow'
  have hels : igneaEdgeLowSpec first stB (v :: anc) := by
    intro y hyvis hynact w'' hw''
    have hyne : y ≠ v := fun he => hynact (he ▸ List.mem_cons_self _ _)
    have hyvis' : (igneaIdx stA y).isSome := hyvis
    obtain ⟨h1, h2⟩ := postA.els y hyvis' hynact w'' hw''
    refine ⟨h1, ?_⟩
    intro hws
    rw [igneaLowN_congr (hBlowu y hyne)]
    exact h2 hws
  refine ⟨⟨hinvB, hss, hels, ?_, ?_, ?_, ?_⟩, hWvisA, ?_⟩
  · -- ancStack
    intro a ha
    exact hstSub a (pre.ancStack a ha)
  · -- wsSub
    intro w' hw'
    exact pre.wsSub w' (List.mem_cons_of_mem _ hw')
  · -- shape
    rcases postA.result with ⟨h1, hAloww, _⟩ | ⟨Δw, h1, hΔwfresh, hAlowlt, hArootw⟩
    · refine ⟨Δ0, ?_, hΔ0chain⟩
      rw [hBstack, h1, hshape0]
    · refine ⟨Δw ++ w :: Δ0, ?_, ?_⟩
      · rw [hBstack, h1, hshape0, List.append_assoc, List.cons_append]
      · intro u hu
        rcases List.mem_append.mp hu with huw | huc
        · -- u ∈ Δw : fresh in st, so u ≠ v
          have hune : u ≠ v := by
            intro he
            rw [he] at huw
            rw [hΔwfresh v huw] at hvvis
            cases hvvis
          rw [hBlowvN, igneaLowN_congr (hBlowu u hune)]
          calc min mv mw ≤ mw := Nat.min_le_right _ _
            _ = igneaLowN stA w := hmw
            _ ≤ igneaLowN stA u := hArootw u huw
        · rcases List.mem_cons.mp huc with rfl | hu0
          · rw [hBlowvN, igneaLowN_congr (hBlowu u hWne)]
            exact Nat.min_le_right _ _
          · exact hΔ0chain u hu0
  · -- actLow
    rcases Nat.lt_or_ge mw mv with hlt | hge
    · rcases postA.result with ⟨h1, hAloww, _⟩ | ⟨Δw, h1, hΔwfresh, hAlowlt, hArootw⟩
      · -- popped child: min_index[w] is w's index, which exceeds v's, so
        -- the minimum cannot have decreased; contradiction with mw < mv
        exfalso
        have h2 : mw = st.visited_index.length := by
          rw [hmw, igneaLowN_eq hAloww, igneaIdxN_eq postA.vIdx]
        have h3 : igneaLowN st v ≤ igneaIdxN st v := pre.inv.lowLe v
        have h4 : igneaIdxN st v < st.visited_index.length :=
          igneaIdx_lt_len pre.inv (igneaIdx_some_of_isSome hvvis)
        rw [hmvst] at hlt
        omega
      · -- kept child: w is completed, realize min_index[v] through w's
        -- own realizing node
        right
        have hwstA : w ∈ stA.stack := by
          rw [h1]
          exact List.mem_append_right _ (List.mem_cons_self _ _)
        have hCw : igneaCompletedOn first stA w := by
          rcases postA.ss w hwstA with hact | h
          · exfalso
            rcases List.mem_cons.mp hact with he | he
            · exact hWne he
            · have := pre.inv.stackVis w (pre.ancStack w he)
              rw [hfresh] at this
              cases this
          · exact h
        obtain ⟨w', hw'A, hloww', hltw', hrw'⟩ := hCw
        refine ⟨w', hw'A, ?_, ?_, ?_⟩
        · rw [hBlowv, Nat.min_eq_right hlt.le, hmw, igneaLowN_eq hloww',
            hBidxN w']
        · rw [hBidxN w', hBidxN v]
          have h5 : igneaIdxN stA w' = mw := by
            rw [hmw, igneaLowN_eq hloww']
          have h6 : mv ≤ igneaIdxN stA v := by
            rw [hidxAv, hmvst]
            exact pre.inv.lowLe v
          omega
        · exact igneaReach_trans
            (igneaReach_single (pre.wsSub w (List.mem_cons_self _ _)))
            hrw'
    · exact hactLeft hge
  · -- edge bound for the processed edge (v, w)
    rw [hBlowvN, hBidxN w]
    exact le_trans (Nat.min_le_right _ _)
      (by rw [hmw]; exact postA.inv.lowLe w)

/-- A back edge to a stacked `w` updates
`min_index[v] = min(min_index[v], visited_index[w])`; the loop
precondition survives and the processed edge satisfies the bound. -/
theorem igneaTJ_backedge {ν : Type} [DecidableEq ν] {first : ν → List ν}
    {st : IgneaTarjanSt ν} {anc : List ν} {v w : ν} {ws base : List ν}
    (pre : IgneaTJPreInr first st anc v (w :: ws) base)
    (hwstack : w ∈ st.stack) :
    IgneaTJPreInr first
      { st with min_index := (igneaASet st.min_index v (min ((igneaALookup st.min_index v).getD 0) ((igneaALookup st.visited_index w).getD 0))) }
      anc v ws base ∧
    (igneaIdx
      { st with min_index := (igneaASet st.min_index v (min ((igneaALookup st.min_index v).getD 0) ((igneaALookup st.visited_index w).getD 0))) } w).isSome ∧
    igneaLowN
      { st with min_index := (igneaASet st.min_index v (min ((igneaALookup st.min_index v).getD 0) ((igneaALookup st.visited_index w).getD 0))) } v ≤
      igneaIdxN
        { st with min_index := (igneaASet st.min_index v (min ((igneaALookup st.min_index v).getD 0) ((igneaALookup st.visited_index w).getD 0))) } w := by
  obtain ⟨hvst, hvvis⟩ := igneaTJ_vStack pre
  have hwvis : (igneaIdx st w).isSome := pre.inv.stackVis w hwstack
  set mv := (igneaALookup st.min_index v).getD 0 with hmvdef
  set iw := (igneaALookup st.visited_index w).getD 0 with hiwdef
  set stB : IgneaTarjanSt ν :=
    { st with min_index := igneaASet st.min_index v (min mv iw) }
    with hstB
  have hmv : mv = igneaLowN st v := rfl
  have hiw : iw = igneaIdxN st w := rfl
  have hinvB : IgneaTJInv first stB := by
    rw [hstB]
    refine igneaTJ_minUpdate pre.inv v (min mv iw) hvvis ?_
    exact le_trans (Nat.min_le_left _ _)
      (by rw [hmv]; exact pre.inv.lowLe v)
  have hBidxN : ∀ u, igneaIdxN stB u = igneaIdxN st u := fun _ => rfl
  have hBlowv : igneaLow stB v = some (min mv iw) := by
    rw [hstB]
    exact igneaALookup_aset_self _ _ _
  have hBlowu : ∀ u, u ≠ v → igneaLow stB u = igneaLow st u := by
    intro u hu
    rw [hstB]
    exact igneaALookup_aset_ne _ _ _ _ hu
  have hBlowvN : igneaLowN stB v = min mv iw := igneaLowN_eq hBlowv
  obtain ⟨Δ0, hshape0, hroot0⟩ := pre.shape
  have hΔ0 := igneaTJ_aboveV pre.inv hshape0
  have hss : igneaStackSpec first stB (v :: anc) := by
    intro u hu
    have hu' : u ∈ st.stack := hu
    rcases pre.ss u hu' with h | hC
    · exact Or.inl h
    · by_cases huv : u = v
      · exact Or.inl (huv ▸ List.mem_cons_self _ _)
      · obtain ⟨w', hw', hlow', hlt', hr'⟩ := hC
        refine Or.inr ⟨w', hw', ?_, hlt', hr'⟩
        rw [hBlowu u huv]
        exact hlow'
  have hels : igneaEdgeLowSpec first stB (v :: anc) := by
    intro y hyvis hynact w'' hw''
    have hyne : y ≠ v := fun he => hynact (he ▸ List.mem_cons_self _ _)
    have hyvis' : (igneaIdx st y).isSome := hyvis
    obtain ⟨h1, h2⟩ := pre.els y hyvis' hynact w'' hw''
    refine ⟨h1, ?_⟩
    intro hws
    rw [igneaLowN_congr (hBlowu y hyne)]
    exact h2 hws
  refine ⟨⟨hinvB, hss, hels, pre.ancStack, ?_, ?_, ?_⟩, hwvis, ?_⟩
  · -- wsSub
    intro w' hw'
    exact pre.wsSub w' (List.mem_cons_of_mem _ hw')
  · -- shape
    refine ⟨Δ0, hshape0, ?_⟩
    intro u hu
    have hne := (hΔ0 u hu).2
    rw [hBlowvN, igneaLowN_congr (hBlowu u hne)]
    calc min mv iw ≤ mv := Nat.min_le_left _ _
      _ = igneaLowN st v := hmv
      _ ≤ igneaLowN st u := hroot0 u hu
  · -- actLow
    rcases Nat.lt_or_ge iw mv with hlt | hge
    · right
      refine ⟨w, hwstack, ?_, ?_, ?_⟩
      · rw [hBlowv, Nat.min_eq_right hlt.le, hiw, hBidxN w]
      · rw [hBidxN w, hBidxN v]
        have h5 : mv ≤ igneaIdxN st v := by
          rw [hmv]
          exact pre.inv.lowLe v
        rw [hiw] at hlt
        omega
      · exact igneaReach_single (pre.wsSub w (List.mem_cons_self _ _))
    · rcases pre.actLow with hL | ⟨w', hw'st, hlow', hlt', hr'⟩
      · left
        rw [hBlowv, Nat.min_eq_left hge, hmv, igneaLowN_eq hL, hBidxN v]
      · right
        refine ⟨w', hw'st, ?_, ?_, hr'⟩
        · rw [hBlowv, Nat.min_eq_left hge, hmv, igneaLowN_eq hlow',
            hBidxN w']
        · rw [hBidxN w', hBidxN v]
          exact hlt'
  · -- edge bound for the processed edge (v, w)
    rw [hBlowvN, hBidxN w, ← hiw]
    exact Nat.min_le_right _ _

/-- An edge fact established at the start of the loop remainder survives
to its end. -/
theorem igneaTJ_edgeTransfer {ν : Type} [DecidableEq ν]
    {first : ν → List ν} {stB st' : IgneaTarjanSt ν} {anc : List ν}
    {v : ν} {ws base : List ν} {w : ν}
    (post : IgneaTJPostInr first stB st' anc v ws base)
    (hinvB : IgneaTJInv first stB)
    (hwvis : (igneaIdx stB w).isSome)
    (hbound : w ∈ stB.stack → igneaLowN stB v ≤ igneaIdxN stB w) :
    (igneaIdx st' w).isSome ∧
      (w ∈ st'.stack → igneaLowN st' v ≤ igneaIdxN st' w) := by
  have hidx : igneaIdx st' w = igneaIdx stB w := post.prevIdx w hwvis
  refine ⟨by rw [hidx]; exact hwvis, ?_⟩
  intro hws
  by_cases hB : w ∈ stB.stack
  · have h1 := hbound hB
    have h2 : igneaIdxN st' w = igneaIdxN stB w := igneaIdxN_congr hidx
    have h3 := post.lowMono
    omega
  · exfalso
    rcases hinvB.visSplit w hwvis with h | ⟨S, hS, hwS⟩
    · exact hB h
    · obtain ⟨new, hnew⟩ := post.sccsExt
      refine post.inv.stackFree w hws ⟨S, ?_, hwS⟩
      rw [hnew]
      exact List.mem_append_left _ hS

/-- Composing a tree-child step with the rest of the loop. -/
theorem igneaTJ_childCompose {ν : Type} [DecidableEq ν]
    {first : ν → List ν} {st stA st' : IgneaTarjanSt ν} {anc : List ν}
    {v w : ν} {ws base : List ν}
    (pre : IgneaTJPreInr first st anc v (w :: ws) base)
    (hfresh : igneaIdx st w = none)
    (postA : IgneaTJPostInl first st stA (v :: anc) w)
    (hchild : IgneaTJPreInr first
      { stA with min_index := (igneaASet stA.min_index v (min ((igneaALookup stA.min_index v).getD 0) ((igneaALookup stA.min_index w).getD 0))) }
      anc v ws base ∧
      (igneaIdx
        { stA with min_index := (igneaASet stA.min_index v (min ((igneaALookup stA.min_index v).getD 0) ((igneaALookup stA.min_index w).getD 0))) } w).isSome ∧
      igneaLowN
        { stA with min_index := (igneaASet stA.min_index v (min ((igneaALookup stA.min_index v).getD 0) ((igneaALookup stA.min_index w).getD 0))) } v ≤
        igneaIdxN
          { stA with min_index := (igneaASet stA.min_index v (min ((igneaALookup stA.min_index v).getD 0) ((igneaALookup stA.min_index w).getD 0))) } w)
    (postB : IgneaTJPostInr first
      { stA with min_index := (igneaASet stA.min_index v (min ((igneaALookup stA.min_index v).getD 0) ((igneaALookup stA.min_index w).getD 0))) }
      st' anc v ws base) :
    IgneaTJPostInr first st st' anc v (w :: ws) base := by
  obtain ⟨hvst, hvvis⟩ := igneaTJ_vStack pre
  obtain ⟨preB, hwvisB, hboundB⟩ := hchild
  set mv := (igneaALookup stA.min_index v).getD 0 with hmvdef
  set mw := (igneaALookup stA.min_index w).getD 0 with hmwdef
  set stB : IgneaTarjanSt ν :=
    { stA with min_index := igneaASet stA.min_index v (min mv mw) }
    with hstB
  have hBlowu : ∀ u, u ≠ v → igneaLow stB u = igneaLow stA u := by
    intro u hu
    rw [hstB]
    exact igneaALookup_aset_ne _ _ _ _ hu
  have hBlowv : igneaLow stB v = some (min mv mw) := by
    rw [hstB]
    exact igneaALookup_aset_self _ _ _
  have hIdxSome : ∀ u, (igneaIdx st u).isSome → (igneaIdx stB u).isSome := by
    intro u hvis
    show (igneaIdx stA u).isSome
    rw [postA.prevIdx u hvis]
    exact hvis
  refine ⟨postB.inv, ?_, ?_, ?_, ?_, postB.ss, postB.els, postB.shape,
    ?_, postB.actLow, ?_⟩
  · -- prevIdx
    intro u hvis
    rw [postB.prevIdx u (hIdxSome u hvis)]
    show igneaIdx stA u = igneaIdx st u
    exact postA.prevIdx u hvis
  · -- prevLow
    intro u hune hvis
    rw [postB.prevLow u hune (hIdxSome u hvis), hBlowu u hune]
    exact postA.prevLow u hvis
  · -- newReach
    intro u h1 h2
    by_cases hua : (igneaIdx stA u).isSome
    · exact igneaReach_trans
        (igneaReach_single (pre.wsSub w (List.mem_cons_self _ _)))
        (postA.newReach u h1 hua)
    · have h3 : igneaIdx stB u = none := by
        show igneaIdx stA u = none
        exact Option.not_isSome_iff_eq_none.mp hua
      exact postB.newReach u h3 h2
  · -- sccsExt
    obtain ⟨n1, e1⟩ := postA.sccsExt
    obtain ⟨n2, e2⟩ := postB.sccsExt
    refine ⟨n1 ++ n2, ?_⟩
    rw [e2]
    show stA.sccs ++ n2 = st.sccs ++ (n1 ++ n2)
    rw [e1, List.append_assoc]
  · -- lowMono
    have h1 := postB.lowMono
    have h2 : igneaLowN stB v = min mv mw := igneaLowN_eq hBlowv
    have h3 : mv = igneaLowN stA v := rfl
    have h4 : igneaLowN stA v = igneaLowN st v :=
      igneaLowN_congr (postA.prevLow v hvvis)
    have h5 : min mv mw ≤ mv := Nat.min_le_left _ _
    omega
  · -- edges
    intro w'' hmem
    rcases List.mem_cons.mp hmem with rfl | htail
    · exact igneaTJ_edgeTransfer postB preB.inv hwvisB (fun _ => hboundB)
    · exact postB.edges w'' htail

/-- Composing a back-edge step with the rest of the loop. -/
theorem igneaTJ_backedgeCompose {ν : Type} [DecidableEq ν]
    {first : ν → List ν} {st st' : IgneaTarjanSt ν} {anc : List ν}
    {v w : ν} {ws base : List ν}
    (pre : IgneaTJPreInr first st anc v (w :: ws) base)
    (hback : IgneaTJPreInr first
      { st with min_index := (igneaASet st.min_index v (min ((igneaALookup st.min_index v).getD 0) ((igneaALookup st.visited_index w).getD 0))) }
      anc v ws base ∧
      (igneaIdx
        { st with min_index := (igneaASet st.min_index v (min ((igneaALookup st.min_index v).getD 0) ((igneaALookup st.visited_index w).getD 0))) } w).isSome ∧
      igneaLowN
        { st with min_index := (igneaASet st.min_index v (min ((igneaALookup st.min_index v).getD 0) ((igneaALookup st.visited_index w).getD 0))) } v ≤
        igneaIdxN
          { st with min_index := (igneaASet st.min_index v (min ((igneaALookup st.min_index v).getD 0) ((igneaALookup st.visited_index w).getD 0))) } w)
    (postB : IgneaTJPostInr first
      { st with min_index := (igneaASet st.min_index v (min ((igneaALookup st.min_index v).getD 0) ((igneaALookup st.visited_index w).getD 0))) }
      st' anc v ws base) :
    IgneaTJPostInr first st st' anc v (w :: ws) base := by
  obtain ⟨hvst, hvvis⟩ := igneaTJ_vStack pre
  obtain ⟨preB, hwvisB, hboundB⟩ := hback
  set mv := (igneaALookup st.min_index v).getD 0 with hmvdef
  set iw := (igneaALookup st.visited_index w).getD 0 with hiwdef
  set stB : IgneaTarjanSt ν :=
    { st with min_index := igneaASet st.min_index v (min mv iw) }
    with hstB
  have hBlowu : ∀ u, u ≠ v → igneaLow stB u = igneaLow st u := by
    intro u hu
    rw [hstB]
    exact igneaALookup_aset_ne _ _ _ _ hu
  have hBlowv : igneaLow stB v = some (min mv iw) := by
    rw [hstB]
    exact igneaALookup_aset_self _ _ _
  refine ⟨postB.inv, ?_, ?_, ?_, ?_, postB.ss, postB.els, postB.shape,
    ?_, postB.actLow, ?_⟩
  · -- prevIdx
    intro u hvis
    exact postB.prevIdx u hvis
  · -- prevLow
    intro u hune hvis
    rw [postB.prevLow u hune hvis, hBlowu u hune]
  · -- newReach
    intro u h1 h2
    exact postB.newReach u h1 h2
  · -- sccsExt
    obtain ⟨n2, e2⟩ := postB.sccsExt
    exact ⟨n2, e2⟩
  · -- lowMono
    have h1 := postB.lowMono
    have h2 : igneaLowN stB v = min mv iw := igneaLowN_eq hBlowv
    have h3 : mv = igneaLowN st v := rfl
    have h5 : min mv iw ≤ mv := Nat.min_le_left _ _
    omega
  · -- edges
    intro w'' hmem
    rcases List.mem_cons.mp hmem with rfl | htail
    · exact igneaTJ_edgeTransfer postB preB.inv hwvisB (fun _ => hboundB)
    · exact postB.edges w'' htail

/-- Composing a skipped edge (target already in an emitted component)
with the rest of the loop. -/
theorem igneaTJ_skipCompose {ν : Type} [DecidableEq ν]
    {first : ν → List ν} {st st' : IgneaTarjanSt ν} {anc : List ν}
    {v w : ν} {ws base : List ν}
    (pre : IgneaTJPreInr first st anc v (w :: ws) base)
    (hwvis : (igneaIdx st w).isSome)
    (hwnstack : w ∉ st.stack)
    (postB : IgneaTJPostInr first st st' anc v ws base) :
    IgneaTJPostInr first st st' anc v (w :: ws) base := by
  refine ⟨postB.inv, postB.prevIdx, postB.prevLow, postB.newReach,
    postB.sccsExt, postB.ss, postB.els, postB.shape, postB.lowMono,
    postB.actLow, ?_⟩
  intro w'' hmem
  rcases List.mem_cons.mp hmem with rfl | htail
  · refine ⟨by rw [postB.prevIdx w'' hwvis]; exact hwvis, ?_⟩
    intro hws
    exfalso
    rcases pre.inv.visSplit w'' hwvis with h | ⟨S, hS, hwS⟩
    · exact hwnstack h
    · obtain ⟨new, hnew⟩ := postB.sccsExt
      refine postB.inv.stackFree w'' hws ⟨S, ?_, hwS⟩
      rw [hnew]
      exact List.mem_append_left _ hS
  · exact postB.edges w'' htail

/-- Main induction: every successful `igneaSccGo` run satisfies its
call's postcondition. -/
theorem igneaSccGo_spec {ν : Type} [DecidableEq ν] (first : ν → List ν) :
    ∀ fuel (task : ν ⊕ (ν × List ν)) (st st' : IgneaTarjanSt ν)
      (anc : List ν),
      igneaSccGo first fuel task st = some st' →
      (∀ v, task = Sum.inl v → IgneaTJPreInl first st anc v →
        IgneaTJPostInl first st st' anc v) ∧
      (∀ v ws base, task = Sum.inr (v, ws) →
        IgneaTJPreInr first st anc v ws base →
        IgneaTJPostInr first st st' anc v ws base) := by
  intro fuel
  induction fuel with
  | zero =>
    intro task st st' anc h
    simp [igneaSccGo] at h
  | succ fuel ih =>
    intro task st st' anc h
    constructor
    · rintro v rfl pre
      simp only [igneaSccGo] at h
      split at h
      · cases h
      · rename_i st2 hA
        have postA := (ih _ _ _ anc hA).2 v (first v) st.stack rfl
          (igneaTJ_prologue pre)
        split at h
        · rename_i hcond
          split at h
          · cases h
          · rename_i scc stack' hp
            injection h with h'
            subst h'
            exact igneaTJ_emit pre postA hcond hp
        · rename_i hcond
          injection h with h'
          subst h'
          exact igneaTJ_keep pre postA hcond
    · rintro v ws base rfl pre
      rcases ws with _ | ⟨w, ws⟩
      · simp only [igneaSccGo] at h
        injection h with h'
        subst h'
        refine ⟨pre.inv, fun u _ => rfl, fun u _ _ => rfl, ?_, ⟨[],
          (List.append_nil _).symm⟩, pre.ss, pre.els, pre.shape,
          le_refl _, pre.actLow, ?_⟩
        · intro u h1 h2
          rw [h1] at h2
          cases h2
        · intro w hw
          cases hw
      · simp only [igneaSccGo] at h
        split at h
        · rename_i hfresh
          split at h
          · cases h
          · rename_i stA hA
            have preW : IgneaTJPreInl first st (v :: anc) w := by
              refine ⟨pre.inv, hfresh, pre.ss, pre.els, ?_⟩
              intro a ha
              rcases List.mem_cons.mp ha with rfl | ha'
              · exact (igneaTJ_vStack pre).1
              · exact pre.ancStack a ha'
            have postA := (ih _ _ _ (v :: anc) hA).1 w rfl preW
            have hchild := igneaTJ_child pre hfresh postA
            have postB := (ih _ _ _ anc h).2 v ws base rfl hchild.1
            exact igneaTJ_childCompose pre hfresh postA hchild postB
        · rename_i hnfresh
          split at h
          · rename_i hwstack
            have hback := igneaTJ_backedge pre hwstack
            have postB := (ih _ _ _ anc h).2 v ws base rfl hback.1
            exact igneaTJ_backedgeCompose pre hback postB
          · rename_i hwnstack
            have hwvis : (igneaIdx st w).isSome := by
              rcases hx : igneaIdx st w with _ | i
              · exact absurd hx hnfresh
              · rfl
            have preT : IgneaTJPreInr first st anc v ws base :=
              ⟨pre.inv, pre.ss, pre.els, pre.ancStack,
                fun w' hw' => pre.wsSub w' (List.mem_cons_of_mem _ hw'),
                pre.shape, pre.actLow⟩
            have postB := (ih _ _ _ anc h).2 v ws base rfl preT
            exact igneaTJ_skipCompose pre hwvis hwnstack postB

/-- The driver loop keeps the stack empty between roots, preserves the
invariant, and visits every listed node. -/
theorem igneaSccsLoop_spec {ν : Type} [DecidableEq ν]
    (first : ν → List ν) (fuel : Nat) :
    ∀ (nodes : List ν) (st st' : IgneaTarjanSt ν),
      igneaSccsLoop first fuel nodes st = some st' →
      IgneaTJInv first st → st.stack = [] →
      igneaEdgeLowSpec first st [] →
      IgneaTJInv first st' ∧ st'.stack = [] ∧
        igneaEdgeLowSpec first st' [] ∧
        (∀ u, (igneaIdx st u).isSome → (igneaIdx st' u).isSome) ∧
        (∀ v ∈ nodes, (igneaIdx st' v).isSome) := by
  intro nodes
  induction nodes with
  | nil =>
    intro st st' h hinv hempty hels
    simp only [igneaSccsLoop] at h
    injection h with h'
    subst h'
    exact ⟨hinv, hempty, hels, fun u hu => hu, fun v hv => absurd hv
      (List.not_mem_nil v)⟩
  | cons v vs ihn =>
    intro st st' h hinv hempty hels
    simp only [igneaSccsLoop] at h
    split at h
    · rename_i hfresh
      split at h
      · cases h
      · rename_i stM hA
        have pre : IgneaTJPreInl first st [] v := by
          refine ⟨hinv, hfresh, ?_, hels, ?_⟩
          · intro u hu
            rw [hempty] at hu
            cases hu
          · intro a ha
            exact absurd ha (List.not_mem_nil a)
        have post := (igneaSccGo_spec first fuel (Sum.inl v) st stM []
          hA).1 v rfl pre
        have hMempty : stM.stack = [] := by
          rcases post.result with ⟨h1, _, _⟩ | ⟨Δ, h1, _, _, _⟩
          · rw [h1, hempty]
          · exfalso
            have hvM : v ∈ stM.stack := by
              rw [h1]
              exact List.mem_append_right _ (List.mem_cons_self _ _)
            rcases post.ss v hvM with hc | hc
            · exact absurd hc (List.not_mem_nil v)
            · obtain ⟨w, hw, _, hlt, _⟩ := hc
              rw [h1, hempty] at hw
              have hpair := post.inv.stackIdx
              rw [h1, hempty] at hpair
              obtain ⟨_, _, hcross⟩ := List.pairwise_append.mp hpair
              rcases List.mem_append.mp hw with hwΔ | hwv
              · have := hcross w hwΔ v (List.mem_cons_self _ _)
                omega
              · rcases List.mem_cons.mp hwv with rfl | hwn
                · exact absurd hlt (lt_irrefl _)
                · exact absurd hwn (List.not_mem_nil w)
        obtain ⟨hinv', hempty', hels', hmono, hall⟩ :=
          ihn stM st' h post.inv hMempty post.els
        refine ⟨hinv', hempty', hels', ?_, ?_⟩
        · intro u hu
          refine hmono u ?_
          rw [post.prevIdx u hu]
          exact hu
        · intro u hu
          rcases List.mem_cons.mp hu with rfl | hu'
          · refine hmono u ?_
            rw [post.vIdx]
            rfl
          · exact hall u hu'
    · rename_i hvis
      obtain ⟨hinv', hempty', hels', hmono, hall⟩ :=
        ihn st st' h hinv hempty hels
      refine ⟨hinv', hempty', hels', hmono, ?_⟩
      intro u hu
      rcases List.mem_cons.mp hu with rfl | hu'
      · refine hmono u ?_
        rcases hx : igneaIdx st u with _ | i
        · exact absurd hx hvis
        · rfl
      · exact hall u hu'

/-- Correctness of `ignea_compute_sccs`: a successful run returns
duplicate-free, pairwise-disjoint components, each of which is exactly
the mutual-reachability class of each of its members, and every node of
the graph lies in one of them. -/
theorem igneaComputeSccs_correct {ν : Type} [DecidableEq ν]
    (first : ν → List ν) (nodes : List ν) (sccs : List (List ν))
    (h : igneaComputeSccs first nodes = some sccs) :
    (∀ S ∈ sccs, S.Nodup) ∧
      sccs.Pairwise (fun S T => ∀ x ∈ S, x ∉ T) ∧
      (∀ S ∈ sccs, ∀ x ∈ S, ∀ y, y ∈ S ↔ igneaMutual first x y) ∧
      (∀ v ∈ nodes, ∃ S ∈ sccs, v ∈ S) := by
  rw [igneaComputeSccs] at h
  split at h
  · cases h
  · rename_i stF hF
    injection h with h'
    subst h'
    have hinv0 : IgneaTJInv first
        (⟨[], [], [], []⟩ : IgneaTarjanSt ν) := by
      refine ⟨rfl, ?_, ?_, ?_, List.Pairwise.nil, ?_, ?_, ?_, ?_,
        List.Pairwise.nil, ?_, ?_⟩
      · intro v
        constructor <;> (intro hx; cases hx)
      · intro v
        exact le_refl _
      · intro v hv
        cases hv
      · intro v hv
        cases hv
      · intro v hv
        cases hv
      · intro S hS
        cases hS
      · intro S hS
        cases hS
      · intro S hS
        cases hS
      · intro i hi
        cases hi
    have hels0 : igneaEdgeLowSpec first
        (⟨[], [], [], []⟩ : IgneaTarjanSt ν) [] := by
      intro y hyvis
      cases hyvis
    obtain ⟨hinv', hempty', _, _, hall⟩ :=
      igneaSccsLoop_spec first (igneaSccFuel first nodes) nodes _ stF hF
        hinv0 rfl hels0
    refine ⟨hinv'.sccNodup, hinv'.sccDisj, ?_, ?_⟩
    · intro S hS x hx y
      exact igneaSccCertificate first stF.sccs hinv'.sccDisj
        hinv'.sccSC hinv'.sccClosed hS hx y
    · intro v hv
      rcases hinv'.visSplit v (hall v hv) with hstk | hasg
      · rw [hempty'] at hstk
        cases hstk
      · exact hasg

/-- Lookup after the per-component fold that writes both tables: keys
not in the list are untouched; listed keys (no duplicates) map to their
values. -/
theorem igneaASetFold_lookup {ν : Type} [DecidableEq ν]
    (f g : ν → List ν) :
    ∀ (l : List ν) (tb : List (ν × List ν) × List (ν × List ν)) (v : ν),
      (v ∉ l →
        igneaALookup (l.foldl (fun tb u =>
          (igneaASet tb.1 u (f u), igneaASet tb.2 u (g u))) tb).1 v =
          igneaALookup tb.1 v ∧
        igneaALookup (l.foldl (fun tb u =>
          (igneaASet tb.1 u (f u), igneaASet tb.2 u (g u))) tb).2 v =
          igneaALookup tb.2 v) ∧
      (v ∈ l → l.Nodup →
        igneaALookup (l.foldl (fun tb u =>
          (igneaASet tb.1 u (f u), igneaASet tb.2 u (g u))) tb).1 v =
          some (f v) ∧
        igneaALookup (l.foldl (fun tb u =>
          (igneaASet tb.1 u (f u), igneaASet tb.2 u (g u))) tb).2 v =
          some (g v))
  | [], tb, v => by
    constructor
    · intro _
      exact ⟨rfl, rfl⟩
    · intro hv _
      cases hv
  | u :: l, tb, v => by
    simp only [List.foldl_cons]
    constructor
    · intro hv
      have hvu : v ≠ u := fun he => hv (he ▸ List.mem_cons_self _ _)
      have hvl : v ∉ l := fun he => hv (List.mem_cons_of_mem _ he)
      obtain ⟨h1, h2⟩ := (igneaASetFold_lookup f g l
        (igneaASet tb.1 u (f u), igneaASet tb.2 u (g u)) v).1 hvl
      rw [h1, h2]
      exact ⟨igneaALookup_aset_ne _ _ _ _ hvu,
        igneaALookup_aset_ne _ _ _ _ hvu⟩
    · intro hv hnd
      have hnd' : l.Nodup := (List.nodup_cons.mp hnd).2
      rcases List.mem_cons.mp hv with rfl | hvl
      · have hvl : v ∉ l := (List.nodup_cons.mp hnd).1
        obtain ⟨h1, h2⟩ := (igneaASetFold_lookup f g l
          (igneaASet tb.1 v (f v), igneaASet tb.2 v (g v)) v).1 hvl
        rw [h1, h2]
        exact ⟨igneaALookup_aset_self _ _ _, igneaALookup_aset_self _ _ _⟩
      · exact (igneaASetFold_lookup f g l
          (igneaASet tb.1 u (f u), igneaASet tb.2 u (g u)) v).2 hvl hnd'

/-- Components containing none of `v`'s occurrences leave `v`'s table
entries untouched. -/
theorem igneaSccTablesLoop_untouched {ν : Type} [DecidableEq ν]
    (first : ν → List ν) :
    ∀ (cs : List (List ν)) (tb : List (ν × List ν) × List (ν × List ν))
      (v : ν), (∀ S ∈ cs, v ∉ S) →
      igneaALookup (igneaSccTablesLoop first cs tb).1 v =
        igneaALookup tb.1 v ∧
      igneaALookup (igneaSccTablesLoop first cs tb).2 v =
        igneaALookup tb.2 v
  | [], tb, v, _ => ⟨rfl, rfl⟩
  | S :: cs, tb, v, hnot => by
    have hvS : v ∉ S := hnot S (List.mem_cons_self _ _)
    have hrest : ∀ T ∈ cs, v ∉ T := fun T hT =>
      hnot T (List.mem_cons_of_mem _ hT)
    rw [igneaSccTablesLoop]
    split
    · exact igneaSccTablesLoop_untouched first cs tb v hrest
    · have hvd : v ∉ S.dedup := fun h => hvS (List.mem_dedup.mp h)
      obtain ⟨h1, h2⟩ := (igneaASetFold_lookup
        (fun u => (first u).filter (fun w => w ∈ S))
        (fun u => S.dedup.filter (fun w => u ∈ first w))
        S.dedup tb v).1 hvd
      obtain ⟨h3, h4⟩ := igneaSccTablesLoop_untouched first cs _ v hrest
      rw [h3, h4, h1, h2]
      exact ⟨rfl, rfl⟩

/-- Table entries of a member `v` of component `S`: none if `S` is
skipped (a single node without self-loop), otherwise the in-component
first set and the ascend parents. -/
theorem igneaSccTablesLoop_lookup {ν : Type} [DecidableEq ν]
    (first : ν → List ν) :
    ∀ (cs : List (List ν)) (tb : List (ν × List ν) × List (ν × List ν))
      (v : ν) (S : List ν),
      cs.Pairwise (fun S T => ∀ x ∈ S, x ∉ T) → S ∈ cs → v ∈ S →
      igneaALookup tb.1 v = none → igneaALookup tb.2 v = none →
      ((S.dedup.length = 1 ∧ ∀ u ∈ S, u ∉ first u) →
        igneaALookup (igneaSccTablesLoop first cs tb).1 v = none ∧
        igneaALookup (igneaSccTablesLoop first cs tb).2 v = none) ∧
      (¬ (S.dedup.length = 1 ∧ ∀ u ∈ S, u ∉ first u) →
        igneaALookup (igneaSccTablesLoop first cs tb).1 v =
          some ((first v).filter (fun w => w ∈ S)) ∧
        igneaALookup (igneaSccTablesLoop first cs tb).2 v =
          some (S.dedup.filter (fun w => v ∈ first w)))
  | [], tb, v, S, _, hS, _, _, _ => absurd hS (List.not_mem_nil S)
  | T :: cs, tb, v, S, hdisj, hS, hvS, htb1, htb2 => by
    obtain ⟨hhead, htail⟩ := List.pairwise_cons.mp hdisj
    rcases List.mem_cons.mp hS with rfl | hSrest
    · -- S is the head component
      have hvrest : ∀ U ∈ cs, v ∉ U := fun U hU => hhead U hU v hvS
      rw [igneaSccTablesLoop]
      split
      · rename_i hguard
        constructor
        · intro _
          obtain ⟨h1, h2⟩ :=
            igneaSccTablesLoop_untouched first cs tb v hvrest
          rw [h1, h2, htb1, htb2]
          exact ⟨rfl, rfl⟩
        · intro hng
          exact absurd hguard hng
      · rename_i hguard
        constructor
        · intro hg
          exact absurd hg hguard
        · intro _
          have hvd : v ∈ S.dedup := List.mem_dedup.mpr hvS
          obtain ⟨h1, h2⟩ := (igneaASetFold_lookup
            (fun u => (first u).filter (fun w => w ∈ S))
            (fun u => S.dedup.filter (fun w => u ∈ first w))
            S.dedup tb v).2 hvd (List.nodup_dedup S)
          obtain ⟨h3, h4⟩ :=
            igneaSccTablesLoop_untouched first cs _ v hvrest
          rw [h3, h4, h1, h2]
          exact ⟨rfl, rfl⟩
    · -- S occurs further on; v is not in the head component
      have hvT : v ∉ T := by
        intro hvT
        exact hhead S hSrest v hvT hvS
      rw [igneaSccTablesLoop]
      split
      · exact igneaSccTablesLoop_lookup first cs tb v S htail hSrest hvS
          htb1 htb2
      · have hvd : v ∉ T.dedup := fun h => hvT (List.mem_dedup.mp h)
        obtain ⟨h1, h2⟩ := (igneaASetFold_lookup
          (fun u => (first u).filter (fun w => w ∈ T))
          (fun u => T.dedup.filter (fun w => u ∈ first w))
          T.dedup tb v).1 hvd
        refine igneaSccTablesLoop_lookup first cs _ v S htail hSrest hvS
          ?_ ?_
        · rw [h1]
          exact htb1
        · rw [h2]
          exact htb2

/-- C5: for every grammar whose FIRST graph gives some nonterminal type
an SCC of size 1 without a self-loop, parser initialization treats that
type as non-left-recursive: it gets no entry in `_nonterminal_types_first`
and none in `nonterminal_types_ascend_parents`; every member of an SCC of
size greater than 1, or of size 1 with a self-loop, gets entries
restricted to its SCC (the in-SCC first set, and the in-SCC parents whose
first set contains it). -/
theorem c5_left_recursion_tables {ν : Type} [DecidableEq ν]
    (first : ν → List ν) (nodes : List ν)
    (_hclosed : ∀ v ∈ nodes, ∀ w ∈ first v, w ∈ nodes)
    (tf ap : List (ν × List ν))
    (hrun : igneaParserInitTables first nodes = some (tf, ap))
    (v : ν) (hv : v ∈ nodes) :
    ((∀ w, igneaMutual first v w → w = v) ∧ v ∉ first v →
      igneaALookup tf v = none ∧ igneaALookup ap v = none) ∧
    (¬ ((∀ w, igneaMutual first v w → w = v) ∧ v ∉ first v) →
      (∃ l, igneaALookup tf v = some l ∧
        ∀ w, w ∈ l ↔ (igneaMutual first v w ∧ w ∈ first v)) ∧
      (∃ l, igneaALookup ap v = some l ∧
        ∀ w, w ∈ l ↔ (igneaMutual first v w ∧ v ∈ first w))) := by
  rw [igneaParserInitTables] at hrun
  split at hrun
  · cases hrun
  · rename_i sccs hsccs
    injection hrun with hrun'
    have htf : tf = (igneaSccTablesLoop first sccs ([], [])).1 := by
      rw [hrun']
    have hap : ap = (igneaSccTablesLoop first sccs ([], [])).2 := by
      rw [hrun']
    obtain ⟨hnodup, hdisj, hchar, hcov⟩ :=
      igneaComputeSccs_correct first nodes sccs hsccs
    obtain ⟨S, hS, hvS⟩ := hcov v hv
    have hyS : ∀ y, y ∈ S ↔ igneaMutual first v y := hchar S hS v hvS
    have hlook := igneaSccTablesLoop_lookup first sccs ([], []) v S hdisj
      hS hvS rfl rfl
    constructor
    · rintro ⟨htriv, hself⟩
      have hSv : S = [v] := by
        have hall : ∀ y ∈ S, y = v := fun y hy => htriv y ((hyS y).mp hy)
        have hnd := hnodup S hS
        cases S with
        | nil => cases hvS
        | cons a t =>
          have ha : a = v := hall a (List.mem_cons_self _ _)
          cases t with
          | nil => rw [ha]
          | cons b t2 =>
            exfalso
            have hb : b = v := hall b
              (List.mem_cons_of_mem _ (List.mem_cons_self _ _))
            have := (List.nodup_cons.mp hnd).1
            rw [ha, ← hb] at this
            exact this (List.mem_cons_self _ _)
      have hguard : S.dedup.length = 1 ∧ ∀ u ∈ S, u ∉ first u := by
        constructor
        · rw [hSv]
          rfl
        · intro u hu
          rw [hSv] at hu
          rcases List.mem_cons.mp hu with rfl | hu'
          · exact hself
          · cases hu'
      obtain ⟨h1, h2⟩ := hlook.1 hguard
      rw [htf, hap]
      exact ⟨h1, h2⟩
    · intro hnt
      have hnguard : ¬ (S.dedup.length = 1 ∧ ∀ u ∈ S, u ∉ first u) := by
        rintro ⟨hlen, hnsl⟩
        refine hnt ⟨?_, hnsl v hvS⟩
        have hvd : v ∈ S.dedup := List.mem_dedup.mpr hvS
        have hdv : S.dedup = [v] := by
          rcases hd : S.dedup with _ | ⟨a, t⟩
          · rw [hd] at hvd
            cases hvd
          · rw [hd] at hlen hvd
            cases t with
            | nil =>
              rcases List.mem_cons.mp hvd with rfl | hv'
              · rfl
              · cases hv'
            | cons b t2 =>
              simp at hlen
        intro w hw
        have hwS : w ∈ S := (hyS w).mpr hw
        have : w ∈ S.dedup := List.mem_dedup.mpr hwS
        rw [hdv] at this
        rcases List.mem_cons.mp this with h | h
        · exact h
        · cases h
      obtain ⟨h1, h2⟩ := hlook.2 hnguard
      constructor
      · refine ⟨(first v).filter (fun w => w ∈ S), by rw [htf]; exact h1, ?_⟩
        intro w
        rw [List.mem_filter]
        simp only [decide_eq_true_eq]
        rw [hyS w]
        exact and_comm
      · refine ⟨S.dedup.filter (fun w => v ∈ first w),
          by rw [hap]; exact h2, ?_⟩
        intro w
        rw [List.mem_filter]
        simp only [decide_eq_true_eq, List.mem_dedup]
        rw [hyS w]

/-- Concrete FIRST graph for the C5 witness: 0 ↔ 1 form a recursion
cycle; 2 → 1 is an SCC of size 1 without a self-loop. -/
def c5First : Nat → List Nat
  | 0 => [1]
  | 1 => [0]
  | 2 => [1]
  | _ => []

theorem c5_left_recursion_tables_witness :
    (∃ l, igneaALookup [((0 : Nat), [(1 : Nat)]), (1, [0])] 0 = some l ∧
      ∀ w, w ∈ l ↔ (igneaMutual c5First 0 w ∧ w ∈ c5First 0)) ∧
    (∃ l, igneaALookup [((0 : Nat), [(1 : Nat)]), (1, [0])] 0 = some l ∧
      ∀ w, w ∈ l ↔ (igneaMutual c5First 0 w ∧ 0 ∈ c5First w)) :=
  (c5_left_recursion_tables c5First [0, 1, 2]
    (by decide) [(0, [1]), (1, [0])] [(0, [1]), (1, [0])]
    (by decide) 0 (by decide)).2
    (fun h => absurd (h.1 1 ⟨Relation.ReflTransGen.single
        (show (1 : Nat) ∈ c5First 0 by decide),
      Relation.ReflTransGen.single
        (show (0 : Nat) ∈ c5First 1 by decide)⟩) (by decide))

end Ignea
